import Mathlib

/-!
# Buffer cache of xv6 (`kernel/bio.c`), hash-queue variant

A shallow embedding of `kernel/bio.c`: the buffer pool `bcache.buf`, the
`NQUEUE` hash queues with their circular doubly linked lists, the spinlocks
and sleeplocks that guard them, and the operations `binit`, `bget`, `bread`,
`bwrite`, `brelse`, `bpin`, `bunpin` with their helpers.

Pointers are modelled by the type `Ptr` (null, the head node of a hash queue,
or a slot of `bcache.buf`); C statements are run in source order on an explicit
state.  Unsigned 32-bit fields are natural numbers, reduced modulo `UINT_MOD`
where the C arithmetic can wrap.
-/

set_option autoImplicit false

namespace Bio

/-! ## Constants and machine integers -/

/-- The number of hash queues, `#define NQUEUE 13`. -/
def NQUEUE : Nat := 13

/-- Modelled from the spec: the range of the unsigned counters.  The C type `uint` comes
from `types.h`, which is not among the sources; it is the 32-bit `unsigned int`, with
this many values. -/
def UINT_MOD : Nat := 4294967296

/-- The value stored by `b->blockno = -1` into the `uint` field: `-1` converted to `uint`. -/
def SENTINEL : Nat := UINT_MOD - 1

/-- The C test `x < 0` on a `uint` operand: an unsigned comparison with zero. -/
def uintLtZero (x : Nat) : Bool := decide (x % UINT_MOD < 0)

/-- The increment `x++` of a `uint`. -/
def uintInc (x : Nat) : Nat := (x + 1) % UINT_MOD

/-- The decrement `x--` of a `uint`. -/
def uintDec (x : Nat) : Nat := (x + (UINT_MOD - 1)) % UINT_MOD

/-! ## Data model -/

/-- A `struct buf *`: null, `&bcache.hashqueue[q].head`, or `&bcache.buf[i]`. -/
inductive Ptr where
  | null
  | head (q : Nat)
  | buf (i : Nat)
deriving DecidableEq, Repr

/-- Modelled from the spec: `struct buf`, declared in `buf.h`, which is not among the
sources.  An entry has a key `(dev, blockno)`, a flag `valid`, an unsigned reference
count `refcnt`, an exclusive lock `lock` (the sleeplock, given by the pid of its holder)
and its membership links `prev` and `next`; the field names are those `bio.c` uses.
`dev` and `blockno` have the type `uint` of the parameters of `bget` and `gethashqueue`
they are assigned from, compared with and passed to.  The block contents `data` are not
represented. -/
structure Buf where
  valid : Bool
  dev : Nat
  blockno : Nat
  lock : Option Nat
  refcnt : Nat
  prev : Ptr
  next : Ptr
deriving DecidableEq, Repr

/-- A zero-filled `struct buf`. -/
def Buf.zero : Buf :=
  { valid := false, dev := 0, blockno := 0, lock := none, refcnt := 0, prev := .null, next := .null }

/-- The global `bcache`.  The array `hashqueue[NQUEUE]` of `struct hashqueue` is kept as
two lists side by side: `hqlock[q]` is `hashqueue[q].lock` (the cpu holding the spinlock,
if any) and `hqhead[q]` is `hashqueue[q].head`.  `disk` is not a field of the C struct:
it lists the requests handed to the disk driver so far (newest first) as the slot, its
`dev` and `blockno`, and the write flag. -/
structure Bcache where
  lock : Option Nat
  buf : List Buf
  hqlock : List (Option Nat)
  hqhead : List Buf
  disk : List (Ptr × Nat × Nat × Nat)
deriving DecidableEq, Repr

/-- The caller: the cpu it runs on (spinlocks) and its process id (sleeplocks). -/
structure Ctx where
  cpu : Nat
  pid : Nat
deriving DecidableEq, Repr

/-- A `struct spinlock *`: null, `&bcache.lock`, or `&bcache.hashqueue[q].lock`. -/
inductive Spin where
  | null
  | bcache
  | hq (q : Nat)
deriving DecidableEq, Repr

/-- Address order of the spinlocks inside `bcache`: `lock` is the first member,
the `hashqueue` array follows `buf`, and `lock` is the first member of each queue. -/
def Spin.addr : Spin → Nat
  | .null => 0
  | .bcache => 1
  | .hq q => 2 + q

/-- The texts passed to `panic`. -/
inductive PanicMsg where
  /-- The text "bget: buffer must in hashqueue". -/
  | bgetMustInHashqueue
  /-- The text "bget: no buffers". -/
  | bgetNoBuffers
  /-- The text "bwrite". -/
  | bwrite
  /-- The text "brelse". -/
  | brelse
  /-- The text "brelse: buffer must exist in hashqueue". -/
  | brelseMustExist
  /-- The text "bpin: buffer must exist in hashqueue". -/
  | bpinMustExist
  /-- The text "bunpin: buffer must exist in hashqueue". -/
  | bunpinMustExist
  /-- The text "lockboth: lhs must hold the lock". -/
  | lockbothLhs
  /-- The text "release" (a cpu releasing a spinlock it does not hold). -/
  | release
deriving DecidableEq, Repr

/-- Ways in which a call does not return. -/
inductive Err where
  /-- The kernel stopped in `panic`. -/
  | panic (msg : PanicMsg)
  /-- The cpu spins in `acquire` on a spinlock that is held. -/
  | spin
  /-- The process sleeps in `acquiresleep` on a sleeplock that is held. -/
  | sleep
  /-- A null or wild pointer was dereferenced. -/
  | fault
  /-- A loop ran without reaching its exit. -/
  | diverge
deriving DecidableEq, Repr

/-- Outcome of running a piece of code: a value and the state reached, or the
reason it did not return and the state at that moment. -/
inductive Res (α : Type) where
  | ok (a : α) (s : Bcache)
  | fail (e : Err) (s : Bcache)
deriving DecidableEq, Repr

/-- Code acting on the global state. -/
def M (α : Type) : Type := Bcache → Res α

/-- Sequencing of two pieces of code. -/
def M.bind {α β : Type} (x : M α) (f : α → M β) : M β := fun s =>
  match x s with
  | .ok a s1 => f a s1
  | .fail e s1 => .fail e s1

/-- Code that returns a value without touching the state. -/
def M.pure {α : Type} (a : α) : M α := fun s => .ok a s

instance : Monad M where
  pure := M.pure
  bind := M.bind

/-- The call `panic(msg)`. -/
def panic {α : Type} (msg : PanicMsg) : M α := fun s => .fail (.panic msg) s

/-- Stop with the given reason. -/
def stop {α : Type} (e : Err) : M α := fun s => .fail e s

/-! ## Memory access -/

/-- The `struct buf` a pointer refers to, if it refers to one. -/
def getNode (s : Bcache) : Ptr → Option Buf
  | .null => none
  | .head q => s.hqhead[q]?
  | .buf i => s.buf[i]?

/-- Store a `struct buf` through a pointer. -/
def setNode (s : Bcache) (p : Ptr) (n : Buf) : Bcache :=
  match p with
  | .null => s
  | .head q => { s with hqhead := s.hqhead.set q n }
  | .buf i => { s with buf := s.buf.set i n }

/-- Read `*p`. -/
def rd (p : Ptr) : M Buf := fun s =>
  match getNode s p with
  | some n => .ok n s
  | none => .fail .fault s

/-- Update `*p` by `f` (an assignment to one or more fields). -/
def wr (p : Ptr) (f : Buf → Buf) : M Unit := fun s =>
  match getNode s p with
  | some n => .ok () (setNode s p (f n))
  | none => .fail .fault s

/-- The holder of a spinlock, if the pointer refers to one. -/
def getSpin (s : Bcache) : Spin → Option (Option Nat)
  | .null => none
  | .bcache => some s.lock
  | .hq q => s.hqlock[q]?

/-- Set the holder of a spinlock. -/
def setSpin (s : Bcache) (l : Spin) (v : Option Nat) : Bcache :=
  match l with
  | .null => s
  | .bcache => { s with lock := v }
  | .hq q => { s with hqlock := s.hqlock.set q v }

/-! ## Locks and the disk driver

`spinlock.c`, `sleeplock.c` and `virtio_disk.c` are collaborators of `bio.c`. -/

/-- Modelled from the spec: `holding(lk)` of `spinlock.c`, which is not among the sources.
A lock is held by at most one thread at a time; `holding` tells whether the calling cpu is
that holder. -/
def holding (c : Ctx) (l : Spin) : M Bool := fun s =>
  match getSpin s l with
  | none => .fail .fault s
  | some h => .ok (decide (h = some c.cpu)) s

/-- Modelled from the spec: `acquire(lk)` of `spinlock.c`, which is not among the sources.
A free lock is taken; on a held lock the caller waits for it to become available, which
in a state that nobody else changes never ends. -/
def acquire (c : Ctx) (l : Spin) : M Unit := fun s =>
  match getSpin s l with
  | none => .fail .fault s
  | some none => .ok () (setSpin s l (some c.cpu))
  | some (some _) => .fail .spin s

/-- Modelled from the spec: `release(lk)` of `spinlock.c`, which is not among the sources.
The holder gives the lock up; releasing a lock the cpu does not hold is fatal. -/
def release (c : Ctx) (l : Spin) : M Unit := fun s =>
  match getSpin s l with
  | none => .fail .fault s
  | some h => if h = some c.cpu then .ok () (setSpin s l none) else .fail (.panic .release) s

/-- Modelled from the spec: `holdingsleep(&b->lock)` of `sleeplock.c`, which is not among the
sources: the exclusive lock of the entry is held by the calling process. -/
def holdingsleep (c : Ctx) (b : Ptr) : M Bool := fun s =>
  match getNode s b with
  | none => .fail .fault s
  | some n => .ok (decide (n.lock = some c.pid)) s

/-- Modelled from the spec: `acquiresleep(&b->lock)` of `sleeplock.c`, which is not among the
sources: block until the exclusive lock of the entry is acquired.  A free lock is
taken; on a held lock the caller sleeps, which in a state that nobody else changes never
ends. -/
def acquiresleep (c : Ctx) (b : Ptr) : M Unit := fun s =>
  match getNode s b with
  | none => .fail .fault s
  | some n =>
    match n.lock with
    | none => .ok () (setNode s b { n with lock := some c.pid })
    | some _ => .fail .sleep s

/-- Modelled from the spec: `releasesleep(&b->lock)` of `sleeplock.c`, which is not among the
sources: release the exclusive lock of the entry. -/
def releasesleep (b : Ptr) : M Unit := fun s =>
  match getNode s b with
  | none => .fail .fault s
  | some n => .ok () (setNode s b { n with lock := none })

/-- Modelled from the spec: `virtio_disk_rw(b, write)` of `virtio_disk.c`, which is not among the
sources: one synchronous read or write of exactly the block of `b`.  The request
is logged. -/
def virtio_disk_rw (b : Ptr) (write : Nat) : M Unit := fun s =>
  match getNode s b with
  | none => .fail .fault s
  | some n => .ok () { s with disk := (b, n.dev, n.blockno, write) :: s.disk }

/-! ## Hash queues -/

/-- Source function `uint hash(uint value)`. -/
def hash (value : Nat) : Nat := value

/-- Source function `struct hashqueue *gethashqueue(uint blockno)`; the result `none` is
the null pointer, `some q` is `&bcache.hashqueue[q]`. -/
def gethashqueue (blockno : Nat) : Option Nat :=
  if uintLtZero blockno then none else some (hash blockno % NQUEUE)

/-- The address `&hq->lock` (the lock is the first member, so null stays null). -/
def lockOf : Option Nat → Spin
  | none => .null
  | some q => .hq q

/-- The address `&hq->head`. -/
def headOf : Option Nat → Ptr
  | none => .null
  | some q => .head q

/-- Source function `int hashqueue_eq(struct hashqueue *lhs, struct hashqueue *rhs)`. -/
def hashqueue_eq (lhs rhs : Option Nat) : Bool := decide (headOf lhs = headOf rhs)

/-- Source function `void hashqueue_init(struct hashqueue *hq)`; `initlock` leaves the
lock free. -/
def hashqueue_init (hq : Option Nat) : M Unit := do
  wr (headOf hq) (fun n => { n with prev := headOf hq })
  wr (headOf hq) (fun n => { n with next := headOf hq })
  fun s => .ok () (setSpin s (lockOf hq) none)

/-- Source function `int isin_hashqueue(struct buf *b)`. -/
def isin_hashqueue (b : Ptr) : M Bool := do
  let n ← rd b
  pure (decide (n.prev ≠ .null ∨ n.next ≠ .null))

/-- Source function `void remove_from_hashqueue(struct buf *b)`. -/
def remove_from_hashqueue (b : Ptr) : M Unit := do
  let n ← rd b
  if n.next ≠ .null ∧ n.prev ≠ .null then do
    let n1 ← rd b
    wr n1.next (fun x => { x with prev := n1.prev })
    let n2 ← rd b
    wr n2.prev (fun x => { x with next := n2.next })
    wr b (fun x => { x with next := .null, prev := .null })
  else
    wr b (fun x => { x with next := .null, prev := .null })

/-- Source function `void hashqueue_addhead(struct hashqueue *hq, struct buf *b)`. -/
def hashqueue_addhead (hq : Option Nat) (b : Ptr) : M Unit := do
  remove_from_hashqueue b
  let h ← rd (headOf hq)
  wr b (fun x => { x with next := h.next })
  wr b (fun x => { x with prev := headOf hq })
  let h1 ← rd (headOf hq)
  wr h1.next (fun x => { x with prev := b })
  wr (headOf hq) (fun x => { x with next := b })

/-- Source function `void lockboth(struct spinlock *lhs, struct spinlock *rhs)`; the
pointers are compared by address. -/
def lockboth (c : Ctx) (lhs rhs : Spin) : M Unit := do
  let h ← holding c lhs
  if !h then panic .lockbothLhs
  else if lhs = rhs then pure ()
  else if lhs.addr > rhs.addr then do
    release c lhs
    acquire c rhs
    acquire c lhs
  else
    acquire c rhs

/-! ## The cache operations -/

/-- The state of `bcache` before `binit`: zero-filled static storage with `n` buffers. -/
def zeroBcache (n : Nat) : Bcache :=
  { lock := none, buf := List.replicate n Buf.zero,
    hqlock := List.replicate NQUEUE none, hqhead := List.replicate NQUEUE Buf.zero,
    disk := [] }

/-- The loop `for(int i = 0; i < NQUEUE; i++) hashqueue_init(&bcache.hashqueue[i])`,
from index `i` with `n` iterations left. -/
def binit_queues : Nat → Nat → M Unit
  | _, 0 => pure ()
  | i, n + 1 => do
    hashqueue_init (some i)
    binit_queues (i + 1) n

/-- The loop of `binit` over `bcache.buf`, from slot `i` with `n` iterations left;
`initsleeplock` leaves the sleeplock free. -/
def binit_bufs : Nat → Nat → M Unit
  | _, 0 => pure ()
  | i, n + 1 => do
    wr (.buf i) (fun x => { x with lock := none })
    remove_from_hashqueue (.buf i)
    wr (.buf i) (fun x => { x with blockno := SENTINEL })
    binit_bufs (i + 1) n

/-- Source function `void binit(void)`; `initlock` leaves `bcache.lock` free. -/
def binit : M Unit := do
  (fun s => .ok () (setSpin s .bcache none))
  binit_queues 0 NQUEUE
  let nbuf ← (fun s => .ok s.buf.length s)
  binit_bufs 0 nbuf

/-- The first loop of `bget`, `for(b = hq->head.next; b != &hq->head; b = b->next)`,
at node `b`: the matching buffer, or `none` when the walk is back at the head.  The fuel
bounds the number of nodes visited; the state does not change during the walk, so a
walk through more nodes than exist never ends. -/
def bget_lookup (hd : Ptr) (dev blockno : Nat) : Nat → Ptr → M (Option Ptr)
  | 0, _ => stop .diverge
  | fuel + 1, b => fun s =>
    if b = hd then .ok none s
    else
      match getNode s b with
      | none => .fail .fault s
      | some n =>
        if n.dev = dev ∧ n.blockno = blockno then .ok (some b) s
        else bget_lookup hd dev blockno fuel n.next s

/-- The second loop of `bget` (checking newly buffers), from slot `i` with `n`
iterations left: the first slot with `b->blockno < 0`. -/
def bget_unused : Nat → Nat → M (Option Ptr)
  | _, 0 => pure none
  | i, n + 1 => do
    let x ← rd (.buf i)
    if uintLtZero x.blockno then pure (some (.buf i))
    else bget_unused (i + 1) n

/-- The third loop of `bget` (not cached), from slot `i` with `n` iterations left:
the first slot with `refcnt == 0` together with the queue `ohq` it was found under,
or the panic when the loop runs out. -/
def bget_evict (c : Ctx) (hq : Option Nat) : Nat → Nat → M (Ptr × Option Nat)
  | _, 0 => panic .bgetNoBuffers
  | i, n + 1 => do
    let x ← rd (.buf i)
    let ohq := gethashqueue x.blockno
    lockboth c (lockOf hq) (lockOf ohq)
    let y ← rd (.buf i)
    if y.refcnt = 0 then pure (.buf i, ohq)
    else do
      if !hashqueue_eq ohq hq then release c (lockOf ohq) else pure ()
      bget_evict c hq (i + 1) n

/-- The code of `bget` from the label `found` on. -/
def bget_found (c : Ctx) (dev blockno : Nat) (hq ohq : Option Nat) (b : Ptr) : M Ptr := do
  wr b (fun x => { x with refcnt := 1 })
  wr b (fun x => { x with valid := false })
  wr b (fun x => { x with dev := dev })
  wr b (fun x => { x with blockno := blockno })
  hashqueue_addhead hq b
  release c .bcache
  let h ← holding c (lockOf hq)
  if h then release c (lockOf hq) else pure ()
  let oh ← holding c (lockOf ohq)
  if oh then release c (lockOf ohq) else pure ()
  acquiresleep c b
  pure b

/-- The code of `bget` after the target bucket was searched without a hit. -/
def bget_miss (c : Ctx) (dev blockno : Nat) (hq : Option Nat) : M Ptr := do
  release c (lockOf hq)
  acquire c .bcache
  let nbuf ← (fun s => .ok s.buf.length s)
  let u ← bget_unused 0 nbuf
  match u with
  | some b => bget_found c dev blockno hq none b
  | none => do
    acquire c (lockOf hq)
    let r ← bget_evict c hq 0 nbuf
    bget_found c dev blockno hq r.2 r.1

/-- Source function `static struct buf* bget(uint dev, uint blockno)`. -/
def bget (c : Ctx) (dev blockno : Nat) : M Ptr := do
  let hq := gethashqueue blockno
  acquire c (lockOf hq)
  let h ← rd (headOf hq)
  let nodes ← (fun s => .ok (s.buf.length + NQUEUE + 1) s)
  let r ← bget_lookup (headOf hq) dev blockno nodes h.next
  match r with
  | some b => do
    wr b (fun x => { x with refcnt := uintInc x.refcnt })
    let m ← isin_hashqueue b
    if !m then panic .bgetMustInHashqueue
    else do
      release c (lockOf hq)
      acquiresleep c b
      pure b
  | none => bget_miss c dev blockno hq

/-- Source function `struct buf* bread(uint dev, uint blockno)`. -/
def bread (c : Ctx) (dev blockno : Nat) : M Ptr := do
  let b ← bget c dev blockno
  let n ← rd b
  if !n.valid then do
    virtio_disk_rw b 0
    wr b (fun x => { x with valid := true })
    pure b
  else pure b

/-- Source function `void bwrite(struct buf *b)`. -/
def bwrite (c : Ctx) (b : Ptr) : M Unit := do
  let h ← holdingsleep c b
  if !h then panic .bwrite
  else virtio_disk_rw b 1

/-- Source function `void brelse(struct buf *b)`. -/
def brelse (c : Ctx) (b : Ptr) : M Unit := do
  let h ← holdingsleep c b
  if !h then panic .brelse
  else do
    releasesleep b
    let n ← rd b
    let hq := gethashqueue n.blockno
    acquire c (lockOf hq)
    let m ← isin_hashqueue b
    if !m then panic .brelseMustExist
    else do
      wr b (fun x => { x with refcnt := uintDec x.refcnt })
      release c (lockOf hq)

/-- Source function `void bpin(struct buf *b)`. -/
def bpin (c : Ctx) (b : Ptr) : M Unit := do
  let n ← rd b
  let hq := gethashqueue n.blockno
  acquire c (lockOf hq)
  let m ← isin_hashqueue b
  if !m then panic .bpinMustExist
  else do
    wr b (fun x => { x with refcnt := uintInc x.refcnt })
    release c (lockOf hq)

/-- Source function `void bunpin(struct buf *b)`. -/
def bunpin (c : Ctx) (b : Ptr) : M Unit := do
  let n ← rd b
  let hq := gethashqueue n.blockno
  acquire c (lockOf hq)
  let m ← isin_hashqueue b
  if !m then panic .bunpinMustExist
  else do
    wr b (fun x => { x with refcnt := uintDec x.refcnt })
    release c (lockOf hq)

/-! ## Well-formed hash queues

The bucket lists as mathematical lists of slot numbers, and their relation to the
pointers of a state. -/

/-- The `next` field seen through a pointer. -/
def nxt (s : Bcache) (p : Ptr) : Option Ptr := (getNode s p).map (fun n => n.next)

/-- The `prev` field seen through a pointer. -/
def prv (s : Bcache) (p : Ptr) : Option Ptr := (getNode s p).map (fun n => n.prev)

/-- Following `next` from node `p` visits exactly the slots of `l`, in order, and then
reaches `e`; every step is mirrored by `prev`. -/
def Path (nx pv : Ptr → Option Ptr) : Ptr → List Nat → Ptr → Prop
  | p, [], e => nx p = some e ∧ pv e = some p
  | p, i :: l, e => nx p = some (.buf i) ∧ pv (.buf i) = some p ∧ Path nx pv (.buf i) l e

/-- Whether a walk is as described can be computed. -/
instance Path.decide (nx pv : Ptr → Option Ptr) :
    (p : Ptr) → (l : List Nat) → (e : Ptr) → Decidable (Path nx pv p l e)
  | p, [], e => inferInstanceAs (Decidable (nx p = some e ∧ pv e = some p))
  | p, i :: l, e =>
    have := Path.decide nx pv (.buf i) l e
    inferInstanceAs (Decidable (nx p = some (.buf i) ∧ pv (.buf i) = some p ∧ Path nx pv (.buf i) l e))

/-- The node in front of the end of the walk: the last slot of `l`, or the start. -/
def lastPtr (p : Ptr) : List Nat → Ptr
  | [] => p
  | i :: l => lastPtr (.buf i) l

/-- The node the walk through `l` towards `e` visits first. -/
def firstPtr (l : List Nat) (e : Ptr) : Ptr :=
  match l with
  | [] => e
  | i :: _ => .buf i

/-- The `next` fields after unlinking slot `i` from between `a` and `b`: the neighbours
are joined, the links of `i` are cleared. -/
def unlinkNx (nx : Ptr → Option Ptr) (i : Nat) (a b : Ptr) : Ptr → Option Ptr :=
  fun x => if x = .buf i then some .null else if x = a then some b else nx x

/-- The `prev` fields after unlinking slot `i` from between `a` and `b`. -/
def unlinkPv (pv : Ptr → Option Ptr) (i : Nat) (a b : Ptr) : Ptr → Option Ptr :=
  fun x => if x = .buf i then some .null else if x = b then some a else pv x

/-- The `next` fields after linking slot `i` in front of `f`, right behind the head
`hd`. -/
def linkNx (nx : Ptr → Option Ptr) (i : Nat) (hd f : Ptr) : Ptr → Option Ptr :=
  fun x => if x = hd then some (.buf i) else if x = .buf i then some f else nx x

/-- The `prev` fields after linking slot `i` in front of `f`, right behind the head
`hd`. -/
def linkPv (pv : Ptr → Option Ptr) (i : Nat) (hd f : Ptr) : Ptr → Option Ptr :=
  fun x => if x = f then some (.buf i) else if x = .buf i then some hd else pv x

/-! ## Frames: what a piece of code leaves unchanged -/

/-- The state in which a piece of code ended. -/
def Res.state {α : Type} : Res α → Bcache
  | .ok _ s => s
  | .fail _ s => s

/-- Every run of `x` relates the state it starts in to the state it ends in by `R`. -/
def Frame {α : Type} (R : Bcache → Bcache → Prop) (x : M α) : Prop := ∀ s, R s (x s).state

/-- The fields of a buffer other than its two links. -/
def Buf.data (n : Buf) : Bool × Nat × Nat × Option Nat × Nat :=
  (n.valid, n.dev, n.blockno, n.lock, n.refcnt)

/-- Two states differ at most in the `prev` and `next` links of their nodes. -/
def SameData (s s' : Bcache) : Prop :=
  s'.lock = s.lock ∧ s'.hqlock = s.hqlock ∧ s'.disk = s.disk ∧
    s'.buf.map Buf.data = s.buf.map Buf.data ∧ s'.hqhead.map Buf.data = s.hqhead.map Buf.data

/-- The hash queues of `s` are well-formed circular doubly linked lists with the bucket
lists `L`: there are `NQUEUE` heads; for every queue `q`, following `next` from its head
visits exactly the slots `L q` in order and returns to the head, and `prev` mirrors every
step; no slot occurs twice in a list or in two lists; and a slot in no list has both
links null.  The lists are determined by the state (`bucket_of_linked`). -/
structure Linked (s : Bcache) (L : Nat → List Nat) : Prop where
  heads : s.hqhead.length = NQUEUE
  path : ∀ q, q < NQUEUE → Path (nxt s) (prv s) (.head q) (L q) (.head q)
  nodup : ∀ q, q < NQUEUE → (L q).Nodup
  disj : ∀ q, q < NQUEUE → ∀ q', q' < NQUEUE → q ≠ q' → ∀ i, i ∈ L q → i ∉ L q'
  bound : ∀ q, q < NQUEUE → ∀ i, i ∈ L q → i < s.buf.length
  free : ∀ i, i < s.buf.length → (∀ q, q < NQUEUE → i ∉ L q) →
    nxt s (.buf i) = some .null ∧ prv s (.buf i) = some .null

/-- The queue lists after slot `i` was moved to the front of queue `q`. -/
def moveFront (L : Nat → List Nat) (q i : Nat) : Nat → List Nat :=
  fun q' => if q' = q then i :: (L q').erase i else (L q').erase i

/-- Slot `i` holds the key `(dev, blockno)`. -/
def keyMatch (s : Bcache) (dev blockno : Nat) (i : Nat) : Bool :=
  match s.buf[i]? with
  | some n => decide (n.dev = dev ∧ n.blockno = blockno)
  | none => false

/-- The first slot at or after position `i` whose `refcnt` is zero, scanning `bufs`
(the slots from `i` on) in order. -/
def victimFrom : List Buf → Nat → Option Nat
  | [], _ => none
  | b :: bs, i => if b.refcnt = 0 then some i else victimFrom bs (i + 1)

/-- The lowest-index slot of `bcache.buf` with `refcnt == 0`. -/
def victim (s : Bcache) : Option Nat := victimFrom s.buf 0

/-- No spinlock of the cache is held. -/
def Quiet (s : Bcache) : Prop := s.lock = none ∧ s.hqlock = List.replicate NQUEUE none

/-- Whether no spinlock is held can be computed. -/
instance Quiet.decide (s : Bcache) : Decidable (Quiet s) := inferInstanceAs (Decidable (_ ∧ _))

/-- The two links of a buffer. -/
def Buf.links (n : Buf) : Ptr × Ptr := (n.prev, n.next)

/-- The head node of queue `q` after `hashqueue_init`: both links point to itself. -/
def initHead (q : Nat) : Buf := { Buf.zero with prev := .head q, next := .head q }

/-- A buffer after `binit`: never used, key set to the sentinel. -/
def initBuf : Buf := { Buf.zero with blockno := SENTINEL }

/-- The state `binit` leaves behind for a pool of `n` buffers. -/
def initState (n : Nat) : Bcache :=
  { lock := none, buf := List.replicate n initBuf, hqlock := List.replicate NQUEUE none,
    hqhead := (List.range NQUEUE).map initHead, disk := [] }

/-- What `bget` did when it took the hit path and returned slot `v`. -/
def HitPost (c : Ctx) (s : Bcache) (L : Nat → List Nat) (dev blockno v : Nat) (s' : Bcache) : Prop :=
  ∃ n, (L (blockno % NQUEUE)).find? (keyMatch s dev blockno) = some v ∧ s.buf[v]? = some n ∧
    n.lock = none ∧
    s' = { s with buf := s.buf.set v { n with refcnt := uintInc n.refcnt, lock := some c.pid } }

/-- What `bget` did when it took the allocation path and returned slot `v`. -/
def MissPost (c : Ctx) (s : Bcache) (L : Nat → List Nat) (dev blockno v : Nat) (s' : Bcache) : Prop :=
  ∃ n, (L (blockno % NQUEUE)).find? (keyMatch s dev blockno) = none ∧ victim s = some v ∧
    s.buf[v]? = some n ∧ n.lock = none ∧ Quiet s' ∧ s'.disk = s.disk ∧
    Linked s' (moveFront L (blockno % NQUEUE) v) ∧
    s'.buf.map Buf.data = (s.buf.map Buf.data).set v (false, dev, blockno, some c.pid, 1) ∧
    s'.hqhead.map Buf.data = s.hqhead.map Buf.data

/-- Every member of queue `q` has a `blockno` that hashes to `q`. -/
def Keyed (s : Bcache) (L : Nat → List Nat) : Prop :=
  ∀ q, q < NQUEUE → ∀ i, i ∈ L q → ∀ n, s.buf[i]? = some n → n.blockno % NQUEUE = q

/-- Every `refcnt` is a value of the type `uint`. -/
def Typed (s : Bcache) : Prop := ∀ b ∈ s.buf, b.refcnt < UINT_MOD

/-- The state of the returned slot and of the lists after a `bget` that returned. -/
structure BgetPost (c : Ctx) (s : Bcache) (L : Nat → List Nat) (dev blockno v : Nat)
    (s' : Bcache) (L' : Nat → List Nat) (n : Buf) (hit : Bool) : Prop where
  node : s.buf[v]? = some n
  free : n.lock = none
  quiet : Quiet s'
  disk : s'.disk = s.disk
  linked : Linked s' L'
  heads : s'.hqhead.map Buf.data = s.hqhead.map Buf.data
  data : s'.buf.map Buf.data = (s.buf.map Buf.data).set v
    (if hit then n.valid else false, dev, blockno, some c.pid, uintInc n.refcnt)
  first : (L' (blockno % NQUEUE)).find? (keyMatch s' dev blockno) = some v
  lists : L' = if hit then L else moveFront L (blockno % NQUEUE) v
  found : (L (blockno % NQUEUE)).find? (keyMatch s dev blockno) = if hit then some v else none
  victim : hit = false → victim s = some v ∧ n.refcnt = 0

/-- The state `s` with the sleeplock of slot `v` set to `p`. -/
def withSleeplock (s : Bcache) (v : Nat) (p : Option Nat) : Bcache :=
  match s.buf[v]? with
  | some n => { s with buf := s.buf.set v { n with lock := p } }
  | none => s

/-- The slot `bget(dev, blockno)` settles on: the first member of the target bucket that
holds the key or, when there is none, the lowest slot with `refcnt == 0`. -/
def Chosen (s : Bcache) (L : Nat → List Nat) (dev blockno v : Nat) : Prop :=
  (L (blockno % NQUEUE)).find? (keyMatch s dev blockno) = some v ∨
    ((L (blockno % NQUEUE)).find? (keyMatch s dev blockno) = none ∧ victim s = some v)

/-! ## Sequences of calls -/

/-- The calls of the cache interface, on slots of `bcache.buf`. -/
inductive Call where
  | bget (c : Ctx) (dev blockno : Nat)
  | bread (c : Ctx) (dev blockno : Nat)
  | bwrite (c : Ctx) (i : Nat)
  | brelse (c : Ctx) (i : Nat)
  | bpin (c : Ctx) (i : Nat)
  | bunpin (c : Ctx) (i : Nat)
deriving DecidableEq, Repr

/-- Run one call; the result is the returned buffer, if the call returns one. -/
def Call.run : Call → M (Option Ptr)
  | .bget c dev blockno => do
    let b ← Bio.bget c dev blockno
    pure (some b)
  | .bread c dev blockno => do
    let b ← Bio.bread c dev blockno
    pure (some b)
  | .bwrite c i => do
    Bio.bwrite c (.buf i)
    pure none
  | .brelse c i => do
    Bio.brelse c (.buf i)
    pure none
  | .bpin c i => do
    Bio.bpin c (.buf i)
    pure none
  | .bunpin c i => do
    Bio.bunpin c (.buf i)
    pure none

/-- Bookkeeping of the references handed out: `out i` counts the returns of `bget`/`bread`
with slot `i` and the `bpin` calls on it that no `brelse` or `bunpin` has taken back. -/
def Call.credit (out : Nat → Nat) : Call → Option Ptr → Nat → Nat
  | .bget _ _ _, some (.buf v) => Function.update out v (out v + 1)
  | .bread _ _ _, some (.buf v) => Function.update out v (out v + 1)
  | .bpin _ i, _ => Function.update out i (out i + 1)
  | .brelse _ i, _ => Function.update out i (out i - 1)
  | .bunpin _ i, _ => Function.update out i (out i - 1)
  | _, _ => out

/-- A `brelse` or `bunpin` is matched when the slot has a reference to take back. -/
def Call.matched (out : Nat → Nat) : Call → Prop
  | .brelse _ i => 0 < out i
  | .bunpin _ i => 0 < out i
  | _ => True

/-- The states reached from `binit` (pool of `n` buffers) by calls that all returned and
all satisfied `P`, with the bookkeeping of outstanding references. -/
inductive Run (P : (Nat → Nat) → Call → Prop) (n : Nat) : Bcache → (Nat → Nat) → Prop where
  | init {s : Bcache} : binit (zeroBcache n) = .ok () s → Run P n s (fun _ => 0)
  | step {s s' : Bcache} {out : Nat → Nat} {k : Call} {r : Option Ptr} :
      Run P n s out → P out k → k.run s = .ok r s' → Run P n s' (k.credit out r)

/-- The states reachable from `binit` by any sequence of returning calls. -/
def Reachable (n : Nat) (s : Bcache) : Prop := ∃ out, Run (fun _ _ => True) n s out

/-- The invariant of the cache between calls. -/
structure Inv (s : Bcache) (L : Nat → List Nat) : Prop where
  linked : Linked s L
  keyed : Keyed s L
  quiet : Quiet s
  typed : Typed s

/-- The `refcnt` of every slot equals, in `uint` arithmetic, the number of references
handed out and not taken back. -/
def Accounted (s : Bcache) (out : Nat → Nat) : Prop :=
  ∀ i x, s.buf[i]? = some x → x.refcnt = out i % UINT_MOD

/-- No two members of the bucket lists hold the same key `(dev, blockno)`. -/
def Unique (s : Bcache) (L : Nat → List Nat) : Prop :=
  ∀ q, q < NQUEUE → ∀ q', q' < NQUEUE → ∀ i, i ∈ L q → ∀ j, j ∈ L q' → ∀ x y,
    s.buf[i]? = some x → s.buf[j]? = some y → x.dev = y.dev → x.blockno = y.blockno → i = j

/-- No slot lies in two queues. -/
def DisjointLists (L : Nat → List Nat) : Prop :=
  ∀ q, q < NQUEUE → ∀ q', q' < NQUEUE → q ≠ q' → ∀ i, i ∈ L q → i ∉ L q'

/-- Whether the lists are disjoint can be computed. -/
instance DisjointLists.decide (L : Nat → List Nat) : Decidable (DisjointLists L) :=
  Nat.decidableBallLT NQUEUE (fun q _ => ∀ q', q' < NQUEUE → q ≠ q' → ∀ i, i ∈ L q → i ∉ L q')

/-- Whether a state has the bucket lists `L` can be computed. -/
instance Linked.decide (s : Bcache) (L : Nat → List Nat) : Decidable (Linked s L) :=
  decidable_of_iff
    (s.hqhead.length = NQUEUE ∧
      (∀ q, q < NQUEUE → Path (nxt s) (prv s) (.head q) (L q) (.head q)) ∧
      (∀ q, q < NQUEUE → (L q).Nodup) ∧
      DisjointLists L ∧
      (∀ q, q < NQUEUE → ∀ i, i ∈ L q → i < s.buf.length) ∧
      (∀ i, i < s.buf.length → (∀ q, q < NQUEUE → i ∉ L q) →
        nxt s (.buf i) = some .null ∧ prv s (.buf i) = some .null))
    ⟨fun h => ⟨h.1, h.2.1, h.2.2.1, h.2.2.2.1, h.2.2.2.2.1, h.2.2.2.2.2⟩,
     fun h => ⟨h.heads, h.path, h.nodup, h.disj, h.bound, h.free⟩⟩

/-! ## Sequences of spinlock operations -/

/-- The two operations on a spinlock. -/
inductive LockOp where
  | acquire (l : Spin)
  | release (l : Spin)
deriving DecidableEq, Repr

/-- Run one operation on a spinlock: the call `acquire(l)` or `release(l)`. -/
def LockOp.run (c : Ctx) : LockOp → M Unit
  | .acquire l => Bio.acquire c l
  | .release l => Bio.release c l

/-- Run a sequence of spinlock operations, one call after the other. -/
def runOps (c : Ctx) : List LockOp → M Unit
  | [] => pure ()
  | o :: os => do
    o.run c
    runOps c os

/-- Starting with the locks `held`, every `acquire` of the sequence takes a lock whose
address lies above the address of every lock held at that moment. -/
def ascending : List Spin → List LockOp → Prop
  | _, [] => True
  | held, .acquire l :: os => (∀ x ∈ held, x.addr < l.addr) ∧ ascending (l :: held) os
  | held, .release l :: os => ascending (held.erase l) os

/-! ## Example states -/

/-- A caller on cpu 0 with pid 1. -/
def exCtx : Ctx := { cpu := 0, pid := 1 }

/-- A pool of three buffers after `bread(1, 10)`: slot 0 holds block 10 and is locked. -/
def exHeld : Bcache := (bread exCtx 1 10 (initState 3)).state

/-- The same pool after `brelse` of slot 0: block 10 is cached and unreferenced. -/
def exIdle : Bcache := (brelse exCtx (.buf 0) exHeld).state

/-- The queue lists of `exHeld` and `exIdle`: slot 0 alone in queue 10. -/
def exLists : Nat → List Nat := fun q => if q = 10 then [0] else []

/-- A pool of two buffers, both used and unreferenced: slot 0 caches block 10 and slot 1
caches block 11. -/
def exFull : Bcache :=
  (brelse exCtx (.buf 1)
    (brelse exCtx (.buf 0)
      (bread exCtx 1 11 (bread exCtx 1 10 (initState 2)).state).state).state).state

/-- The queue lists of `exFull`. -/
def exFullLists : Nat → List Nat := fun q => if q = 10 then [0] else if q = 11 then [1] else []

/-- The pool of `exIdle` after a `bunpin` of slot 0 that no `bpin` precedes. -/
def exWrapped : Bcache := (bunpin exCtx (.buf 0) exIdle).state

/-- A pool of one buffer after `bread(1, 10)`: its only slot is referenced. -/
def exBusy : Bcache := (bread exCtx 1 10 (initState 1)).state

/-- The pool of three buffers right after `binit`, with the lock of bucket 5 held by the
caller of `exCtx`. -/
def exLocked : Bcache :=
  { initState 3 with hqlock := (List.replicate NQUEUE none).set 5 (some exCtx.cpu) }

/-- The slots met when following `next` from node `p` until the head `hd` is reached, if
the walk gets there within `fuel` steps through slots only. -/
def walk (s : Bcache) (hd : Ptr) : Nat → Ptr → Option (List Nat)
  | 0, _ => none
  | fuel + 1, p =>
    if p = hd then some []
    else
      match p with
      | .buf i =>
        match getNode s p with
        | some n => (walk s hd fuel n.next).map (fun l => i :: l)
        | none => none
      | _ => none

/-- The list of bucket `q` as the pointers of the state give it: the slots on the way
from `hashqueue[q].head.next` back to the head. -/
def bucket (s : Bcache) (q : Nat) : Option (List Nat) :=
  match getNode s (.head q) with
  | some h => walk s (.head q) (s.buf.length + 1) h.next
  | none => none

/-! ## Lemmas and theorems -/

theorem path_frame {nx pv nx2 pv2 : Ptr → Option Ptr} :
    ∀ (l : List Nat) (p e : Ptr), Path nx pv p l e →
      nx2 p = nx p → (∀ i ∈ l, nx2 (.buf i) = nx (.buf i)) →
      (∀ i ∈ l, pv2 (.buf i) = pv (.buf i)) → pv2 e = pv e → Path nx2 pv2 p l e
  | [], p, e, h, hp, _, _, he => by
    simp only [Path] at h ⊢
    rw [hp, he]; exact h
  | i :: l, p, e, h, hp, hn, hv, he => by
    simp only [Path] at h ⊢
    refine ⟨by rw [hp]; exact h.1, by rw [hv i (by simp)]; exact h.2.1, ?_⟩
    exact path_frame l (.buf i) e h.2.2 (hn i (by simp)) (fun j hj => hn j (by simp [hj]))
      (fun j hj => hv j (by simp [hj])) he

theorem path_first {nx pv : Ptr → Option Ptr} {p e : Ptr} {l : List Nat}
    (h : Path nx pv p l e) : nx p = some (firstPtr l e) := by
  cases l with
  | nil => exact h.1
  | cons i l => exact h.1

theorem path_last {nx pv : Ptr → Option Ptr} :
    ∀ (l : List Nat) (p e : Ptr), Path nx pv p l e → pv e = some (lastPtr p l)
  | [], _, _, h => h.2
  | i :: l, _, e, h => path_last l (.buf i) e h.2.2

theorem path_append {nx pv : Ptr → Option Ptr} (i : Nat) (l2 : List Nat) (e : Ptr) (l1 : List Nat) :
    ∀ p : Ptr, Path nx pv p (l1 ++ i :: l2) e ↔ Path nx pv p l1 (.buf i) ∧ Path nx pv (.buf i) l2 e := by
  induction l1 with
  | nil => intro p; simp [Path, and_assoc]
  | cons j l1 ih =>
    intro p
    rw [List.cons_append]
    simp only [Path, and_assoc, ih]

theorem lastPtr_eq_or (p : Ptr) : ∀ l : List Nat, lastPtr p l = p ∨ ∃ i ∈ l, lastPtr p l = .buf i
  | [] => Or.inl rfl
  | j :: l => by
    rcases lastPtr_eq_or (.buf j) l with h | ⟨i, hi, h⟩
    · exact Or.inr ⟨j, by simp, by simpa [lastPtr] using h⟩
    · exact Or.inr ⟨i, by simp [hi], by simpa [lastPtr] using h⟩

theorem firstPtr_eq_or (l : List Nat) (e : Ptr) : firstPtr l e = e ∨ ∃ i ∈ l, firstPtr l e = .buf i := by
  cases l with
  | nil => exact Or.inl rfl
  | cons j l => exact Or.inr ⟨j, by simp, rfl⟩

theorem path_unlink {nx pv : Ptr → Option Ptr} (i : Nat) (l2 : List Nat) (e : Ptr) :
    ∀ (l1 : List Nat) (p : Ptr), Path nx pv p (l1 ++ i :: l2) e →
      (l1 ++ i :: l2).Nodup → p ≠ .buf i → (∀ j ∈ l1 ++ i :: l2, p ≠ .buf j) →
      (∀ j ∈ l1 ++ i :: l2, e ≠ .buf j) →
      Path (unlinkNx nx i (lastPtr p l1) (firstPtr l2 e))
        (unlinkPv pv i (lastPtr p l1) (firstPtr l2 e)) p (l1 ++ l2) e
  | [], p, h, hnd, hpi, hp, he => by
    simp only [List.nil_append, Path, lastPtr] at h ⊢
    simp only [List.nil_append, List.nodup_cons] at hnd
    obtain ⟨h1, h2, h3⟩ := h
    cases l2 with
    | nil =>
      simp only [Path, firstPtr, unlinkNx, unlinkPv]
      have he' : e ≠ .buf i := he i (by simp)
      simp [hpi, he']
    | cons j l2 =>
      simp only [Path, firstPtr, unlinkNx, unlinkPv] at h3 ⊢
      have hji : j ≠ i := by
        intro hc; apply hnd.1; simp [hc]
      have hpj : p ≠ .buf j := hp j (by simp)
      refine ⟨by simp [hpi], by simp [hji], ?_⟩
      have hnd2 : (j :: l2).Nodup := hnd.2
      simp only [List.nodup_cons] at hnd2
      refine path_frame l2 (.buf j) e h3.2.2 ?_ ?_ ?_ ?_
      · simp [unlinkNx, hji]; intro hc; exact absurd hc.symm hpj
      · intro k hk
        have hki : k ≠ i := by intro hc; apply hnd.1; simp [← hc, hk]
        have hpk : p ≠ .buf k := hp k (by simp [hk])
        simp [unlinkNx, hki]; intro hc; exact absurd hc.symm hpk
      · intro k hk
        have hki : k ≠ i := by intro hc; apply hnd.1; simp [← hc, hk]
        have hkj : k ≠ j := by intro hc; apply hnd2.1; simp [← hc, hk]
        simp [unlinkPv, hki, hkj]
      · have he' : e ≠ .buf i := he i (by simp)
        have he2 : e ≠ .buf j := he j (by simp)
        simp [unlinkPv, he', he2]
  | k :: l1, p, h, hnd, hpi, hp, he => by
    simp only [List.cons_append, Path, lastPtr] at h ⊢
    simp only [List.cons_append, List.nodup_cons] at hnd
    obtain ⟨h1, h2, h3⟩ := h
    have hki : k ≠ i := by intro hc; apply hnd.1; simp [hc]
    have hpk : p ≠ .buf k := hp k (by simp)
    have ih := path_unlink i l2 e l1 (.buf k) h3 hnd.2 (by simp [hki])
      (fun j hj hc => by
        have : k = j := by simpa using hc
        exact hnd.1 (this ▸ hj))
      (fun j hj => he j (by simp only [List.cons_append, List.mem_cons]; exact Or.inr hj))
    refine ⟨?_, ?_, ih⟩
    · -- next of p unchanged: p is not the last node and not slot i
      have hlast : p ≠ lastPtr (.buf k) l1 := by
        rcases lastPtr_eq_or (.buf k) l1 with hl | ⟨m, hm, hl⟩
        · rw [hl]; exact hpk
        · rw [hl]; exact hp m (by simp [hm])
      simp [unlinkNx, hpi, hlast, h1]
    · -- prev of slot k unchanged
      have hfirst : Ptr.buf k ≠ firstPtr l2 e := by
        rcases firstPtr_eq_or l2 e with hl | ⟨m, hm, hl⟩
        · rw [hl]; exact (he k (by simp)).symm
        · rw [hl]; intro hc
          have : k = m := by simpa using hc
          apply hnd.1; simp [this, hm]
      simp [unlinkPv, hki, hfirst, h2]

theorem bind_apply {α β : Type} (x : M α) (f : α → M β) (s : Bcache) :
    (x >>= f) s = match x s with
      | .ok a s1 => f a s1
      | .fail e s1 => .fail e s1 := rfl

theorem pure_apply {α : Type} (a : α) (s : Bcache) : (pure a : M α) s = .ok a s := rfl

theorem getNode_setNode (s : Bcache) (p x : Ptr) (n : Buf) :
    getNode (setNode s p n) x =
      if x = p then (if (getNode s p).isSome then some n else none) else getNode s x := by
  cases p with
  | null => cases x <;> simp [getNode, setNode]
  | head q =>
    cases x with
    | null => simp [getNode, setNode]
    | buf i => simp [getNode, setNode]
    | head q' =>
      simp only [getNode, setNode, List.getElem?_set, Ptr.head.injEq]
      by_cases h : q' = q
      · subst h; simp
        by_cases h2 : q' < s.hqhead.length
        · simp [h2]
        · simp [h2, List.getElem?_eq_none (Nat.le_of_not_lt h2)]
      · have : ¬ q = q' := fun hc => h hc.symm
        simp [h, this]
  | buf i =>
    cases x with
    | null => simp [getNode, setNode]
    | head q => simp [getNode, setNode]
    | buf i' =>
      simp only [getNode, setNode, List.getElem?_set, Ptr.buf.injEq]
      by_cases h : i' = i
      · subst h; simp
        by_cases h2 : i' < s.buf.length
        · simp [h2]
        · simp [h2, List.getElem?_eq_none (Nat.le_of_not_lt h2)]
      · have : ¬ i = i' := fun hc => h hc.symm
        simp [h, this]

theorem getNode_setNode_same {s : Bcache} {p : Ptr} {m : Buf} (h : getNode s p = some m) (n : Buf) :
    getNode (setNode s p n) p = some n := by
  simp [getNode_setNode, h]

theorem getNode_setNode_ne {s : Bcache} {p x : Ptr} (h : x ≠ p) (n : Buf) :
    getNode (setNode s p n) x = getNode s x := by
  simp [getNode_setNode, h]

theorem rd_ok {s : Bcache} {p : Ptr} {n : Buf} (h : getNode s p = some n) : rd p s = .ok n s := by
  simp [rd, h]

theorem wr_ok {s : Bcache} {p : Ptr} {n : Buf} (h : getNode s p = some n) (f : Buf → Buf) :
    wr p f s = .ok () (setNode s p (f n)) := by
  simp [wr, h]

theorem nxt_setNode (s : Bcache) (p x : Ptr) (n : Buf) :
    nxt (setNode s p n) x =
      if x = p then (if (getNode s p).isSome then some n.next else none) else nxt s x := by
  simp only [nxt, getNode_setNode]
  split
  · split <;> simp
  · rfl

theorem prv_setNode (s : Bcache) (p x : Ptr) (n : Buf) :
    prv (setNode s p n) x =
      if x = p then (if (getNode s p).isSome then some n.prev else none) else prv s x := by
  simp only [prv, getNode_setNode]
  split
  · split <;> simp
  · rfl

theorem remove_member {s : Bcache} {i : Nat} {n na nb : Buf}
    (hn : getNode s (.buf i) = some n) (hb0 : n.next ≠ .null) (ha0 : n.prev ≠ .null)
    (hai : n.prev ≠ .buf i) (hbi : n.next ≠ .buf i)
    (ha : getNode s n.prev = some na) (hb : getNode s n.next = some nb) :
    ∃ s', remove_from_hashqueue (.buf i) s = .ok () s' ∧
      nxt s' = unlinkNx (nxt s) i n.prev n.next ∧ prv s' = unlinkPv (prv s) i n.prev n.next := by
  obtain ⟨s1, hs1⟩ : ∃ s1, s1 = setNode s n.next { nb with prev := n.prev } := ⟨_, rfl⟩
  have h1 : getNode s1 (.buf i) = some n := by
    rw [hs1, getNode_setNode_ne (Ne.symm hbi)]; exact hn
  obtain ⟨na', ha', hna1, hna2⟩ : ∃ na', getNode s1 n.prev = some na' ∧
      na'.next = na.next ∧ (n.prev ≠ n.next → na'.prev = na.prev) := by
    by_cases hab : n.prev = n.next
    · refine ⟨{ nb with prev := n.prev }, ?_, ?_, fun h => absurd hab h⟩
      · rw [hs1, hab]; exact getNode_setNode_same hb _
      · have : na = nb := by rw [hab] at ha; rw [ha] at hb; exact Option.some.inj hb
        simp [this]
    · refine ⟨na, ?_, rfl, fun _ => rfl⟩
      rw [hs1, getNode_setNode_ne hab]; exact ha
  obtain ⟨s2, hs2⟩ : ∃ s2, s2 = setNode s1 n.prev { na' with next := n.next } := ⟨_, rfl⟩
  have h2 : getNode s2 (.buf i) = some n := by
    rw [hs2, getNode_setNode_ne (Ne.symm hai)]; exact h1
  refine ⟨setNode s2 (.buf i) { n with next := .null, prev := .null }, ?_, ?_, ?_⟩
  · simp only [remove_from_hashqueue, bind_apply, rd_ok hn, hb0, ha0, ne_eq, not_false_eq_true,
      and_self, ite_true, wr_ok hb, ← hs1, rd_ok h1, wr_ok ha', ← hs2, rd_ok h2, wr_ok h2]
  · funext x
    simp only [nxt_setNode, unlinkNx, h2, Option.isSome_some, ite_true]
    by_cases hx : x = .buf i
    · simp [hx]
    · simp only [hx, ite_false, hs2, nxt_setNode, ha', Option.isSome_some, ite_true]
      by_cases hxa : x = n.prev
      · simp [hxa]
      · simp only [hxa, ite_false, hs1, nxt_setNode, hb, Option.isSome_some, ite_true]
        by_cases hxb : x = n.next
        · subst hxb; simp [nxt, hb]
        · simp [hxb]
  · funext x
    simp only [prv_setNode, unlinkPv, h2, Option.isSome_some, ite_true]
    by_cases hx : x = .buf i
    · simp [hx]
    · simp only [hx, ite_false, hs2, prv_setNode, ha', Option.isSome_some, ite_true]
      by_cases hxa : x = n.prev
      · by_cases hxb : x = n.next
        · have hab : n.prev = n.next := by rw [← hxa, hxb]
          simp only [hxa, ite_true, hab]
          rw [hs1, hab, getNode_setNode_same hb] at ha'
          have := Option.some.inj ha'
          rw [← this]
        · have hab : n.prev ≠ n.next := by rw [← hxa]; exact hxb
          simp [hxa, hab, hna2 hab, prv, ha]
      · simp only [hxa, ite_false, hs1, prv_setNode, hb, Option.isSome_some, ite_true]

theorem remove_free {s : Bcache} {i : Nat} {n : Buf}
    (hn : getNode s (.buf i) = some n) (hb0 : n.next = .null) (ha0 : n.prev = .null) :
    remove_from_hashqueue (.buf i) s = .ok () s := by
  simp only [remove_from_hashqueue, bind_apply, rd_ok hn, hb0, ne_eq, not_true_eq_false,
      false_and, ite_false, wr_ok hn]
  congr 1
  cases s with
  | mk lock buf hqlock hqhead disk =>
    simp only [getNode] at hn
    simp only [setNode]
    congr 1
    apply List.ext_getElem?
    intro m
    rw [List.getElem?_set]
    split
    · next h =>
      subst h
      have hlt : i < buf.length := by
        by_contra hc
        rw [List.getElem?_eq_none (Nat.le_of_not_lt hc)] at hn
        cases hn
      simp only [hlt, ite_true, hn]
      congr 1
      cases n
      simp_all
    · rfl

theorem path_link {nx pv : Ptr → Option Ptr} {i : Nat} {hd : Ptr} {l : List Nat}
    (h : Path nx pv hd l hd) (hnd : l.Nodup) (hi : i ∉ l) (hhi : hd ≠ .buf i)
    (hh : ∀ j ∈ l, hd ≠ .buf j) :
    Path (linkNx nx i hd (firstPtr l hd)) (linkPv pv i hd (firstPtr l hd)) hd (i :: l) hd := by
  cases l with
  | nil =>
    simp only [Path, firstPtr, linkNx, linkPv]
    simp [Ne.symm hhi]
  | cons j l =>
    simp only [Path, firstPtr] at h ⊢
    have hji : j ≠ i := by intro hc; apply hi; simp [hc]
    have hhj : hd ≠ .buf j := hh j (by simp)
    simp only [List.nodup_cons] at hnd
    refine ⟨by simp [linkNx], by simp [linkPv, Ne.symm hji], by simp [linkNx, Ne.symm hhi],
      by simp [linkPv], ?_⟩
    refine path_frame l (.buf j) hd h.2.2 ?_ ?_ ?_ ?_
    · simp [linkNx, Ne.symm hhj, hji]
    · intro k hk
      have hki : k ≠ i := by intro hc; apply hi; simp [← hc, hk]
      have hhk : hd ≠ .buf k := hh k (by simp [hk])
      simp [linkNx, Ne.symm hhk, hki]
    · intro k hk
      have hki : k ≠ i := by intro hc; apply hi; simp [← hc, hk]
      have hkj : k ≠ j := by intro hc; apply hnd.1; simp [← hc, hk]
      simp [linkPv, hki, hkj]
    · simp [linkPv, hhj, hhi]

theorem nxt_set_prev {s : Bcache} {p : Ptr} {n : Buf} (h : getNode s p = some n) (v : Ptr) :
    nxt (setNode s p { n with prev := v }) = nxt s := by
  funext x
  simp only [nxt_setNode, h, Option.isSome_some, ite_true]
  by_cases hx : x = p
  · subst hx; simp [nxt, h]
  · simp [hx]

theorem prv_set_prev {s : Bcache} {p : Ptr} {n : Buf} (h : getNode s p = some n) (v : Ptr) :
    prv (setNode s p { n with prev := v }) = fun x => if x = p then some v else prv s x := by
  funext x
  simp only [prv_setNode, h, Option.isSome_some, ite_true]

theorem prv_set_next {s : Bcache} {p : Ptr} {n : Buf} (h : getNode s p = some n) (v : Ptr) :
    prv (setNode s p { n with next := v }) = prv s := by
  funext x
  simp only [prv_setNode, h, Option.isSome_some, ite_true]
  by_cases hx : x = p
  · subst hx; simp [prv, h]
  · simp [hx]

theorem nxt_set_next {s : Bcache} {p : Ptr} {n : Buf} (h : getNode s p = some n) (v : Ptr) :
    nxt (setNode s p { n with next := v }) = fun x => if x = p then some v else nxt s x := by
  funext x
  simp only [nxt_setNode, h, Option.isSome_some, ite_true]

theorem addhead_link {s s1 : Bcache} {q i : Nat} {n h nf : Buf}
    (hrm : remove_from_hashqueue (.buf i) s = .ok () s1)
    (hn : getNode s1 (.buf i) = some n) (hh : getNode s1 (.head q) = some h)
    (hf : getNode s1 h.next = some nf) (hfi : h.next ≠ .buf i) :
    ∃ s', hashqueue_addhead (some q) (.buf i) s = .ok () s' ∧
      nxt s' = linkNx (nxt s1) i (.head q) h.next ∧ prv s' = linkPv (prv s1) i (.head q) h.next := by
  obtain ⟨s2, hs2⟩ : ∃ s2, s2 = setNode s1 (.buf i) { n with next := h.next } := ⟨_, rfl⟩
  obtain ⟨n2, hn2⟩ : ∃ n2 : Buf, n2 = { n with next := h.next } := ⟨_, rfl⟩
  have h2 : getNode s2 (.buf i) = some n2 := by
    rw [hs2, hn2]; exact getNode_setNode_same hn _
  obtain ⟨s3, hs3⟩ : ∃ s3, s3 = setNode s2 (.buf i) { n2 with prev := .head q } := ⟨_, rfl⟩
  have h3h : getNode s3 (.head q) = some h := by
    rw [hs3, getNode_setNode_ne (by simp), hs2, getNode_setNode_ne (by simp)]; exact hh
  have h3f : getNode s3 h.next = some nf := by
    rw [hs3, getNode_setNode_ne hfi, hs2, getNode_setNode_ne hfi]; exact hf
  obtain ⟨s4, hs4⟩ : ∃ s4, s4 = setNode s3 h.next { nf with prev := .buf i } := ⟨_, rfl⟩
  obtain ⟨h4, hh4⟩ : ∃ h4, getNode s4 (.head q) = some h4 := by
    by_cases hc : h.next = .head q
    · refine ⟨{ nf with prev := .buf i }, ?_⟩
      rw [hs4, hc]; rw [hc] at h3f; exact getNode_setNode_same h3f _
    · refine ⟨h, ?_⟩
      rw [hs4, getNode_setNode_ne (Ne.symm hc)]; exact h3h
  refine ⟨setNode s4 (.head q) { h4 with next := .buf i }, ?_, ?_, ?_⟩
  · simp only [hashqueue_addhead, bind_apply, hrm, headOf, rd_ok hh, wr_ok hn, ← hs2, wr_ok h2,
      ← hs3, rd_ok h3h, wr_ok h3f, ← hs4, wr_ok hh4]
  · rw [nxt_set_next hh4, hs4, nxt_set_prev h3f, hs3, nxt_set_prev h2, hs2, nxt_set_next hn]
    rfl
  · rw [prv_set_next hh4, hs4, prv_set_prev h3f, hs3, prv_set_prev h2, hs2, prv_set_next hn]
    rfl

theorem Frame.bind {α β : Type} {R : Bcache → Bcache → Prop}
    (htrans : ∀ a b c, R a b → R b c → R a c) {x : M α} {f : α → M β}
    (hx : Frame R x) (hf : ∀ a, Frame R (f a)) : Frame R (x >>= f) := by
  intro s
  have h1 := hx s
  rw [bind_apply]
  cases hxs : x s with
  | ok a s1 =>
    rw [hxs] at h1
    exact htrans _ _ _ h1 (hf a s1)
  | fail e s1 =>
    rw [hxs] at h1
    exact h1

theorem Frame.pure {α : Type} {R : Bcache → Bcache → Prop} (hrefl : ∀ a, R a a) (a : α) :
    Frame R (pure a : M α) := fun s => hrefl s

theorem Frame.ite {α : Type} {R : Bcache → Bcache → Prop} (c : Prop) [Decidable c] {x y : M α}
    (hx : Frame R x) (hy : Frame R y) : Frame R (if c then x else y) := by
  split
  · exact hx
  · exact hy

theorem Frame.rd {R : Bcache → Bcache → Prop} (hrefl : ∀ a, R a a) (p : Ptr) : Frame R (rd p) := by
  intro s
  unfold Bio.rd
  cases getNode s p <;> exact hrefl s

theorem Frame.panic {α : Type} {R : Bcache → Bcache → Prop} (hrefl : ∀ a, R a a) (m : PanicMsg) :
    Frame R (panic m : M α) := fun s => hrefl s

theorem Frame.of_ok {α : Type} {R : Bcache → Bcache → Prop} {x : M α} (h : Frame R x)
    {s s' : Bcache} {a : α} (hs : x s = .ok a s') : R s s' := by
  have := h s
  rw [hs] at this
  exact this

theorem Frame.of_fail {α : Type} {R : Bcache → Bcache → Prop} {x : M α} (h : Frame R x)
    {s s' : Bcache} {e : Err} (hs : x s = .fail e s') : R s s' := by
  have := h s
  rw [hs] at this
  exact this

theorem SameData.refl (s : Bcache) : SameData s s := ⟨rfl, rfl, rfl, rfl, rfl⟩

theorem SameData.trans (a b c : Bcache) (h1 : SameData a b) (h2 : SameData b c) : SameData a c :=
  ⟨h2.1.trans h1.1, h2.2.1.trans h1.2.1, h2.2.2.1.trans h1.2.2.1, h2.2.2.2.1.trans h1.2.2.2.1,
    h2.2.2.2.2.trans h1.2.2.2.2⟩

theorem map_set_same {α β : Type} (g : α → β) (l : List α) (i : Nat) (x n : α)
    (h : l[i]? = some n) (hg : g x = g n) : (l.set i x).map g = l.map g := by
  apply List.ext_getElem?
  intro m
  simp only [List.getElem?_map, List.getElem?_set]
  split
  · next hm =>
    subst hm
    have hlt : i < l.length := by
      by_contra hc
      rw [List.getElem?_eq_none (Nat.le_of_not_lt hc)] at h
      cases h
    simp [hlt, h, hg]
  · rfl

theorem SameData.setNode {s : Bcache} {p : Ptr} {n m : Buf} (h : getNode s p = some n)
    (hd : m.data = n.data) : SameData s (setNode s p m) := by
  cases p with
  | null => exact SameData.refl s
  | head q => exact ⟨rfl, rfl, rfl, rfl, map_set_same Buf.data _ _ _ _ h hd⟩
  | buf i => exact ⟨rfl, rfl, rfl, map_set_same Buf.data _ _ _ _ h hd, rfl⟩

theorem Frame.wr_links (p : Ptr) (f : Buf → Buf) (hf : ∀ n, (f n).data = n.data) :
    Frame SameData (wr p f) := by
  intro s
  unfold Bio.wr
  cases h : getNode s p with
  | none => exact SameData.refl s
  | some n => exact SameData.setNode h (hf n)

theorem remove_frame (b : Ptr) : Frame SameData (remove_from_hashqueue b) := by
  unfold remove_from_hashqueue
  refine Frame.bind SameData.trans (Frame.rd SameData.refl _) (fun n => ?_)
  refine Frame.ite _ ?_ (Frame.wr_links _ _ (fun _ => rfl))
  refine Frame.bind SameData.trans (Frame.rd SameData.refl _) (fun n1 => ?_)
  refine Frame.bind SameData.trans (Frame.wr_links _ _ (fun _ => rfl)) (fun _ => ?_)
  refine Frame.bind SameData.trans (Frame.rd SameData.refl _) (fun n2 => ?_)
  refine Frame.bind SameData.trans (Frame.wr_links _ _ (fun _ => rfl)) (fun _ => ?_)
  exact Frame.wr_links _ _ (fun _ => rfl)

theorem addhead_frame (hq : Option Nat) (b : Ptr) : Frame SameData (hashqueue_addhead hq b) := by
  unfold hashqueue_addhead
  refine Frame.bind SameData.trans (remove_frame b) (fun _ => ?_)
  refine Frame.bind SameData.trans (Frame.rd SameData.refl _) (fun h => ?_)
  refine Frame.bind SameData.trans (Frame.wr_links _ _ (fun _ => rfl)) (fun _ => ?_)
  refine Frame.bind SameData.trans (Frame.wr_links _ _ (fun _ => rfl)) (fun _ => ?_)
  refine Frame.bind SameData.trans (Frame.rd SameData.refl _) (fun h1 => ?_)
  refine Frame.bind SameData.trans (Frame.wr_links _ _ (fun _ => rfl)) (fun _ => ?_)
  exact Frame.wr_links _ _ (fun _ => rfl)

theorem SameData.buf_length {s s' : Bcache} (h : SameData s s') : s'.buf.length = s.buf.length := by
  have := congrArg List.length h.2.2.2.1
  simpa using this

theorem SameData.hqhead_length {s s' : Bcache} (h : SameData s s') :
    s'.hqhead.length = s.hqhead.length := by
  have := congrArg List.length h.2.2.2.2
  simpa using this

theorem getNode_buf_some {s : Bcache} {i : Nat} (h : i < s.buf.length) :
    ∃ n, getNode s (.buf i) = some n := by
  simp only [getNode]
  exact ⟨s.buf[i], List.getElem?_eq_getElem h⟩

theorem getNode_head_some {s : Bcache} {q : Nat} (h : q < s.hqhead.length) :
    ∃ n, getNode s (.head q) = some n := by
  simp only [getNode]
  exact ⟨s.hqhead[q], List.getElem?_eq_getElem h⟩

theorem nxt_eq_some {s : Bcache} {p a : Ptr} (h : nxt s p = some a) :
    ∃ n, getNode s p = some n ∧ n.next = a := by
  simp only [nxt, Option.map_eq_some'] at h
  exact h

theorem prv_eq_some {s : Bcache} {p a : Ptr} (h : prv s p = some a) :
    ∃ n, getNode s p = some n ∧ n.prev = a := by
  simp only [prv, Option.map_eq_some'] at h
  exact h

theorem Linked.getNode_last {s : Bcache} {L : Nat → List Nat} (h : Linked s L) {q : Nat}
    (hq : q < NQUEUE) {l : List Nat} (hl : ∀ j ∈ l, j ∈ L q) :
    ∃ n, getNode s (lastPtr (.head q) l) = some n := by
  rcases lastPtr_eq_or (.head q) l with e | ⟨j, hj, e⟩
  · rw [e]; exact getNode_head_some (by rw [h.heads]; exact hq)
  · rw [e]; exact getNode_buf_some (h.bound q hq j (hl j hj))

theorem Linked.getNode_first {s : Bcache} {L : Nat → List Nat} (h : Linked s L) {q : Nat}
    (hq : q < NQUEUE) {l : List Nat} (hl : ∀ j ∈ l, j ∈ L q) :
    ∃ n, getNode s (firstPtr l (.head q)) = some n := by
  rcases firstPtr_eq_or l (.head q) with e | ⟨j, hj, e⟩
  · rw [e]; exact getNode_head_some (by rw [h.heads]; exact hq)
  · rw [e]; exact getNode_buf_some (h.bound q hq j (hl j hj))

theorem Linked.remove {s : Bcache} {L : Nat → List Nat} (h : Linked s L) {i : Nat}
    (hi : i < s.buf.length) :
    ∃ s1, remove_from_hashqueue (.buf i) s = .ok () s1 ∧
      Linked s1 (fun q => (L q).erase i) ∧ SameData s s1 := by
  by_cases hmem : ∃ q, q < NQUEUE ∧ i ∈ L q
  · obtain ⟨q, hq, hiq⟩ := hmem
    obtain ⟨l1, l2, hL⟩ := List.append_of_mem hiq
    have hnd := h.nodup q hq
    rw [hL] at hnd
    have hil1 : i ∉ l1 := by
      intro hc
      have := List.nodup_append.mp hnd
      exact this.2.2 hc (by simp)
    have hil2 : i ∉ l2 := by
      have := (List.nodup_append.mp hnd).2.1
      exact (List.nodup_cons.mp this).1
    have hp := h.path q hq
    rw [hL, path_append] at hp
    have hprev := path_last _ _ _ hp.1
    have hnext := path_first hp.2
    obtain ⟨n, hn, hnp⟩ := prv_eq_some hprev
    obtain ⟨n', hn', hnn⟩ := nxt_eq_some hnext
    rw [hn] at hn'
    have hnn' : n.next = firstPtr l2 (.head q) := by
      have := Option.some.inj hn'
      rw [this]; exact hnn
    have hsub1 : ∀ j ∈ l1, j ∈ L q := fun j hj => by rw [hL]; simp [hj]
    have hsub2 : ∀ j ∈ l2, j ∈ L q := fun j hj => by rw [hL]; simp [hj]
    obtain ⟨na, hna⟩ := h.getNode_last hq hsub1
    obtain ⟨nb, hnb⟩ := h.getNode_first hq hsub2
    have ha_ne : lastPtr (.head q) l1 ≠ .buf i ∧ lastPtr (.head q) l1 ≠ .null := by
      rcases lastPtr_eq_or (.head q) l1 with e | ⟨j, hj, e⟩
      · rw [e]; simp
      · rw [e]; simp; intro hc; exact hil1 (hc ▸ hj)
    have hb_ne : firstPtr l2 (.head q) ≠ .buf i ∧ firstPtr l2 (.head q) ≠ .null := by
      rcases firstPtr_eq_or l2 (.head q) with e | ⟨j, hj, e⟩
      · rw [e]; simp
      · rw [e]; simp; intro hc; exact hil2 (hc ▸ hj)
    obtain ⟨s1, hs1, hnx, hpv⟩ := remove_member (s := s) (i := i) (n := n) hn
      (by rw [hnn']; exact hb_ne.2) (by rw [hnp]; exact ha_ne.2) (by rw [hnp]; exact ha_ne.1)
      (by rw [hnn']; exact hb_ne.1) (by rw [hnp]; exact hna) (by rw [hnn']; exact hnb)
    rw [hnp, hnn'] at hnx hpv
    have hsd : SameData s s1 := Frame.of_ok (remove_frame _) hs1
    refine ⟨s1, hs1, ?_, hsd⟩
    have herase : (L q).erase i = l1 ++ l2 := by
      rw [hL, List.erase_append_right _ hil1, List.erase_cons_head]
    constructor
    · rw [hsd.hqhead_length]; exact h.heads
    · intro q' hq'
      by_cases hqq : q' = q
      · subst hqq
        show Path (nxt s1) (prv s1) (.head q') ((L q').erase i) (.head q')
        rw [herase, hnx, hpv]
        have hp0 := h.path q' hq
        rw [hL] at hp0
        exact path_unlink i l2 (.head q') l1 (.head q') hp0 hnd (by simp) (by simp) (by simp)
      · have hni : i ∉ L q' := h.disj q hq q' hq' (Ne.symm hqq) i hiq
        show Path (nxt s1) (prv s1) (.head q') ((L q').erase i) (.head q')
        rw [List.erase_of_not_mem hni, hnx, hpv]
        have hnotin : ∀ j ∈ L q', j ∉ L q := fun j hj => h.disj q' hq' q hq hqq j hj
        have ha' : ∀ x, (x = .head q' ∨ ∃ j ∈ L q', x = .buf j) →
            x ≠ .buf i ∧ x ≠ lastPtr (.head q) l1 ∧ x ≠ firstPtr l2 (.head q) := by
          intro x hx
          refine ⟨?_, ?_, ?_⟩
          · rcases hx with e | ⟨j, hj, e⟩
            · rw [e]; simp
            · rw [e]; simp; intro hc; exact hni (hc ▸ hj)
          · rcases lastPtr_eq_or (.head q) l1 with e2 | ⟨k, hk, e2⟩
            · rw [e2]
              rcases hx with e | ⟨j, hj, e⟩
              · rw [e]; simp [hqq]
              · rw [e]; simp
            · rw [e2]
              rcases hx with e | ⟨j, hj, e⟩
              · rw [e]; simp
              · rw [e]; simp; intro hc; exact hnotin j hj (hc ▸ hsub1 k hk)
          · rcases firstPtr_eq_or l2 (.head q) with e2 | ⟨k, hk, e2⟩
            · rw [e2]
              rcases hx with e | ⟨j, hj, e⟩
              · rw [e]; simp [hqq]
              · rw [e]; simp
            · rw [e2]
              rcases hx with e | ⟨j, hj, e⟩
              · rw [e]; simp
              · rw [e]; simp; intro hc; exact hnotin j hj (hc ▸ hsub2 k hk)
        refine path_frame _ _ _ (h.path q' hq') ?_ ?_ ?_ ?_
        · have := ha' (.head q') (Or.inl rfl)
          simp [unlinkNx, this.2.1]
        · intro j hj
          have := ha' (.buf j) (Or.inr ⟨j, hj, rfl⟩)
          simp only [unlinkNx, this.1, this.2.1, ite_false]
        · intro j hj
          have := ha' (.buf j) (Or.inr ⟨j, hj, rfl⟩)
          simp only [unlinkPv, this.1, this.2.2, ite_false]
        · have := ha' (.head q') (Or.inl rfl)
          simp [unlinkPv, this.2.2]
    · intro q' hq'
      exact (h.nodup q' hq').erase i
    · intro q1 hq1 q2 hq2 hne j hj hj2
      exact h.disj q1 hq1 q2 hq2 hne j (List.mem_of_mem_erase hj) (List.mem_of_mem_erase hj2)
    · intro q' hq' j hj
      rw [hsd.buf_length]
      exact h.bound q' hq' j (List.mem_of_mem_erase hj)
    · intro j hj hfree
      rw [hsd.buf_length] at hj
      rw [hnx, hpv]
      by_cases hji : j = i
      · subst hji; simp [unlinkNx, unlinkPv]
      · have hfree' : ∀ q', q' < NQUEUE → j ∉ L q' := by
          intro q' hq' hc
          exact hfree q' hq' ((List.mem_erase_of_ne hji).mpr hc)
        have hf := h.free j hj hfree'
        have hja : Ptr.buf j ≠ lastPtr (.head q) l1 := by
          rcases lastPtr_eq_or (.head q) l1 with e2 | ⟨k, hk, e2⟩
          · rw [e2]; simp
          · rw [e2]; simp; intro hc; exact hfree' q hq (hc ▸ hsub1 k hk)
        have hjb : Ptr.buf j ≠ firstPtr l2 (.head q) := by
          rcases firstPtr_eq_or l2 (.head q) with e2 | ⟨k, hk, e2⟩
          · rw [e2]; simp
          · rw [e2]; simp; intro hc; exact hfree' q hq (hc ▸ hsub2 k hk)
        simp [unlinkNx, unlinkPv, hji, hja, hjb, hf.1, hf.2]
  · have hfree : ∀ q, q < NQUEUE → i ∉ L q := fun q hq hc => hmem ⟨q, hq, hc⟩
    have hf := h.free i hi hfree
    obtain ⟨n, hn, hnn⟩ := nxt_eq_some hf.1
    obtain ⟨n', hn', hnp⟩ := prv_eq_some hf.2
    rw [hn] at hn'
    have hnp' : n.prev = .null := by rw [Option.some.inj hn']; exact hnp
    refine ⟨s, remove_free hn hnn hnp', ?_, SameData.refl s⟩
    constructor
    · exact h.heads
    · intro q hq
      show Path (nxt s) (prv s) (.head q) ((L q).erase i) (.head q)
      rw [List.erase_of_not_mem (hfree q hq)]
      exact h.path q hq
    · intro q hq; exact (h.nodup q hq).erase i
    · intro q1 hq1 q2 hq2 hne j hj hj2
      exact h.disj q1 hq1 q2 hq2 hne j (List.mem_of_mem_erase hj) (List.mem_of_mem_erase hj2)
    · intro q hq j hj
      exact h.bound q hq j (List.mem_of_mem_erase hj)
    · intro j hj hfj
      apply h.free j hj
      intro q hq hc
      by_cases hji : j = i
      · subst hji; exact hfree q hq hc
      · exact hfj q hq ((List.mem_erase_of_ne hji).mpr hc)

theorem Linked.addhead {s : Bcache} {L : Nat → List Nat} (h : Linked s L) {i q : Nat}
    (hi : i < s.buf.length) (hq : q < NQUEUE) :
    ∃ s', hashqueue_addhead (some q) (.buf i) s = .ok () s' ∧
      Linked s' (moveFront L q i) ∧ SameData s s' := by
  obtain ⟨s1, hrm, hl1, hsd1⟩ := h.remove hi
  have hi1 : i < s1.buf.length := by rw [hsd1.buf_length]; exact hi
  obtain ⟨n, hn⟩ := getNode_buf_some hi1
  obtain ⟨hh, hhd⟩ := getNode_head_some (s := s1) (q := q) (by rw [hl1.heads]; exact hq)
  have hp := hl1.path q hq
  have hfirst := path_first hp
  obtain ⟨hh', hhd', hnext⟩ := nxt_eq_some hfirst
  rw [hhd] at hhd'
  have hnext' : hh.next = firstPtr ((L q).erase i) (.head q) := by
    rw [Option.some.inj hhd']; exact hnext
  have hnd : ((L q).erase i).Nodup := hl1.nodup q hq
  have hni : i ∉ (L q).erase i := fun hc => by
    have := (List.Nodup.mem_erase_iff (h.nodup q hq)).mp hc
    exact this.1 rfl
  obtain ⟨nf, hnf⟩ := hl1.getNode_first hq (l := (L q).erase i) (fun j hj => hj)
  have hfi : firstPtr ((L q).erase i) (.head q) ≠ .buf i := by
    rcases firstPtr_eq_or ((L q).erase i) (.head q) with e | ⟨j, hj, e⟩
    · rw [e]; simp
    · rw [e]; simp; intro hc; exact hni (hc ▸ hj)
  obtain ⟨s', hs', hnx, hpv⟩ := addhead_link (s := s) (q := q) (i := i) (n := n) (h := hh) hrm hn hhd (by rw [hnext']; exact hnf) (by rw [hnext']; exact hfi)
  rw [hnext'] at hnx hpv
  have hsd : SameData s s' := Frame.of_ok (addhead_frame _ _) hs'
  refine ⟨s', hs', ?_, hsd⟩
  constructor
  · rw [hsd.hqhead_length]; exact h.heads
  · intro q' hq'
    by_cases hqq : q' = q
    · subst hqq
      show Path (nxt s') (prv s') (.head q') (moveFront L q' i q') (.head q')
      simp only [moveFront, ite_true]
      rw [hnx, hpv]
      exact path_link hp hnd hni (by simp) (by simp)
    · show Path (nxt s') (prv s') (.head q') (moveFront L q i q') (.head q')
      simp only [moveFront, hqq, ite_false]
      rw [hnx, hpv]
      have hni' : i ∉ (L q').erase i := fun hc => by
        have := (List.Nodup.mem_erase_iff (h.nodup q' hq')).mp hc
        exact this.1 rfl
      have hdis : ∀ j ∈ (L q').erase i, j ∉ (L q).erase i :=
        fun j hj => hl1.disj q' hq' q hq hqq j hj
      have hf' : ∀ x, (x = .head q' ∨ ∃ j ∈ (L q').erase i, x = .buf j) →
          x ≠ .buf i ∧ x ≠ .head q ∧ x ≠ firstPtr ((L q).erase i) (.head q) := by
        intro x hx
        refine ⟨?_, ?_, ?_⟩
        · rcases hx with e | ⟨j, hj, e⟩
          · rw [e]; simp
          · rw [e]; simp; intro hc; exact hni' (hc ▸ hj)
        · rcases hx with e | ⟨j, hj, e⟩
          · rw [e]; simp [hqq]
          · rw [e]; simp
        · rcases firstPtr_eq_or ((L q).erase i) (.head q) with e2 | ⟨k, hk, e2⟩
          · rw [e2]
            rcases hx with e | ⟨j, hj, e⟩
            · rw [e]; simp [hqq]
            · rw [e]; simp
          · rw [e2]
            rcases hx with e | ⟨j, hj, e⟩
            · rw [e]; simp
            · rw [e]; simp; intro hc; exact hdis j hj (hc ▸ hk)
      refine path_frame _ _ _ (hl1.path q' hq') ?_ ?_ ?_ ?_
      · have := hf' (.head q') (Or.inl rfl)
        simp only [linkNx, this.1, this.2.1, ite_false]
      · intro j hj
        have := hf' (.buf j) (Or.inr ⟨j, hj, rfl⟩)
        simp only [linkNx, this.1, this.2.1, ite_false]
      · intro j hj
        have := hf' (.buf j) (Or.inr ⟨j, hj, rfl⟩)
        simp only [linkPv, this.1, this.2.2, ite_false]
      · have := hf' (.head q') (Or.inl rfl)
        simp only [linkPv, this.1, this.2.2, ite_false]
  · intro q' hq'
    show (moveFront L q i q').Nodup
    simp only [moveFront]
    split
    · next e => subst e; exact List.nodup_cons.mpr ⟨hni, hnd⟩
    · exact (h.nodup q' hq').erase i
  · intro q1 hq1 q2 hq2 hne j hj hj2
    have hni1 : ∀ q', q' < NQUEUE → i ∉ (L q').erase i := fun q' hq' hc => by
      have := (List.Nodup.mem_erase_iff (h.nodup q' hq')).mp hc
      exact this.1 rfl
    simp only [moveFront] at hj hj2
    by_cases e1 : q1 = q
    · have e2 : q2 ≠ q := fun hc => hne (e1.trans hc.symm)
      simp only [e1, ite_true, e2, ite_false, List.mem_cons] at hj hj2
      rcases hj with hj | hj
      · subst hj; exact hni1 q2 hq2 hj2
      · exact hl1.disj q hq q2 hq2 (Ne.symm e2) j hj hj2
    · simp only [e1, ite_false] at hj
      by_cases e2 : q2 = q
      · simp only [e2, ite_true, List.mem_cons] at hj2
        rcases hj2 with hj2 | hj2
        · subst hj2; exact hni1 q1 hq1 hj
        · exact hl1.disj q1 hq1 q hq e1 j hj hj2
      · simp only [e2, ite_false] at hj2
        exact hl1.disj q1 hq1 q2 hq2 hne j hj hj2
  · intro q' hq' j hj
    rw [hsd.buf_length]
    simp only [moveFront] at hj
    split at hj
    · rcases List.mem_cons.mp hj with e | hj
      · rw [e]; exact hi
      · exact h.bound q' hq' j (List.mem_of_mem_erase hj)
    · exact h.bound q' hq' j (List.mem_of_mem_erase hj)
  · intro j hj hfree
    rw [hsd.buf_length] at hj
    have hji : j ≠ i := by
      intro hc
      apply hfree q hq
      simp [moveFront, hc]
    have hfree1 : ∀ q', q' < NQUEUE → j ∉ (L q').erase i := by
      intro q' hq' hc
      apply hfree q' hq'
      simp only [moveFront]
      split
      · exact List.mem_cons_of_mem _ hc
      · exact hc
    have hf := hl1.free j (by rw [hsd1.buf_length]; exact hj) hfree1
    have hjf : Ptr.buf j ≠ firstPtr ((L q).erase i) (.head q) := by
      rcases firstPtr_eq_or ((L q).erase i) (.head q) with e2 | ⟨k, hk, e2⟩
      · rw [e2]; simp
      · rw [e2]; simp; intro hc; exact hfree1 q hq (hc ▸ hk)
    rw [hnx, hpv]
    simp [linkNx, linkPv, hji, hjf, hf.1, hf.2]

theorem lookup_path {s : Bcache} {q : Nat} (dev blockno : Nat) :
    ∀ (l : List Nat) (p : Ptr) (fuel : Nat), Path (nxt s) (prv s) p l (.head q) →
      (∀ j ∈ l, j < s.buf.length) → l.length < fuel →
      bget_lookup (.head q) dev blockno fuel (firstPtr l (.head q)) s =
        .ok ((l.find? (keyMatch s dev blockno)).map Ptr.buf) s
  | [], p, fuel, _, _, hf => by
    obtain ⟨f, rfl⟩ : ∃ f, fuel = f + 1 := ⟨fuel - 1, by simp at hf; omega⟩
    simp [bget_lookup, firstPtr]
  | i :: l, p, fuel, hp, hb, hf => by
    obtain ⟨f, rfl⟩ : ∃ f, fuel = f + 1 := ⟨fuel - 1, by simp at hf; omega⟩
    have hi : i < s.buf.length := hb i (by simp)
    have hget : s.buf[i]? = some s.buf[i] := List.getElem?_eq_getElem hi
    have hnext := path_first hp.2.2
    obtain ⟨n, hn, hnn⟩ := nxt_eq_some hnext
    have hn' : s.buf[i]? = some n := hn
    simp only [bget_lookup, firstPtr, getNode, hn']
    simp only [Ptr.buf.injEq, reduceCtorEq, ite_false, List.find?_cons, keyMatch, hn']
    by_cases hm : n.dev = dev ∧ n.blockno = blockno
    · simp [hm]
    · have ih := lookup_path dev blockno l (.buf i) f hp.2.2 (fun j hj => hb j (by simp [hj]))
        (by simp at hf; omega)
      simp only [hm, ite_false, decide_False, hnn, ih]

theorem list_set_self {α : Type} (l : List α) (i : Nat) (x : α) (h : l[i]? = some x) :
    l.set i x = l := by
  apply List.ext_getElem?
  intro m
  rw [List.getElem?_set]
  split
  · next e =>
    subst e
    have hlt : i < l.length := by
      by_contra hc
      rw [List.getElem?_eq_none (Nat.le_of_not_lt hc)] at h
      cases h
    simp [hlt, h]
  · rfl

theorem acquire_hq {c : Ctx} {q : Nat} {s : Bcache} (h : s.hqlock[q]? = some none) :
    acquire c (.hq q) s = .ok () { s with hqlock := s.hqlock.set q (some c.cpu) } := by
  simp [acquire, getSpin, setSpin, h]

theorem release_hq {c : Ctx} {q : Nat} {s : Bcache} (h : s.hqlock[q]? = some (some c.cpu)) :
    release c (.hq q) s = .ok () { s with hqlock := s.hqlock.set q none } := by
  simp [release, getSpin, setSpin, h]

theorem holding_hq {c : Ctx} {q : Nat} {s : Bcache} {v : Option Nat} (h : s.hqlock[q]? = some v) :
    holding c (.hq q) s = .ok (decide (v = some c.cpu)) s := by
  simp [holding, getSpin, h]

theorem gethashqueue_eq (blockno : Nat) : gethashqueue blockno = some (blockno % NQUEUE) := by
  simp [gethashqueue, uintLtZero, hash]

theorem mod_NQUEUE_lt (x : Nat) : x % NQUEUE < NQUEUE := Nat.mod_lt _ (by decide)

theorem Linked.length_le {s : Bcache} {L : Nat → List Nat} (h : Linked s L) {q : Nat}
    (hq : q < NQUEUE) : (L q).length ≤ s.buf.length := by
  have hnd := h.nodup q hq
  have hsub : (L q).toFinset ⊆ Finset.range s.buf.length := by
    intro j hj
    simp only [List.mem_toFinset] at hj
    simp only [Finset.mem_range]
    exact h.bound q hq j hj
  have := Finset.card_le_card hsub
  rw [List.toFinset_card_of_nodup hnd, Finset.card_range] at this
  exact this

/-- A state that differs from `s` in lock fields only has the same lists. -/
theorem Linked.of_nodes {s s' : Bcache} {L : Nat → List Nat} (h : Linked s L)
    (hb : s'.buf = s.buf) (hh : s'.hqhead = s.hqhead) : Linked s' L := by
  have hg : getNode s' = getNode s := by
    funext p
    cases p <;> simp [getNode, hb, hh]
  have hn : nxt s' = nxt s := by funext p; simp [nxt, hg]
  have hp : prv s' = prv s := by funext p; simp [prv, hg]
  exact ⟨by rw [hh]; exact h.heads, by rw [hn, hp]; exact h.path, h.nodup, h.disj,
    by rw [hb]; exact h.bound, by rw [hb, hn, hp]; exact h.free⟩

theorem Linked.member_links {s : Bcache} {L : Nat → List Nat} (h : Linked s L) {q i : Nat}
    (hq : q < NQUEUE) (hi : i ∈ L q) :
    ∃ n, getNode s (.buf i) = some n ∧ n.next ≠ .null ∧ n.prev ≠ .null := by
  obtain ⟨l1, l2, hL⟩ := List.append_of_mem hi
  have hp := h.path q hq
  rw [hL, path_append] at hp
  obtain ⟨n, hn, hnp⟩ := prv_eq_some (path_last _ _ _ hp.1)
  obtain ⟨n', hn', hnn⟩ := nxt_eq_some (path_first hp.2)
  rw [hn] at hn'
  have hnn' : n.next = firstPtr l2 (.head q) := by rw [Option.some.inj hn']; exact hnn
  refine ⟨n, hn, ?_, ?_⟩
  · rw [hnn']
    rcases firstPtr_eq_or l2 (.head q) with e | ⟨j, _, e⟩ <;> rw [e] <;> simp
  · rw [hnp]
    rcases lastPtr_eq_or (.head q) l1 with e | ⟨j, _, e⟩ <;> rw [e] <;> simp

theorem keyMatch_congr (s s' : Bcache) (h : s'.buf = s.buf) (dev blockno : Nat) :
    keyMatch s' dev blockno = keyMatch s dev blockno := by
  funext i; simp [keyMatch, h]

theorem acquiresleep_buf {c : Ctx} {s : Bcache} {i : Nat} {n : Buf} (h : s.buf[i]? = some n) :
    acquiresleep c (.buf i) s =
      match n.lock with
      | none => .ok () { s with buf := s.buf.set i { n with lock := some c.pid } }
      | some _ => .fail .sleep s := by
  cases h2 : n.lock <;> simp [acquiresleep, getNode, h, setNode, h2]

/-- Outcome of `bget` when the target bucket holds the key: the first match in list
order gets one more reference and, if its sleeplock is free, is returned locked. -/
theorem bget_hit {c : Ctx} {s : Bcache} {L : Nat → List Nat} {dev blockno i : Nat} {n : Buf}
    (hL : Linked s L) (hlk : s.hqlock[blockno % NQUEUE]? = some none)
    (hfind : (L (blockno % NQUEUE)).find? (keyMatch s dev blockno) = some i)
    (hn : s.buf[i]? = some n) :
    bget c dev blockno s =
      match n.lock with
      | none => .ok (.buf i)
          { s with buf := s.buf.set i { n with refcnt := uintInc n.refcnt, lock := some c.pid } }
      | some _ => .fail .sleep
          { s with buf := s.buf.set i { n with refcnt := uintInc n.refcnt } } := by
  have hq := mod_NQUEUE_lt blockno
  obtain ⟨s1, hs1⟩ : ∃ s1 : Bcache,
      s1 = { s with hqlock := s.hqlock.set (blockno % NQUEUE) (some c.cpu) } := ⟨_, rfl⟩
  have hL1 : Linked s1 L := hL.of_nodes (by rw [hs1]) (by rw [hs1])
  obtain ⟨h, hh⟩ := getNode_head_some (s := s1) (q := blockno % NQUEUE) (by rw [hL1.heads]; exact hq)
  have hp := hL1.path _ hq
  obtain ⟨h', hh', hnext⟩ := nxt_eq_some (path_first hp)
  rw [hh] at hh'
  have hnext' : h.next = firstPtr (L (blockno % NQUEUE)) (.head (blockno % NQUEUE)) := by
    rw [Option.some.inj hh']; exact hnext
  have hlook := lookup_path (s := s1) dev blockno _ _ (s1.buf.length + NQUEUE + 1) hp
    (hL1.bound _ hq) (by have := hL1.length_le hq; omega)
  rw [keyMatch_congr s s1 (by rw [hs1]), hfind] at hlook
  have himem : i ∈ L (blockno % NQUEUE) := List.mem_of_find?_eq_some hfind
  obtain ⟨n0, hn0, hn0n, _⟩ := hL.member_links hq himem
  have hnn0 : n0 = n := by
    simp only [getNode] at hn0
    rw [hn] at hn0
    exact (Option.some.inj hn0).symm
  subst hnn0
  have hn1 : getNode s1 (.buf i) = some n0 := by rw [hs1]; exact hn
  have hlen : i < s.buf.length := hL.bound _ hq i himem
  simp only [bget, gethashqueue_eq, lockOf, headOf, bind_apply, acquire_hq hlk, ← hs1, rd_ok hh,
    hnext', hlook, Option.map_some', wr_ok hn1, isin_hashqueue, pure_apply]
  rw [rd_ok (getNode_setNode_same hn1 _)]
  simp only [ne_eq, hn0n, not_false_eq_true, or_true, decide_True, Bool.not_true,
    Bool.false_eq_true, ite_false, bind_apply]
  rw [release_hq (by simp [setNode, hs1, List.getElem?_set, hq, hlk]
                     have : blockno % NQUEUE < s.hqlock.length := by
                       by_contra hc
                       rw [List.getElem?_eq_none (Nat.le_of_not_lt hc)] at hlk
                       cases hlk
                     exact this)]
  simp only [setNode, hs1, List.set_set, list_set_self _ _ _ hlk]
  rw [acquiresleep_buf (n := { n0 with refcnt := uintInc n0.refcnt })
    (by simp [List.getElem?_set, hlen])]
  cases hlock : n0.lock with
  | none => simp [pure_apply, List.set_set]
  | some p => simp

theorem victimFrom_some {bs : List Buf} : ∀ {i v : Nat}, victimFrom bs i = some v →
    i ≤ v ∧ (∃ n, bs[v - i]? = some n ∧ n.refcnt = 0) ∧
      ∀ j, j < v - i → ∀ m, bs[j]? = some m → m.refcnt ≠ 0 := by
  induction bs with
  | nil => intro i v h; simp [victimFrom] at h
  | cons b bs ih =>
    intro i v h
    simp only [victimFrom] at h
    split at h
    · next hb =>
      have : i = v := Option.some.inj h
      subst this
      simp [hb]
    · next hb =>
      obtain ⟨h1, ⟨n, h2, h3⟩, h4⟩ := ih h
      have e : v - i = (v - (i + 1)) + 1 := by omega
      refine ⟨by omega, ⟨n, by rw [e]; simpa using h2, h3⟩, ?_⟩
      intro j hj m hm
      cases j with
      | zero => simp at hm; rw [← hm]; exact hb
      | succ j => exact h4 j (by omega) m (by simpa using hm)

theorem victimFrom_none {bs : List Buf} : ∀ {i : Nat}, victimFrom bs i = none →
    ∀ b ∈ bs, b.refcnt ≠ 0 := by
  induction bs with
  | nil => intro i _ b hb; simp at hb
  | cons b bs ih =>
    intro i h x hx
    simp only [victimFrom] at h
    split at h
    · cases h
    · next hb =>
      rcases List.mem_cons.mp hx with e | e
      · rw [e]; exact hb
      · exact ih h x e

theorem victimFrom_eq_none {bs : List Buf} : ∀ {i : Nat}, (∀ b ∈ bs, b.refcnt ≠ 0) →
    victimFrom bs i = none := by
  induction bs with
  | nil => intro i _; rfl
  | cons b bs ih =>
    intro i h
    simp only [victimFrom, h b (by simp), ite_false]
    exact ih (fun x hx => h x (by simp [hx]))

theorem bget_unused_none (s : Bcache) : ∀ (n i : Nat), i + n ≤ s.buf.length →
    bget_unused i n s = .ok none s
  | 0, _, _ => rfl
  | n + 1, i, h => by
    obtain ⟨x, hx⟩ := getNode_buf_some (s := s) (i := i) (by omega)
    simp only [bget_unused, bind_apply, rd_ok hx]
    have : uintLtZero x.blockno = false := by simp [uintLtZero]
    simp only [this, Bool.false_eq_true, ite_false]
    exact bget_unused_none s n (i + 1) (by omega)

theorem hqlock_lt {s : Bcache} {q : Nat} {v : Option Nat} (h : s.hqlock[q]? = some v) :
    q < s.hqlock.length := by
  by_contra hc
  rw [List.getElem?_eq_none (Nat.le_of_not_lt hc)] at h
  cases h

theorem lockboth_hq {c : Ctx} {s : Bcache} {q : Nat} (oq : Nat)
    (hq : s.hqlock[q]? = some (some c.cpu)) (ho : oq ≠ q → s.hqlock[oq]? = some none) :
    lockboth c (.hq q) (.hq oq) s =
      .ok () { s with hqlock := if oq = q then s.hqlock else s.hqlock.set oq (some c.cpu) } := by
  simp only [lockboth, bind_apply, holding_hq hq, decide_True, Bool.not_true, Bool.false_eq_true,
    ite_false, Spin.hq.injEq]
  by_cases e : oq = q
  · subst e; simp [pure_apply]
  · have e' : ¬ q = oq := fun hc => e hc.symm
    have hol := ho e
    have hqlt := hqlock_lt hq
    have holt := hqlock_lt hol
    simp only [e, e', ite_false, Spin.addr]
    split
    · have h1 : (s.hqlock.set q none)[oq]? = some none := by
        rw [List.getElem?_set_ne e']; exact hol
      have h2 : ((s.hqlock.set q none).set oq (some c.cpu))[q]? = some none := by
        rw [List.getElem?_set_ne e, List.getElem?_set_self hqlt]
      simp only [bind_apply, release_hq hq]
      rw [acquire_hq (s := { s with hqlock := s.hqlock.set q none }) h1]
      simp only
      rw [acquire_hq (s := { s with hqlock := (s.hqlock.set q none).set oq (some c.cpu) }) h2]
      simp only
      congr 2
      apply List.ext_getElem?
      intro m
      simp only [List.getElem?_set, List.length_set]
      by_cases m1 : q = m
      · subst m1; simp [hqlt, e, e', hq]
      · simp [m1]
    · simp only [acquire_hq hol]

/-- The eviction loop of `bget`, run with the target queue locked and every other queue
lock free: it stops at the first slot from `i` on with `refcnt == 0`, holding the lock of
that slot's queue as well, and panics with every lock as before when there is none. -/
theorem bget_evict_spec {c : Ctx} {s : Bcache} {q : Nat}
    (hq : s.hqlock[q]? = some (some c.cpu))
    (ho : ∀ q', q' < NQUEUE → q' ≠ q → s.hqlock[q']? = some none) :
    ∀ (n i : Nat), i + n = s.buf.length →
      bget_evict c (some q) i n s =
        match victimFrom (s.buf.drop i) i with
        | some v =>
          .ok (.buf v, gethashqueue (s.buf.getD v Buf.zero).blockno)
            { s with hqlock :=
                if (s.buf.getD v Buf.zero).blockno % NQUEUE = q then s.hqlock
                else s.hqlock.set ((s.buf.getD v Buf.zero).blockno % NQUEUE) (some c.cpu) }
        | none => .fail (.panic .bgetNoBuffers) s
  | 0, i, h => by
    have : s.buf.drop i = [] := List.drop_eq_nil_of_le (by omega)
    simp [bget_evict, this, victimFrom, panic]
  | n + 1, i, h => by
    have hi : i < s.buf.length := by omega
    have hx : getNode s (.buf i) = some s.buf[i] := List.getElem?_eq_getElem hi
    have hdrop : s.buf.drop i = s.buf[i] :: s.buf.drop (i + 1) := List.drop_eq_getElem_cons hi
    have hoq := mod_NQUEUE_lt s.buf[i].blockno
    have hgetD : s.buf.getD i Buf.zero = s.buf[i] := by
      rw [List.getD_eq_getElem?_getD, List.getElem?_eq_getElem hi]; rfl
    have hlb := lockboth_hq (c := c) (s := s) (q := q) (s.buf[i].blockno % NQUEUE) hq
      (fun e => ho _ hoq e)
    have hx' : s.buf[i]? = some s.buf[i] := hx
    simp only [bget_evict, bind_apply, rd_ok hx, gethashqueue_eq, lockOf, hlb]
    simp only [rd, getNode, hx', hdrop, victimFrom]
    by_cases hr : s.buf[i].refcnt = 0
    · simp only [hr, ite_true, pure_apply, hgetD]
    · simp only [hr, ite_false, bind_apply, hashqueue_eq, headOf, Option.some.injEq, Ptr.head.injEq]
      have ih := bget_evict_spec hq ho n (i + 1) (by omega)
      simp only [gethashqueue_eq] at ih
      by_cases e : s.buf[i].blockno % NQUEUE = q
      · simp only [e, decide_True, Bool.not_true, Bool.false_eq_true, ite_false, pure_apply,
          ite_true]
        exact ih
      · have hol := ho _ hoq e
        have holt := hqlock_lt hol
        simp only [e, decide_False, Bool.not_false, ite_true, ite_false]
        rw [bind_apply, release_hq
          (s := { s with hqlock := List.set s.hqlock (s.buf[i].blockno % NQUEUE) (some c.cpu) })
          (by simp [List.getElem?_set_self holt])]
        simp only [List.set_set, list_set_self _ _ _ hol]
        exact ih

theorem nxt_of_links {s s' : Bcache} (hb : s'.buf.map Buf.links = s.buf.map Buf.links)
    (hh : s'.hqhead.map Buf.links = s.hqhead.map Buf.links) :
    nxt s' = nxt s ∧ prv s' = prv s := by
  have key : ∀ (l l' : List Buf), l'.map Buf.links = l.map Buf.links → ∀ i : Nat,
      (l'[i]?).map Buf.links = (l[i]?).map Buf.links := by
    intro l l' h i
    rw [← List.getElem?_map, ← List.getElem?_map, h]
  have key2 : ∀ (a b : Option Buf), a.map Buf.links = b.map Buf.links →
      a.map (fun n => n.next) = b.map (fun n => n.next) ∧
      a.map (fun n => n.prev) = b.map (fun n => n.prev) := by
    intro a b h
    cases a <;> cases b <;> simp [Buf.links] at h ⊢
    exact ⟨h.2, h.1⟩
  constructor
  · funext p
    cases p with
    | null => rfl
    | head q => exact (key2 _ _ (key _ _ hh q)).1
    | buf i => exact (key2 _ _ (key _ _ hb i)).1
  · funext p
    cases p with
    | null => rfl
    | head q => exact (key2 _ _ (key _ _ hh q)).2
    | buf i => exact (key2 _ _ (key _ _ hb i)).2

theorem Linked.of_links {s s' : Bcache} {L : Nat → List Nat} (h : Linked s L)
    (hb : s'.buf.map Buf.links = s.buf.map Buf.links)
    (hh : s'.hqhead.map Buf.links = s.hqhead.map Buf.links) : Linked s' L := by
  obtain ⟨hn, hp⟩ := nxt_of_links hb hh
  have hbl : s'.buf.length = s.buf.length := by simpa using congrArg List.length hb
  have hhl : s'.hqhead.length = s.hqhead.length := by simpa using congrArg List.length hh
  exact ⟨by rw [hhl]; exact h.heads, by rw [hn, hp]; exact h.path, h.nodup, h.disj,
    by rw [hbl]; exact h.bound, by rw [hbl, hn, hp]; exact h.free⟩

theorem replicate_get {q : Nat} (hq : q < NQUEUE) :
    (List.replicate NQUEUE (none : Option Nat))[q]? = some none := by
  simp [List.getElem?_replicate, hq]

/-- The unlock sequence after the label `found`: `bcache.lock`, then the target queue's
lock, then the victim's queue's lock if that is another one. -/
theorem found_unlock {c : Ctx} {t : Bcache} {q oq : Nat} (hq : q < NQUEUE) (hoq : oq < NQUEUE)
    (hl : t.lock = some c.cpu)
    (hh : t.hqlock = if oq = q then (List.replicate NQUEUE none).set q (some c.cpu)
      else ((List.replicate NQUEUE none).set q (some c.cpu)).set oq (some c.cpu))
    {α : Type} (k : M α) :
    (do
      release c .bcache
      let h ← holding c (lockOf (some q))
      if h then release c (lockOf (some q)) else pure ()
      let oh ← holding c (lockOf (some oq))
      if oh then release c (lockOf (some oq)) else pure ()
      k) t = k { t with lock := none, hqlock := List.replicate NQUEUE none } := by
  cases t with
  | mk lock buf hqlock hqhead disk =>
  simp only at hl hh
  subst hl
  subst hh
  by_cases e : oq = q
  · subst e
    simp [bind_apply, release, holding, getSpin, setSpin, lockOf, List.getElem?_set, hq,
      pure_apply]
  · have e' : ¬ q = oq := fun hc => e hc.symm
    simp only [bind_apply, release, holding, getSpin, setSpin, lockOf, List.getElem?_set, hq, hoq,
      pure_apply, e, e', ite_true, ite_false, List.length_set, List.length_replicate, decide_True]
    congr 2
    apply List.ext_getElem?
    intro m
    simp only [List.getElem?_set, List.length_set, List.length_replicate, List.getElem?_replicate]
    by_cases m1 : oq = m
    · subst m1; simp [hoq]
    · by_cases m2 : q = m
      · subst m2; simp [m1, hq]
      · simp [m1, m2]

theorem bind_ok {α β : Type} {x : M α} {f : α → M β} {s t : Bcache} {a : α}
    (h : x s = .ok a t) : (x >>= f) s = f a t := by
  rw [bind_apply, h]

theorem bind_fail {α β : Type} {x : M α} {f : α → M β} {s s1 : Bcache} {e : Err}
    (h : x s = .fail e s1) : (x >>= f) s = .fail e s1 := by
  rw [bind_apply, h]

theorem victim_some {s : Bcache} {v : Nat} (h : victim s = some v) :
    ∃ n, s.buf[v]? = some n ∧ n.refcnt = 0 ∧ ∀ j, j < v → ∀ m, s.buf[j]? = some m → m.refcnt ≠ 0 := by
  obtain ⟨_, ⟨n, h2, h3⟩, h4⟩ := victimFrom_some h
  exact ⟨n, by simpa using h2, h3, fun j hj m hm => h4 j (by simpa using hj) m hm⟩

theorem victim_none {s : Bcache} (h : victim s = none) : ∀ b ∈ s.buf, b.refcnt ≠ 0 :=
  victimFrom_none h

/-- The part of `bget` before the allocation: without a match in the target bucket the
walk over its list ends back at the head and the bucket lock is still held. -/
theorem bget_to_miss {c : Ctx} {s : Bcache} {L : Nat → List Nat} {dev blockno : Nat}
    (hL : Linked s L) (hlk : s.hqlock[blockno % NQUEUE]? = some none)
    (hfind : (L (blockno % NQUEUE)).find? (keyMatch s dev blockno) = none) :
    bget c dev blockno s = bget_miss c dev blockno (some (blockno % NQUEUE))
      { s with hqlock := s.hqlock.set (blockno % NQUEUE) (some c.cpu) } := by
  have hq := mod_NQUEUE_lt blockno
  obtain ⟨s1, hs1⟩ : ∃ s1 : Bcache,
      s1 = { s with hqlock := s.hqlock.set (blockno % NQUEUE) (some c.cpu) } := ⟨_, rfl⟩
  have hL1 : Linked s1 L := hL.of_nodes (by rw [hs1]) (by rw [hs1])
  obtain ⟨h, hh⟩ := getNode_head_some (s := s1) (q := blockno % NQUEUE) (by rw [hL1.heads]; exact hq)
  have hp := hL1.path _ hq
  obtain ⟨h', hh', hnext⟩ := nxt_eq_some (path_first hp)
  rw [hh] at hh'
  have hnext' : h.next = firstPtr (L (blockno % NQUEUE)) (.head (blockno % NQUEUE)) := by
    rw [Option.some.inj hh']; exact hnext
  have hlook := lookup_path (s := s1) dev blockno _ _ (s1.buf.length + NQUEUE + 1) hp
    (hL1.bound _ hq) (by have := hL1.length_le hq; omega)
  rw [keyMatch_congr s s1 (by rw [hs1]), hfind] at hlook
  simp only [bget, gethashqueue_eq, lockOf, headOf, bind_apply, acquire_hq hlk, ← hs1, rd_ok hh,
    hnext', hlook, Option.map_none']

theorem map_data_set (l : List Buf) (i : Nat) (m : Buf) :
    (l.set i m).map Buf.data = (l.map Buf.data).set i m.data := by
  apply List.ext_getElem?
  intro k
  simp only [List.getElem?_map, List.getElem?_set, List.length_map]
  split
  · split <;> simp
  · rfl

theorem map_links_set (l : List Buf) (i : Nat) (n m : Buf) (h : l[i]? = some n)
    (hl : m.links = n.links) : (l.set i m).map Buf.links = l.map Buf.links :=
  map_set_same Buf.links l i m n h hl

/-- The code of `bget` from the label `found` on, entered with `bcache.lock`, the target
queue's lock and the victim's queue's lock held: the victim gets the new key, is moved to
the front of the target queue, and all three locks are released before `acquiresleep`. -/
theorem bget_found_spec {c : Ctx} {t : Bcache} {L : Nat → List Nat} (dev blockno : Nat)
    {q oq v : Nat} {n : Buf} (hL : Linked t L) (hq : q < NQUEUE) (hoq : oq < NQUEUE)
    (hl : t.lock = some c.cpu)
    (hh : t.hqlock = if oq = q then (List.replicate NQUEUE none).set q (some c.cpu)
      else ((List.replicate NQUEUE none).set q (some c.cpu)).set oq (some c.cpu))
    (hv : t.buf[v]? = some n) :
    ∃ sf, Quiet sf ∧ sf.disk = t.disk ∧ Linked sf (moveFront L q v) ∧
      sf.buf.map Buf.data = (t.buf.map Buf.data).set v (false, dev, blockno, n.lock, 1) ∧
      sf.hqhead.map Buf.data = t.hqhead.map Buf.data ∧
      bget_found c dev blockno (some q) (some oq) (.buf v) t =
        (acquiresleep c (.buf v) >>= fun _ => pure (.buf v)) sf := by
  have hvlt : v < t.buf.length := by
    by_contra hc
    rw [List.getElem?_eq_none (Nat.le_of_not_lt hc)] at hv
    cases hv
  obtain ⟨nA, hnA⟩ : ∃ nA : Buf,
      nA = { n with refcnt := 1, valid := false, dev := dev, blockno := blockno } := ⟨_, rfl⟩
  obtain ⟨t1, ht1⟩ : ∃ t1 : Bcache, t1 = { t with buf := t.buf.set v nA } := ⟨_, rfl⟩
  have hL1 : Linked t1 L := by
    refine hL.of_links ?_ (by rw [ht1])
    rw [ht1]
    exact map_links_set _ _ n _ hv (by rw [hnA]; rfl)
  have hv1 : v < t1.buf.length := by rw [ht1]; simpa using hvlt
  obtain ⟨t2, hadd, hL2, hsd⟩ := hL1.addhead hv1 hq
  have hwr : ∀ {β : Type} (k : M β),
      (do
        wr (.buf v) (fun x => { x with refcnt := 1 })
        wr (.buf v) (fun x => { x with valid := false })
        wr (.buf v) (fun x => { x with dev := dev })
        wr (.buf v) (fun x => { x with blockno := blockno })
        k) t = k t1 := by
    intro β k
    simp only [bind_apply, wr, getNode, setNode, hv, List.getElem?_set_self hvlt, List.set_set,
      List.length_set, ht1, hnA]
  refine ⟨{ t2 with lock := none, hqlock := List.replicate NQUEUE none }, ⟨rfl, rfl⟩, ?_, ?_, ?_, ?_, ?_⟩
  · show t2.disk = t.disk
    rw [hsd.2.2.1, ht1]
  · exact hL2.of_nodes rfl rfl
  · show t2.buf.map Buf.data = _
    rw [hsd.2.2.2.1, ht1]
    simp only [map_data_set, hnA, Buf.data]
  · show t2.hqhead.map Buf.data = _
    rw [hsd.2.2.2.2, ht1]
  · unfold bget_found
    rw [hwr, bind_ok hadd]
    exact found_unlock hq hoq (by rw [hsd.1, ht1]; exact hl) (by rw [hsd.2.1, ht1]; exact hh) _

theorem getD_of_getElem? {l : List Buf} {v : Nat} {n : Buf} (h : l[v]? = some n) :
    l.getD v Buf.zero = n := by
  rw [List.getD_eq_getElem?_getD, h]; rfl

/-- Outcome of `bget` when the target bucket does not hold the key, from a state with no
spinlock held: with no slot of `refcnt == 0` it panics holding `bcache.lock` and the
target queue's lock; otherwise the lowest such slot `v` is given the key and moved to the
front of the target queue, all spinlocks are released, and `acquiresleep` is reached. -/
theorem bget_miss_spec {c : Ctx} {s : Bcache} {L : Nat → List Nat} {dev blockno : Nat}
    (hL : Linked s L) (hQ : Quiet s)
    (hfind : (L (blockno % NQUEUE)).find? (keyMatch s dev blockno) = none) :
    match victim s with
    | none => bget c dev blockno s = .fail (.panic .bgetNoBuffers)
        { s with lock := some c.cpu,
                 hqlock := (List.replicate NQUEUE none).set (blockno % NQUEUE) (some c.cpu) }
    | some v => ∃ sf n, s.buf[v]? = some n ∧ Quiet sf ∧ sf.disk = s.disk ∧
        Linked sf (moveFront L (blockno % NQUEUE) v) ∧
        sf.buf.map Buf.data = (s.buf.map Buf.data).set v (false, dev, blockno, n.lock, 1) ∧
        sf.hqhead.map Buf.data = s.hqhead.map Buf.data ∧
        bget c dev blockno s = (acquiresleep c (.buf v) >>= fun _ => pure (.buf v)) sf := by
  have hq := mod_NQUEUE_lt blockno
  obtain ⟨hQ1, hQ2⟩ := hQ
  have hlk : s.hqlock[blockno % NQUEUE]? = some none := by rw [hQ2]; exact replicate_get hq
  have hstart := bget_to_miss (c := c) hL hlk hfind
  obtain ⟨s3, hs3⟩ : ∃ s3 : Bcache, s3 =
      { s with
        lock := some c.cpu
        hqlock := (List.replicate NQUEUE none).set (blockno % NQUEUE) (some c.cpu) } := ⟨_, rfl⟩
  have h3q : s3.hqlock[blockno % NQUEUE]? = some (some c.cpu) := by
    rw [hs3]; simp [List.getElem?_set, hq]
  have h3o : ∀ q', q' < NQUEUE → q' ≠ blockno % NQUEUE → s3.hqlock[q']? = some none := by
    intro q' hq' hne
    rw [hs3]; simp [List.getElem?_set, Ne.symm hne, List.getElem?_replicate, hq']
  have hev := bget_evict_spec (c := c) h3q h3o s3.buf.length 0 (by simp)
  have hmiss : bget c dev blockno s =
      (bget_evict c (some (blockno % NQUEUE)) 0 s.buf.length >>= fun r =>
        bget_found c dev blockno (some (blockno % NQUEUE)) r.2 r.1) s3 := by
    rw [hstart]
    unfold bget_miss
    simp only [lockOf]
    rw [bind_ok (release_hq (by simp [List.getElem?_set, hqlock_lt hlk]))]
    simp only [List.set_set, list_set_self _ _ _ hlk]
    rw [bind_ok (t := { s with lock := some c.cpu }) (a := ())
      (by simp [acquire, getSpin, setSpin, hQ1])]
    rw [bind_apply]
    simp only
    rw [bind_ok (bget_unused_none _ _ _ (by simp))]
    simp only
    rw [bind_ok (t := s3) (a := ())
      (by rw [acquire_hq (by simpa using hlk), hs3, hQ2])]
  have hb3 : s3.buf = s.buf := by rw [hs3]
  have hvs : victimFrom (s3.buf.drop 0) 0 = victim s := by rw [hb3]; rfl
  have hlen3 : s3.buf.length = s.buf.length := by rw [hb3]
  rw [hvs, hlen3] at hev
  cases hvic : victim s with
  | none =>
    rw [hvic] at hev
    simp only
    rw [hmiss, bind_fail hev, hs3]
  | some v =>
    rw [hvic] at hev
    simp only at hev ⊢
    obtain ⟨n, hn, _, _⟩ := victim_some hvic
    rw [getD_of_getElem? (l := s3.buf) (by rw [hb3]; exact hn)] at hev
    have hoq := mod_NQUEUE_lt n.blockno
    obtain ⟨t, ht⟩ : ∃ t : Bcache, t =
        { s3 with
          hqlock :=
            if n.blockno % NQUEUE = blockno % NQUEUE then s3.hqlock
            else s3.hqlock.set (n.blockno % NQUEUE) (some c.cpu) } := ⟨_, rfl⟩
    rw [← ht] at hev
    have hLt : Linked t L := hL.of_nodes (by rw [ht, hs3]) (by rw [ht, hs3])
    obtain ⟨sf, h1, h2, h3, h4, h5, h6⟩ := bget_found_spec (c := c) (t := t) dev blockno
      (n := n) hLt hq hoq (by rw [ht, hs3])
      (by rw [ht, hs3]) (by rw [ht, hs3]; exact hn)
    refine ⟨sf, n, hn, h1, ?_, h3, ?_, ?_, ?_⟩
    · rw [h2, ht, hs3]
    · rw [h4, ht, hs3]
    · rw [h5, ht, hs3]
    · rw [hmiss, bind_ok hev, gethashqueue_eq]
      exact h6

theorem buf_lt {s : Bcache} {i : Nat} {n : Buf} (h : s.buf[i]? = some n) : i < s.buf.length := by
  by_contra hc
  rw [List.getElem?_eq_none (Nat.le_of_not_lt hc)] at h
  cases h

/-- Outcome of `brelse` on a linked buffer whose sleeplock the caller holds, with the lock of its
queue free: the sleeplock is released and `refcnt` is decremented; nothing else changes. -/
theorem brelse_spec {c : Ctx} {s : Bcache} {i : Nat} {n : Buf} (hn : s.buf[i]? = some n)
    (hhold : n.lock = some c.pid) (hlk : s.hqlock[n.blockno % NQUEUE]? = some none)
    (hin : n.prev ≠ .null ∨ n.next ≠ .null) :
    brelse c (.buf i) s =
      .ok () { s with buf := s.buf.set i { n with lock := none, refcnt := uintDec n.refcnt } } := by
  have hlt := buf_lt hn
  have hqlt := hqlock_lt hlk
  simp only [brelse, bind_apply, holdingsleep, getNode, hn, hhold, decide_True, Bool.not_true,
    Bool.false_eq_true, ite_false, releasesleep, setNode, rd, List.getElem?_set_self hlt,
    gethashqueue_eq, lockOf, acquire, getSpin, hlk, setSpin, isin_hashqueue, pure_apply, hin,
    wr, List.set_set, release, List.getElem?_set_self hqlt, ite_true, ne_eq]
  simp only [list_set_self _ _ _ hlk]

/-- Outcome of `bpin` on a linked buffer with the lock of its queue free: `refcnt` is incremented;
nothing else changes. -/
theorem bpin_spec {c : Ctx} {s : Bcache} {i : Nat} {n : Buf} (hn : s.buf[i]? = some n)
    (hlk : s.hqlock[n.blockno % NQUEUE]? = some none)
    (hin : n.prev ≠ .null ∨ n.next ≠ .null) :
    bpin c (.buf i) s =
      .ok () { s with buf := s.buf.set i { n with refcnt := uintInc n.refcnt } } := by
  have hlt := buf_lt hn
  have hqlt := hqlock_lt hlk
  simp only [bpin, bind_apply, getNode, hn, decide_True, Bool.not_true,
    Bool.false_eq_true, ite_false, setNode, rd,
    gethashqueue_eq, lockOf, acquire, getSpin, hlk, setSpin, isin_hashqueue, pure_apply, hin,
    wr, List.set_set, release, List.getElem?_set_self hqlt, ite_true, ne_eq]
  simp only [list_set_self _ _ _ hlk]

/-- Outcome of `bunpin` on a linked buffer with the lock of its queue free: `refcnt` is decremented;
nothing else changes. -/
theorem bunpin_spec {c : Ctx} {s : Bcache} {i : Nat} {n : Buf} (hn : s.buf[i]? = some n)
    (hlk : s.hqlock[n.blockno % NQUEUE]? = some none)
    (hin : n.prev ≠ .null ∨ n.next ≠ .null) :
    bunpin c (.buf i) s =
      .ok () { s with buf := s.buf.set i { n with refcnt := uintDec n.refcnt } } := by
  have hlt := buf_lt hn
  have hqlt := hqlock_lt hlk
  simp only [bunpin, bind_apply, getNode, hn, decide_True, Bool.not_true,
    Bool.false_eq_true, ite_false, setNode, rd,
    gethashqueue_eq, lockOf, acquire, getSpin, hlk, setSpin, isin_hashqueue, pure_apply, hin,
    wr, List.set_set, release, List.getElem?_set_self hqlt, ite_true, ne_eq]
  simp only [list_set_self _ _ _ hlk]

/-- Outcome of `bread` after `bget` returned slot `v`: the block is read from the disk exactly when
the slot is not valid, and the slot is valid afterwards. -/
theorem bread_of_bget {c : Ctx} {s s1 : Bcache} {dev blockno v : Nat} {n1 : Buf}
    (hg : bget c dev blockno s = .ok (.buf v) s1) (hn : s1.buf[v]? = some n1) :
    bread c dev blockno s =
      if n1.valid then .ok (.buf v) s1
      else .ok (.buf v)
        { s1 with disk := (Ptr.buf v, n1.dev, n1.blockno, 0) :: s1.disk,
                  buf := s1.buf.set v { n1 with valid := true } } := by
  simp only [bread, bind_apply, hg, rd, getNode, hn]
  cases hv : n1.valid with
  | true => simp [pure_apply]
  | false =>
    simp [pure_apply, bind_apply, virtio_disk_rw, getNode, hn, wr, setNode]

theorem bread_of_bget_fail {c : Ctx} {s s1 : Bcache} {dev blockno : Nat} {e : Err}
    (hg : bget c dev blockno s = .fail e s1) : bread c dev blockno s = .fail e s1 := by
  simp only [bread, bind_apply, hg]

theorem binit_queues_spec (bufs : List Buf) : ∀ (m i : Nat), i + m = NQUEUE →
    binit_queues i m
        { lock := none, buf := bufs, hqlock := List.replicate NQUEUE none,
          hqhead := (List.range i).map initHead ++ List.replicate m Buf.zero, disk := [] } =
      .ok ()
        { lock := none, buf := bufs, hqlock := List.replicate NQUEUE none,
          hqhead := (List.range NQUEUE).map initHead, disk := [] }
  | 0, i, h => by
    have : i = NQUEUE := by omega
    subst this
    simp [binit_queues, pure_apply]
  | m + 1, i, h => by
    have hi : i < NQUEUE := by omega
    have hget : ((List.range i).map initHead ++ List.replicate (m + 1) Buf.zero)[i]? = some Buf.zero := by
      rw [List.getElem?_append_right (by simp)]
      simp
    have hset : ((List.range i).map initHead ++ List.replicate (m + 1) Buf.zero).set i (initHead i) =
        (List.range (i + 1)).map initHead ++ List.replicate m Buf.zero := by
      apply List.ext_getElem?
      intro k
      simp only [List.getElem?_set, List.length_append, List.length_map, List.length_range,
        List.length_replicate, List.getElem?_append, List.getElem?_map, List.getElem?_range,
        List.getElem?_replicate]
      by_cases h1 : i = k
      · subst h1; simp
      · by_cases h2 : k < i
        · have : k < i + 1 := by omega
          simp [h1, h2, this]
        · have h3 : ¬ k < i + 1 := by omega
          have h4 : k - i = (k - (i + 1)) + 1 := by omega
          simp only [h1, h2, h3, ite_false, dite_false]
          by_cases h5 : k - i < m + 1
          · have : k - (i + 1) < m := by omega
            simp [h5, this]
          · have : ¬ k - (i + 1) < m := by omega
            simp [h5, this]
    have ih := binit_queues_spec bufs m (i + 1) (by omega)
    simp only [binit_queues, hashqueue_init, bind_apply, headOf, lockOf, wr, getNode, hget, setNode,
      List.getElem?_set, List.length_append, List.length_map, List.length_range,
      List.length_replicate, ite_true, setSpin, List.set_set]
    have hlt : i < i + (m + 1) := by omega
    simp only [hlt, ite_true, list_set_self _ _ _ (replicate_get hi)]
    have hb : ({ Buf.zero with prev := Ptr.head i, next := Ptr.head i } : Buf) = initHead i := rfl
    simp only [Buf.zero] at hb
    simp only [Buf.zero, hb] at hset ⊢
    rw [hset]
    exact ih

theorem binit_bufs_spec (s0 : Bcache) : ∀ (m i : Nat),
    binit_bufs i m { s0 with buf := List.replicate i initBuf ++ List.replicate m Buf.zero } =
      .ok () { s0 with buf := List.replicate (i + m) initBuf }
  | 0, i => by simp [binit_bufs, pure_apply]
  | m + 1, i => by
    have hget : (List.replicate i initBuf ++ List.replicate (m + 1) Buf.zero)[i]? = some Buf.zero := by
      rw [List.getElem?_append_right (by simp)]
      simp
    have hset : (List.replicate i initBuf ++ List.replicate (m + 1) Buf.zero).set i initBuf =
        List.replicate (i + 1) initBuf ++ List.replicate m Buf.zero := by
      apply List.ext_getElem?
      intro k
      simp only [List.getElem?_set, List.length_append, List.length_replicate,
        List.getElem?_append, List.getElem?_replicate]
      by_cases h1 : i = k
      · subst h1; simp
      · by_cases h2 : k < i
        · have : k < i + 1 := by omega
          simp [h1, h2, this]
        · have h3 : ¬ k < i + 1 := by omega
          simp only [h1, h2, h3, ite_false]
          by_cases h5 : k - i < m + 1
          · have : k - (i + 1) < m := by omega
            simp [h5, this]
          · have : ¬ k - (i + 1) < m := by omega
            simp [h5, this]
    have ih := binit_bufs_spec s0 m (i + 1)
    have hlt : i < i + (m + 1) := by omega
    simp only [binit_bufs, remove_from_hashqueue, bind_apply, wr, rd, getNode, hget, setNode,
      List.getElem?_set, List.length_append, List.length_replicate, ite_true, List.set_set, hlt]
    simp only [Buf.zero, ne_eq, not_true_eq_false, and_self, ite_false, bind_apply, wr, getNode,
      List.getElem?_set, List.length_append, List.length_replicate, ite_true, hlt, setNode,
      List.set_set]
    have hb : ({ Buf.zero with blockno := SENTINEL } : Buf) = initBuf := rfl
    simp only [Buf.zero] at hb
    simp only [Buf.zero, hb] at hset ⊢
    rw [hset]
    have e : i + (m + 1) = i + 1 + m := by omega
    rw [e]
    exact ih

/-- Running `binit` on the zero-filled `bcache` returns, leaving `initState`. -/
theorem binit_spec (n : Nat) : binit (zeroBcache n) = .ok () (initState n) := by
  have h1 := binit_queues_spec (List.replicate n Buf.zero) NQUEUE 0 (by simp)
  have h2 := binit_bufs_spec
    { lock := none, buf := [], hqlock := List.replicate NQUEUE none,
      hqhead := (List.range NQUEUE).map initHead, disk := [] } n 0
  simp only [List.range_zero, List.map_nil, List.nil_append, List.replicate_zero, Nat.zero_add]
    at h1 h2
  simp only [binit, bind_apply, zeroBcache, setSpin, h1, List.length_replicate, h2, initState]

theorem quiet_hqlock {s : Bcache} (hQ : Quiet s) {q : Nat} (hq : q < NQUEUE) :
    s.hqlock[q]? = some none := by
  rw [hQ.2]; exact replicate_get hq

theorem data_getElem? {l' : List Buf} {d : List (Bool × Nat × Nat × Option Nat × Nat)}
    (h : l'.map Buf.data = d) (i : Nat) : (l'[i]?).map Buf.data = d[i]? := by
  rw [← h, List.getElem?_map]

theorem acquiresleep_data {c : Ctx} (sf : Bcache) {v : Nat} {x : Bool × Nat × Nat × Nat}
    (lk : Option Nat) {d : List (Bool × Nat × Nat × Option Nat × Nat)} (hv : v < d.length)
    (hd : sf.buf.map Buf.data = d.set v (x.1, x.2.1, x.2.2.1, lk, x.2.2.2)) :
    (lk = none → ∃ s', (acquiresleep c (.buf v) >>= fun _ => pure (Ptr.buf v)) sf =
        .ok (Ptr.buf v) s' ∧
        s'.lock = sf.lock ∧ s'.hqlock = sf.hqlock ∧ s'.disk = sf.disk ∧ s'.hqhead = sf.hqhead ∧
        s'.buf.map Buf.links = sf.buf.map Buf.links ∧
        s'.buf.map Buf.data = d.set v (x.1, x.2.1, x.2.2.1, some c.pid, x.2.2.2)) ∧
    (lk ≠ none →
      (acquiresleep c (.buf v) >>= fun _ => pure (Ptr.buf v)) sf = .fail .sleep sf) := by
  have h1 := data_getElem? hd v
  rw [List.getElem?_set_self hv] at h1
  obtain ⟨nf, hnf, hnfd⟩ := Option.map_eq_some'.mp h1
  simp only [Buf.data, Prod.mk.injEq] at hnfd
  have hacq := acquiresleep_buf (c := c) hnf
  rw [hnfd.2.2.2.1] at hacq
  constructor
  · intro hlk
    subst hlk
    simp only at hacq
    refine ⟨_, bind_ok hacq, rfl, rfl, rfl, rfl, ?_, ?_⟩
    · exact map_links_set _ _ nf _ hnf rfl
    · show (sf.buf.set v _).map Buf.data = _
      rw [map_data_set, hd, List.set_set]
      simp only [Buf.data, hnfd.1, hnfd.2.1, hnfd.2.2.1, hnfd.2.2.2.2]
  · intro hlk
    cases lk with
    | none => exact absurd rfl hlk
    | some p =>
      simp only at hacq
      exact bind_fail hacq

/-- Every outcome of `bget` from a well-formed state with no spinlock held: a hit returns
the first match or sleeps on its sleeplock; a miss panics when no slot has `refcnt == 0`
and otherwise returns the lowest such slot or sleeps on its sleeplock. -/
theorem bget_outcome {c : Ctx} {s : Bcache} {L : Nat → List Nat} (dev blockno : Nat)
    (hL : Linked s L) (hQ : Quiet s) :
    (∃ v s', bget c dev blockno s = .ok (Ptr.buf v) s' ∧
        (HitPost c s L dev blockno v s' ∨ MissPost c s L dev blockno v s')) ∨
    (∃ s', bget c dev blockno s = .fail .sleep s' ∧
      ∃ v n, s.buf[v]? = some n ∧ n.lock ≠ none ∧
        ((L (blockno % NQUEUE)).find? (keyMatch s dev blockno) = some v ∨
         ((L (blockno % NQUEUE)).find? (keyMatch s dev blockno) = none ∧ victim s = some v))) ∨
    (∃ s', bget c dev blockno s = .fail (.panic .bgetNoBuffers) s' ∧
      (L (blockno % NQUEUE)).find? (keyMatch s dev blockno) = none ∧ victim s = none) := by
  have hq := mod_NQUEUE_lt blockno
  cases hfind : (L (blockno % NQUEUE)).find? (keyMatch s dev blockno) with
  | some v =>
    have hmem := List.mem_of_find?_eq_some hfind
    obtain ⟨n, hn⟩ := getNode_buf_some (hL.bound _ hq v hmem)
    have hn' : s.buf[v]? = some n := hn
    have hhit := bget_hit (c := c) hL (quiet_hqlock hQ hq) hfind hn'
    cases hlock : n.lock with
    | none =>
      rw [hlock] at hhit
      exact Or.inl ⟨v, _, hhit, Or.inl ⟨n, hfind, hn', hlock, rfl⟩⟩
    | some p =>
      rw [hlock] at hhit
      exact Or.inr (Or.inl ⟨_, hhit, v, n, hn', by simp [hlock], Or.inl rfl⟩)
  | none =>
    have hmiss := bget_miss_spec (c := c) hL hQ hfind
    cases hvic : victim s with
    | none =>
      rw [hvic] at hmiss
      exact Or.inr (Or.inr ⟨_, hmiss, rfl, rfl⟩)
    | some v =>
      rw [hvic] at hmiss
      obtain ⟨sf, n, hn, hQf, hdisk, hLf, hdata, hhd, hrun⟩ := hmiss
      have hvlt : v < (s.buf.map Buf.data).length := by simpa using buf_lt hn
      have hacq := acquiresleep_data (c := c) sf (v := v) (x := (false, dev, blockno, 1))
        n.lock hvlt hdata
      cases hlock : n.lock with
      | some p =>
        exact Or.inr (Or.inl ⟨sf, by rw [hrun]; exact hacq.2 (by simp [hlock]), v, n, hn,
          by simp [hlock], Or.inr ⟨rfl, rfl⟩⟩)
      | none =>
        obtain ⟨s', hs', h1, h2, h3, h4, h5, h6⟩ := hacq.1 hlock
        refine Or.inl ⟨v, s', by rw [hrun]; exact hs', Or.inr ⟨n, hfind, hvic, hn, hlock,
          ⟨by rw [h1]; exact hQf.1, by rw [h2]; exact hQf.2⟩, by rw [h3]; exact hdisk, ?_, h6, ?_⟩⟩
        · exact hLf.of_links h5 (by rw [h4])
        · rw [h4]; exact hhd

/-- Every outcome of `brelse` on a slot when no queue lock is held. -/
theorem brelse_eq {c : Ctx} {s : Bcache} (i : Nat)
    (hlk : ∀ q, q < NQUEUE → s.hqlock[q]? = some none) :
    brelse c (.buf i) s =
      match s.buf[i]? with
      | none => .fail .fault s
      | some n =>
        if n.lock = some c.pid then
          if n.prev ≠ .null ∨ n.next ≠ .null then
            .ok () { s with buf := s.buf.set i { n with lock := none, refcnt := uintDec n.refcnt } }
          else
            .fail (.panic .brelseMustExist)
              { s with buf := s.buf.set i { n with lock := none },
                       hqlock := s.hqlock.set (n.blockno % NQUEUE) (some c.cpu) }
        else .fail (.panic .brelse) s := by
  cases hn : s.buf[i]? with
  | none => simp [brelse, bind_apply, holdingsleep, getNode, hn]
  | some n =>
    simp only
    by_cases hhold : n.lock = some c.pid
    · by_cases hin : n.prev ≠ .null ∨ n.next ≠ .null
      · rw [brelse_spec hn hhold (hlk _ (mod_NQUEUE_lt _)) hin]
        simp [hhold, hin]
      · have hlt := buf_lt hn
        have h1 := hlk _ (mod_NQUEUE_lt n.blockno)
        simp only [hhold, hin, ite_true, ite_false]
        simp only [brelse, bind_apply, holdingsleep, getNode, hn, hhold, decide_True, Bool.not_true,
          Bool.false_eq_true, ite_false, releasesleep, setNode, rd, List.getElem?_set_self hlt,
          gethashqueue_eq, lockOf, acquire, getSpin, h1, setSpin, isin_hashqueue, pure_apply, hin,
          decide_False, Bool.not_false, ite_true, panic]
    · simp [brelse, bind_apply, holdingsleep, getNode, hn, hhold, panic]

/-- Every outcome of `bpin` on a slot when no queue lock is held. -/
theorem bpin_eq {c : Ctx} {s : Bcache} (i : Nat)
    (hlk : ∀ q, q < NQUEUE → s.hqlock[q]? = some none) :
    bpin c (.buf i) s =
      match s.buf[i]? with
      | none => .fail .fault s
      | some n =>
        if n.prev ≠ .null ∨ n.next ≠ .null then
          .ok () { s with buf := s.buf.set i { n with refcnt := uintInc n.refcnt } }
        else
          .fail (.panic .bpinMustExist)
            { s with hqlock := s.hqlock.set (n.blockno % NQUEUE) (some c.cpu) } := by
  cases hn : s.buf[i]? with
  | none => simp [bpin, bind_apply, rd, getNode, hn]
  | some n =>
    simp only
    by_cases hin : n.prev ≠ .null ∨ n.next ≠ .null
    · rw [bpin_spec hn (hlk _ (mod_NQUEUE_lt _)) hin]
      simp [hin]
    · have h1 := hlk _ (mod_NQUEUE_lt n.blockno)
      simp only [hin, ite_false]
      simp only [bpin, bind_apply, getNode, hn, rd, gethashqueue_eq, lockOf, acquire, getSpin, h1,
        setSpin, isin_hashqueue, pure_apply, hin, decide_False, Bool.not_false, ite_true, panic]

/-- Every outcome of `bunpin` on a slot when no queue lock is held. -/
theorem bunpin_eq {c : Ctx} {s : Bcache} (i : Nat)
    (hlk : ∀ q, q < NQUEUE → s.hqlock[q]? = some none) :
    bunpin c (.buf i) s =
      match s.buf[i]? with
      | none => .fail .fault s
      | some n =>
        if n.prev ≠ .null ∨ n.next ≠ .null then
          .ok () { s with buf := s.buf.set i { n with refcnt := uintDec n.refcnt } }
        else
          .fail (.panic .bunpinMustExist)
            { s with hqlock := s.hqlock.set (n.blockno % NQUEUE) (some c.cpu) } := by
  cases hn : s.buf[i]? with
  | none => simp [bunpin, bind_apply, rd, getNode, hn]
  | some n =>
    simp only
    by_cases hin : n.prev ≠ .null ∨ n.next ≠ .null
    · rw [bunpin_spec hn (hlk _ (mod_NQUEUE_lt _)) hin]
      simp [hin]
    · have h1 := hlk _ (mod_NQUEUE_lt n.blockno)
      simp only [hin, ite_false]
      simp only [bunpin, bind_apply, getNode, hn, rd, gethashqueue_eq, lockOf, acquire, getSpin, h1,
        setSpin, isin_hashqueue, pure_apply, hin, decide_False, Bool.not_false, ite_true, panic]

/-- Every outcome of `bwrite` on a slot. -/
theorem bwrite_eq {c : Ctx} {s : Bcache} (i : Nat) :
    bwrite c (.buf i) s =
      match s.buf[i]? with
      | none => .fail .fault s
      | some n =>
        if n.lock = some c.pid then
          .ok () { s with disk := (Ptr.buf i, n.dev, n.blockno, 1) :: s.disk }
        else .fail (.panic .bwrite) s := by
  cases hn : s.buf[i]? with
  | none => simp [bwrite, bind_apply, holdingsleep, getNode, hn]
  | some n =>
    by_cases hhold : n.lock = some c.pid
    · simp [bwrite, bind_apply, holdingsleep, getNode, hn, hhold, virtio_disk_rw]
    · simp [bwrite, bind_apply, holdingsleep, getNode, hn, hhold, panic]

theorem uintInc_lt (x : Nat) : uintInc x < UINT_MOD := Nat.mod_lt _ (by decide)

theorem uintDec_lt (x : Nat) : uintDec x < UINT_MOD := Nat.mod_lt _ (by decide)

theorem uintInc_uintDec {x : Nat} (h : x < UINT_MOD) : uintInc (uintDec x) = x := by
  unfold uintInc uintDec UINT_MOD at *
  omega

theorem uintDec_uintInc {x : Nat} (h : x < UINT_MOD) : uintDec (uintInc x) = x := by
  unfold uintInc uintDec UINT_MOD at *
  omega

theorem data_at {s s' : Bcache} {v : Nat} {d : Bool × Nat × Nat × Option Nat × Nat}
    (h : s'.buf.map Buf.data = (s.buf.map Buf.data).set v d) {i : Nat} {n' : Buf}
    (hn : s'.buf[i]? = some n') :
    (i = v → n'.data = d) ∧ (i ≠ v → ∃ n, s.buf[i]? = some n ∧ n.data = n'.data) := by
  have h1 := data_getElem? h i
  rw [hn] at h1
  simp only [Option.map_some'] at h1
  constructor
  · intro e
    subst e
    rw [List.getElem?_set] at h1
    simp only [ite_true] at h1
    split at h1
    · exact Option.some.inj h1
    · cases h1
  · intro e
    rw [List.getElem?_set_ne (Ne.symm e), List.getElem?_map] at h1
    obtain ⟨n, h2, h3⟩ := Option.map_eq_some'.mp h1.symm
    exact ⟨n, h2, h3⟩

theorem data_length {s s' : Bcache} {v : Nat} {d : Bool × Nat × Nat × Option Nat × Nat}
    (h : s'.buf.map Buf.data = (s.buf.map Buf.data).set v d) : s'.buf.length = s.buf.length := by
  simpa using congrArg List.length h

theorem keyMatch_iff {s : Bcache} {dev blockno i : Nat} :
    keyMatch s dev blockno i = true ↔ ∃ n, s.buf[i]? = some n ∧ n.dev = dev ∧ n.blockno = blockno := by
  unfold keyMatch
  cases h : s.buf[i]? with
  | none => simp
  | some n => simp

theorem keyMatch_of_data {s s' : Bcache} {v : Nat} {d : Bool × Nat × Nat × Option Nat × Nat}
    (h : s'.buf.map Buf.data = (s.buf.map Buf.data).set v d) (dev blockno : Nat) {i : Nat}
    (hi : i ≠ v) : keyMatch s' dev blockno i = keyMatch s dev blockno i := by
  unfold keyMatch
  cases hn' : s'.buf[i]? with
  | none =>
    have : i ≥ s'.buf.length := by
      by_contra hc
      rw [List.getElem?_eq_getElem (Nat.lt_of_not_le hc)] at hn'
      cases hn'
    rw [data_length h] at this
    rw [List.getElem?_eq_none this]
  | some n' =>
    obtain ⟨n, hn, hd⟩ := (data_at h hn').2 hi
    simp only [hn]
    simp only [Buf.data, Prod.mk.injEq] at hd
    rw [hd.2.1, hd.2.2.1]

theorem bget_post {c : Ctx} {s s' : Bcache} {L : Nat → List Nat} {dev blockno : Nat} {b : Ptr}
    (hL : Linked s L) (hQ : Quiet s) (hg : bget c dev blockno s = .ok b s') :
    ∃ v L' n hit, b = .buf v ∧ BgetPost c s L dev blockno v s' L' n hit := by
  rcases bget_outcome (c := c) dev blockno hL hQ with ⟨v, s1, h1, hp⟩ | ⟨s1, h1, _⟩ | ⟨s1, h1, _⟩
  · rw [hg] at h1
    simp only [Res.ok.injEq] at h1
    obtain ⟨hb, hs⟩ := h1
    subst hs
    have hq := mod_NQUEUE_lt blockno
    rcases hp with ⟨n, hfind, hn, hlock, hs'⟩ | ⟨n, hfind, hvic, hn, hlock, hQ', hdisk, hL', hdata, hhd⟩
    · have hkm := List.find?_some hfind
      obtain ⟨n0, hn0, hdev, hblk⟩ := keyMatch_iff.mp hkm
      rw [hn] at hn0
      have := Option.some.inj hn0
      subst this
      have hdata : s'.buf.map Buf.data = (s.buf.map Buf.data).set v
          (n.valid, dev, blockno, some c.pid, uintInc n.refcnt) := by
        rw [hs']
        simp only [map_data_set, Buf.data, hdev, hblk]
      refine ⟨v, L, n, true, hb, ⟨hn, hlock, ?_, ?_, ?_, ?_, ?_, ?_, rfl, hfind, ?_⟩⟩
      · rw [hs']; exact hQ
      · rw [hs']
      · refine hL.of_links ?_ (by rw [hs'])
        rw [hs']; exact map_links_set _ _ n _ hn rfl
      · rw [hs']
      · simpa using hdata
      · obtain ⟨as, bs, hl, has⟩ := (List.find?_eq_some.mp hfind).2
        rw [List.find?_eq_some]
        refine ⟨?_, as, bs, hl, ?_⟩
        · rw [keyMatch_iff]
          have := data_getElem? hdata v
          rw [List.getElem?_set_self (by simpa using buf_lt hn)] at this
          obtain ⟨n', hn', hd'⟩ := Option.map_eq_some'.mp this
          simp only [Buf.data, Prod.mk.injEq] at hd'
          exact ⟨n', hn', hd'.2.1, hd'.2.2.1⟩
        · intro a ha
          have hnd := hL.nodup _ hq
          rw [hl] at hnd
          have hav : a ≠ v := by
            intro e
            subst e
            have := (List.nodup_append.mp hnd).2.2 ha
            exact this (by simp)
          rw [keyMatch_of_data hdata dev blockno hav]
          exact has a ha
      · intro h; cases h
    · obtain ⟨n0, hn0, hrc, _⟩ := victim_some hvic
      rw [hn] at hn0
      have := Option.some.inj hn0
      subst this
      refine ⟨v, moveFront L (blockno % NQUEUE) v, n, false, hb,
        ⟨hn, hlock, hQ', hdisk, hL', hhd, ?_, ?_, rfl, hfind, fun _ => ⟨hvic, hrc⟩⟩⟩
      · simpa [hrc, uintInc, UINT_MOD] using hdata
      · simp only [moveFront, ite_true, List.find?_cons]
        have : keyMatch s' dev blockno v = true := by
          rw [keyMatch_iff]
          have := data_getElem? hdata v
          rw [List.getElem?_set_self (by simpa using buf_lt hn)] at this
          obtain ⟨n', hn', hd'⟩ := Option.map_eq_some'.mp this
          simp only [Buf.data, Prod.mk.injEq] at hd'
          exact ⟨n', hn', hd'.2.1, hd'.2.2.1⟩
        simp [this]
  · rw [hg] at h1; cases h1
  · rw [hg] at h1; cases h1

theorem inv_set {s : Bcache} {L : Nat → List Nat} (h : Inv s L) {i : Nat} {n m : Buf}
    (hn : s.buf[i]? = some n) (hl : m.links = n.links) (hb : m.blockno = n.blockno)
    (hr : m.refcnt < UINT_MOD) (d : List (Ptr × Nat × Nat × Nat)) :
    Inv { s with buf := s.buf.set i m, disk := d } L := by
  refine ⟨h.linked.of_links (map_links_set _ _ n _ hn hl) rfl, ?_, h.quiet, ?_⟩
  · intro q hq j hj x hx
    simp only [List.getElem?_set] at hx
    split at hx
    · next e =>
      subst e
      split at hx
      · have := Option.some.inj hx
        subst this
        rw [hb]; exact h.keyed q hq i hj n hn
      · cases hx
    · exact h.keyed q hq j hj x hx
  · intro b hb'
    rcases List.mem_or_eq_of_mem_set hb' with e | e
    · exact h.typed b e
    · rw [e]; exact hr

theorem initState_linked (n : Nat) : Linked (initState n) (fun _ => []) := by
  have hh : ∀ q, q < NQUEUE → getNode (initState n) (.head q) = some (initHead q) := by
    intro q hq
    simp [getNode, initState, List.getElem?_map, List.getElem?_range, hq]
  constructor
  · simp [initState]
  · intro q hq
    simp only [Path, nxt, prv, hh q hq, Option.map_some', initHead, and_self]
  · intro q _; exact List.nodup_nil
  · intro q _ q' _ _ i hi; cases hi
  · intro q _ i hi; cases hi
  · intro i hi _
    have hi' : i < n := by simpa [initState] using hi
    simp [nxt, prv, getNode, initState, List.getElem?_replicate, hi', initBuf, Buf.zero]

theorem initState_inv (n : Nat) : Inv (initState n) (fun _ => []) := by
  refine ⟨initState_linked n, ?_, ⟨rfl, rfl⟩, ?_⟩
  · intro q _ i hi; cases hi
  · intro b hb
    have : b = initBuf := List.eq_of_mem_replicate hb
    rw [this]; decide

theorem bgetPost_inv {c : Ctx} {s s' : Bcache} {L L' : Nat → List Nat} {dev blockno v : Nat}
    {n : Buf} {hit : Bool} (hp : BgetPost c s L dev blockno v s' L' n hit) (h : Inv s L) :
    Inv s' L' := by
  have hq := mod_NQUEUE_lt blockno
  refine ⟨hp.linked, ?_, hp.quiet, ?_⟩
  · intro q' hq' i hi x hx
    have hda := data_at hp.data hx
    by_cases e : i = v
    · subst e
      have := hda.1 rfl
      simp only [Buf.data, Prod.mk.injEq] at this
      rw [this.2.2.1]
      have hmem : i ∈ L' (blockno % NQUEUE) := List.mem_of_find?_eq_some hp.first
      by_contra hne
      exact hp.linked.disj q' hq' _ hq (fun e => hne e.symm) i hi hmem
    · obtain ⟨y, hy, hyd⟩ := hda.2 e
      simp only [Buf.data, Prod.mk.injEq] at hyd
      rw [← hyd.2.2.1]
      have hiL : i ∈ L q' := by
        rw [hp.lists] at hi
        cases hit with
        | true => simpa using hi
        | false =>
          simp only [Bool.false_eq_true, ite_false, moveFront] at hi
          split at hi
          · rcases List.mem_cons.mp hi with e2 | e2
            · exact absurd e2 e
            · exact List.mem_of_mem_erase e2
          · exact List.mem_of_mem_erase hi
      exact h.keyed q' hq' i hiL y hy
  · intro b hb
    obtain ⟨i, hi, hbi⟩ := List.getElem_of_mem hb
    have hx : s'.buf[i]? = some b := by rw [List.getElem?_eq_getElem hi, hbi]
    have hda := data_at hp.data hx
    by_cases e : i = v
    · have := hda.1 e
      simp only [Buf.data, Prod.mk.injEq] at this
      rw [this.2.2.2.2]; exact uintInc_lt _
    · obtain ⟨y, hy, hyd⟩ := hda.2 e
      simp only [Buf.data, Prod.mk.injEq] at hyd
      rw [← hyd.2.2.2.2]
      exact h.typed y (List.mem_iff_getElem?.mpr ⟨i, hy⟩)

theorem bind_pure_ok {α β : Type} {x : M α} {f : α → β} {s s' : Bcache} {r : β}
    (h : (x >>= fun a => pure (f a)) s = .ok r s') : ∃ a, x s = .ok a s' ∧ r = f a := by
  rw [bind_apply] at h
  cases hx : x s with
  | ok a s1 =>
    rw [hx] at h
    simp only [pure_apply, Res.ok.injEq] at h
    exact ⟨a, by rw [h.2], h.1.symm⟩
  | fail e s1 =>
    rw [hx] at h
    cases h

theorem bget_post_node {c : Ctx} {s s' : Bcache} {L L' : Nat → List Nat} {dev blockno v : Nat}
    {n : Buf} {hit : Bool} (hp : BgetPost c s L dev blockno v s' L' n hit) :
    ∃ n1, s'.buf[v]? = some n1 ∧
      n1.data = (if hit then n.valid else false, dev, blockno, some c.pid, uintInc n.refcnt) := by
  have := data_getElem? hp.data v
  rw [List.getElem?_set_self (by simpa using buf_lt hp.node)] at this
  obtain ⟨n', hn', hd'⟩ := Option.map_eq_some'.mp this
  exact ⟨n', hn', hd'⟩

theorem bread_post {c : Ctx} {s s' : Bcache} {L : Nat → List Nat} {dev blockno : Nat} {b : Ptr}
    (hL : Linked s L) (hQ : Quiet s) (hg : bread c dev blockno s = .ok b s') :
    ∃ v L' n hit s1 n1, b = .buf v ∧ bget c dev blockno s = .ok (.buf v) s1 ∧
      BgetPost c s L dev blockno v s1 L' n hit ∧ s1.buf[v]? = some n1 ∧
      s' = (if n1.valid then s1 else
        { s1 with disk := (Ptr.buf v, n1.dev, n1.blockno, 0) :: s1.disk,
                  buf := s1.buf.set v { n1 with valid := true } }) := by
  cases hbg : bget c dev blockno s with
  | fail e s1 =>
    rw [bread_of_bget_fail hbg] at hg
    cases hg
  | ok b1 s1 =>
    obtain ⟨v, L', n, hit, hb1, hp⟩ := bget_post hL hQ hbg
    subst hb1
    obtain ⟨n1, hn1, _⟩ := bget_post_node hp
    rw [bread_of_bget hbg hn1] at hg
    refine ⟨v, L', n, hit, s1, n1, ?_, rfl, hp, hn1, ?_⟩
    · split at hg
      · simp only [Res.ok.injEq] at hg; exact hg.1.symm
      · simp only [Res.ok.injEq] at hg; exact hg.1.symm
    · split at hg
      · next hv => simp only [Res.ok.injEq] at hg; rw [if_pos hv]; exact hg.2.symm
      · next hv => simp only [Res.ok.injEq] at hg; rw [if_neg hv]; exact hg.2.symm

theorem quiet_all {s : Bcache} (hQ : Quiet s) : ∀ q, q < NQUEUE → s.hqlock[q]? = some none :=
  fun _ hq => quiet_hqlock hQ hq

theorem brelse_post {c : Ctx} {s s' : Bcache} {i : Nat} (hQ : Quiet s)
    (h : brelse c (.buf i) s = .ok () s') :
    ∃ n, s.buf[i]? = some n ∧ n.lock = some c.pid ∧ (n.prev ≠ .null ∨ n.next ≠ .null) ∧
      s' = { s with buf := s.buf.set i { n with lock := none, refcnt := uintDec n.refcnt } } := by
  rw [brelse_eq i (quiet_all hQ)] at h
  cases hn : s.buf[i]? with
  | none => rw [hn] at h; cases h
  | some n =>
    rw [hn] at h
    simp only at h
    split at h
    · next h1 =>
      split at h
      · next h2 =>
        simp only [Res.ok.injEq, true_and] at h
        exact ⟨n, rfl, h1, h2, h.symm⟩
      · cases h
    · cases h

theorem bpin_post {c : Ctx} {s s' : Bcache} {i : Nat} (hQ : Quiet s)
    (h : bpin c (.buf i) s = .ok () s') :
    ∃ n, s.buf[i]? = some n ∧ (n.prev ≠ .null ∨ n.next ≠ .null) ∧
      s' = { s with buf := s.buf.set i { n with refcnt := uintInc n.refcnt } } := by
  rw [bpin_eq i (quiet_all hQ)] at h
  cases hn : s.buf[i]? with
  | none => rw [hn] at h; cases h
  | some n =>
    rw [hn] at h
    simp only at h
    split at h
    · next h2 =>
      simp only [Res.ok.injEq, true_and] at h
      exact ⟨n, rfl, h2, h.symm⟩
    · cases h

theorem bunpin_post {c : Ctx} {s s' : Bcache} {i : Nat} (hQ : Quiet s)
    (h : bunpin c (.buf i) s = .ok () s') :
    ∃ n, s.buf[i]? = some n ∧ (n.prev ≠ .null ∨ n.next ≠ .null) ∧
      s' = { s with buf := s.buf.set i { n with refcnt := uintDec n.refcnt } } := by
  rw [bunpin_eq i (quiet_all hQ)] at h
  cases hn : s.buf[i]? with
  | none => rw [hn] at h; cases h
  | some n =>
    rw [hn] at h
    simp only at h
    split at h
    · next h2 =>
      simp only [Res.ok.injEq, true_and] at h
      exact ⟨n, rfl, h2, h.symm⟩
    · cases h

theorem bwrite_post {c : Ctx} {s s' : Bcache} {i : Nat}
    (h : bwrite c (.buf i) s = .ok () s') :
    ∃ n, s.buf[i]? = some n ∧ n.lock = some c.pid ∧
      s' = { s with disk := (Ptr.buf i, n.dev, n.blockno, 1) :: s.disk } := by
  rw [bwrite_eq i] at h
  cases hn : s.buf[i]? with
  | none => rw [hn] at h; cases h
  | some n =>
    rw [hn] at h
    simp only at h
    split at h
    · next h1 =>
      simp only [Res.ok.injEq, true_and] at h
      exact ⟨n, rfl, h1, h.symm⟩
    · cases h

theorem binit_init {n : Nat} {s : Bcache} (h : binit (zeroBcache n) = .ok () s) :
    s = initState n := by
  rw [binit_spec] at h
  simp only [Res.ok.injEq, true_and] at h
  exact h.symm

theorem Inv.bread_tail {s1 : Bcache} {L : Nat → List Nat} (h : Inv s1 L) {v : Nat} {n1 : Buf}
    (hn : s1.buf[v]? = some n1) :
    Inv (if n1.valid then s1 else
        { s1 with disk := (Ptr.buf v, n1.dev, n1.blockno, 0) :: s1.disk,
                  buf := s1.buf.set v { n1 with valid := true } }) L := by
  split
  · exact h
  · exact inv_set h (m := { n1 with valid := true }) hn rfl rfl
      (h.typed n1 (List.mem_iff_getElem?.mpr ⟨v, hn⟩)) _

theorem Inv.setRefcnt {s : Bcache} {L : Nat → List Nat} (h : Inv s L) {i : Nat} {n : Buf}
    (hn : s.buf[i]? = some n) {k : Nat} (hk : k < UINT_MOD) :
    Inv { s with buf := s.buf.set i { n with refcnt := k } } L :=
  inv_set h (m := { n with refcnt := k }) hn rfl rfl hk _

/-- One returning call keeps the invariant. -/
theorem Inv.step {s s' : Bcache} {L : Nat → List Nat} (h : Inv s L) {call : Call}
    {r : Option Ptr} (hr : call.run s = .ok r s') : ∃ L', Inv s' L' := by
  cases call with
  | bget c dev blockno =>
    obtain ⟨b, hb, _⟩ := bind_pure_ok (f := some) hr
    obtain ⟨v, L', n, hit, _, hp⟩ := bget_post h.linked h.quiet hb
    exact ⟨L', bgetPost_inv hp h⟩
  | bread c dev blockno =>
    obtain ⟨b, hb, _⟩ := bind_pure_ok (f := some) hr
    obtain ⟨v, L', n, hit, s1, n1, _, _, hp, hn1, hs'⟩ := bread_post h.linked h.quiet hb
    rw [hs']
    exact ⟨L', (bgetPost_inv hp h).bread_tail hn1⟩
  | bwrite c i =>
    obtain ⟨_, hb, _⟩ := bind_pure_ok (f := fun _ => (none : Option Ptr)) hr
    obtain ⟨n, hn, _, hs'⟩ := bwrite_post hb
    rw [hs']
    exact ⟨L, ⟨h.linked.of_nodes rfl rfl, h.keyed, h.quiet, h.typed⟩⟩
  | brelse c i =>
    obtain ⟨_, hb, _⟩ := bind_pure_ok (f := fun _ => (none : Option Ptr)) hr
    obtain ⟨n, hn, _, _, hs'⟩ := brelse_post h.quiet hb
    rw [hs']
    exact ⟨L, inv_set h (m := { n with lock := none, refcnt := uintDec n.refcnt }) hn rfl rfl
      (uintDec_lt n.refcnt) _⟩
  | bpin c i =>
    obtain ⟨_, hb, _⟩ := bind_pure_ok (f := fun _ => (none : Option Ptr)) hr
    obtain ⟨n, hn, _, hs'⟩ := bpin_post h.quiet hb
    rw [hs']
    exact ⟨L, h.setRefcnt hn (uintInc_lt n.refcnt)⟩
  | bunpin c i =>
    obtain ⟨_, hb, _⟩ := bind_pure_ok (f := fun _ => (none : Option Ptr)) hr
    obtain ⟨n, hn, _, hs'⟩ := bunpin_post h.quiet hb
    rw [hs']
    exact ⟨L, h.setRefcnt hn (uintDec_lt n.refcnt)⟩

theorem run_inv {P : (Nat → Nat) → Call → Prop} {n : Nat} {s : Bcache} {out : Nat → Nat}
    (h : Run P n s out) : ∃ L, Inv s L := by
  induction h with
  | init h0 => rw [binit_init h0]; exact ⟨_, initState_inv n⟩
  | step _ _ hr ih =>
    obtain ⟨L, hL⟩ := ih
    exact hL.step hr

theorem reachable_inv {n : Nat} {s : Bcache} (h : Reachable n s) : ∃ L, Inv s L := by
  obtain ⟨out, hrun⟩ := h
  exact run_inv hrun

theorem accounted_set {s : Bcache} {out : Nat → Nat} (h : Accounted s out) {i : Nat} {m : Buf}
    {k : Nat} (hm : m.refcnt = k % UINT_MOD) (d : List (Ptr × Nat × Nat × Nat)) :
    Accounted { s with buf := s.buf.set i m, disk := d } (Function.update out i k) := by
  intro j x hx
  simp only [List.getElem?_set] at hx
  by_cases e : i = j
  · subst e
    simp only [ite_true] at hx
    split at hx
    · have := Option.some.inj hx
      subst this
      simp [hm]
    · cases hx
  · simp only [e, ite_false] at hx
    rw [Function.update_noteq (Ne.symm e)]
    exact h j x hx

theorem Accounted.same {s s' : Bcache} {out : Nat → Nat} (h : Accounted s out)
    (hb : ∀ (i : Nat) (x : Buf), s'.buf[i]? = some x →
      ∃ y : Buf, s.buf[i]? = some y ∧ y.refcnt = x.refcnt) :
    Accounted s' out := by
  intro i x hx
  obtain ⟨y, hy, e⟩ := hb i x hx
  rw [← e]; exact h i y hy

theorem uintInc_mod (k : Nat) : uintInc (k % UINT_MOD) = (k + 1) % UINT_MOD := by
  unfold uintInc UINT_MOD
  omega

theorem uintDec_mod {k : Nat} (h : 0 < k) : uintDec (k % UINT_MOD) = (k - 1) % UINT_MOD := by
  unfold uintDec UINT_MOD
  omega

theorem bgetPost_accounted {c : Ctx} {s s' : Bcache} {L L' : Nat → List Nat}
    {dev blockno v : Nat} {n : Buf} {hit : Bool} (hp : BgetPost c s L dev blockno v s' L' n hit)
    {out : Nat → Nat} (h : Accounted s out) :
    Accounted s' (Function.update out v (out v + 1)) := by
  intro i x hx
  have hda := data_at hp.data hx
  by_cases e : i = v
  · subst e
    have := hda.1 rfl
    simp only [Buf.data, Prod.mk.injEq] at this
    rw [this.2.2.2.2, h i n hp.node, uintInc_mod]
    simp
  · obtain ⟨y, hy, hyd⟩ := hda.2 e
    simp only [Buf.data, Prod.mk.injEq] at hyd
    rw [Function.update_noteq e, ← hyd.2.2.2.2]
    exact h i y hy

theorem victim_of_lowest {s : Bcache} {v : Nat} {n : Buf} (hv : s.buf[v]? = some n)
    (hz : n.refcnt = 0) (hlow : ∀ j, j < v → ∀ x, s.buf[j]? = some x → x.refcnt ≠ 0) :
    victim s = some v := by
  cases hvic : victim s with
  | none =>
    exact absurd hz (victim_none hvic n (List.mem_iff_getElem?.mpr ⟨v, hv⟩))
  | some w =>
    obtain ⟨m, hm, hmz, hml⟩ := victim_some hvic
    rcases Nat.lt_trichotomy w v with h | h | h
    · exact absurd hmz (hlow w h m hm)
    · rw [h]
    · exact absurd hz (hml v h n hv)

theorem find_none_of_forall {s : Bcache} {dev blockno : Nat} {l : List Nat}
    (h : ∀ j ∈ l, keyMatch s dev blockno j = false) : l.find? (keyMatch s dev blockno) = none := by
  rw [List.find?_eq_none]
  intro x hx
  simp [h x hx]

theorem find_some_of_split {s : Bcache} {dev blockno i : Nat} {l front back : List Nat}
    (hsplit : l = front ++ i :: back) (hkey : keyMatch s dev blockno i = true)
    (hfirst : ∀ a ∈ front, keyMatch s dev blockno a = false) :
    l.find? (keyMatch s dev blockno) = some i := by
  rw [List.find?_eq_some]
  exact ⟨hkey, front, back, hsplit, fun a ha => by simp [hfirst a ha]⟩

theorem keyMatch_set {s : Bcache} {v : Nat} {x m : Buf} (hx : s.buf[v]? = some x)
    (hd : m.dev = x.dev) (hb : m.blockno = x.blockno) (d : List (Ptr × Nat × Nat × Nat))
    (dev blockno : Nat) :
    keyMatch { s with buf := s.buf.set v m, disk := d } dev blockno = keyMatch s dev blockno := by
  funext i
  simp only [keyMatch, List.getElem?_set]
  by_cases e : v = i
  · subst e
    simp [buf_lt hx, hx, hd, hb]
  · simp [e]

theorem moveFront_filter {L : Nat → List Nat} {q v : Nat} (q' : Nat) (hnd : (L q').Nodup) :
    (moveFront L q v q').filter (fun j => decide (j ≠ v)) =
      (L q').filter (fun j => decide (j ≠ v)) := by
  have h1 : ((L q').erase v).filter (fun j => decide (j ≠ v)) =
      (L q').filter (fun j => decide (j ≠ v)) := by
    rw [hnd.erase_eq_filter, List.filter_filter]
    congr 1
    funext j
    by_cases e : j = v <;> simp [e]
  simp only [moveFront]
  split
  · rw [List.filter_cons]
    simp only [ne_eq, not_true_eq_false, decide_False, Bool.false_eq_true, ite_false]
    exact h1
  · exact h1

theorem walk_path {s : Bcache} {q : Nat} : ∀ (l : List Nat) (p : Ptr) (fuel : Nat),
    Path (nxt s) (prv s) p l (.head q) → l.length < fuel →
    walk s (.head q) fuel (firstPtr l (.head q)) = some l
  | [], _, fuel, _, hf => by
    obtain ⟨f, rfl⟩ : ∃ f, fuel = f + 1 := ⟨fuel - 1, by simp at hf; omega⟩
    simp [walk, firstPtr]
  | i :: l, _, fuel, hp, hf => by
    obtain ⟨f, rfl⟩ : ∃ f, fuel = f + 1 := ⟨fuel - 1, by simp at hf; omega⟩
    obtain ⟨n, hn, hnn⟩ := nxt_eq_some (path_first hp.2.2)
    have ih := walk_path l (.buf i) f hp.2.2 (by simp at hf; omega)
    simp only [walk, reduceCtorEq, ite_false, hn, hnn]
    rw [show firstPtr (i :: l) (Ptr.head q) = Ptr.buf i from rfl]
    simp only [reduceCtorEq, ite_false, hn, hnn, ih, Option.map_some']

/-- The lists of a well-formed state are the ones its pointers spell out. -/
theorem bucket_of_linked {s : Bcache} {L : Nat → List Nat} (h : Linked s L) {q : Nat}
    (hq : q < NQUEUE) : bucket s q = some (L q) := by
  obtain ⟨hd, hhd⟩ := getNode_head_some (s := s) (q := q) (by rw [h.heads]; exact hq)
  have hp := h.path q hq
  obtain ⟨hd', hhd', hnext⟩ := nxt_eq_some (path_first hp)
  rw [hhd] at hhd'
  have hnext' : hd.next = firstPtr (L q) (.head q) := by
    rw [Option.some.inj hhd']; exact hnext
  simp only [bucket, hhd, hnext']
  exact walk_path _ _ _ hp (by have := h.length_le hq; omega)

/-- A state has at most one family of bucket lists. -/
theorem linked_lists_unique {s : Bcache} {L L' : Nat → List Nat} (h : Linked s L)
    (h' : Linked s L') {q : Nat} (hq : q < NQUEUE) : L q = L' q := by
  have h1 := bucket_of_linked h hq
  rw [bucket_of_linked h' hq] at h1
  exact (Option.some.inj h1).symm

/-! ## Properties of the specification -/

/-- C1 (hit path): in a well-formed state where the target bucket's lock is free, the
list of bucket `blockno % NQUEUE` is `front ++ i :: back`, slot `i` has the key
`(dev, blockno)` and no slot of `front` has it (so `i` is the first match in list order),
and the sleeplock of `i` is free, `bget(dev, blockno)` returns slot `i` with its `refcnt`
increased by one (the `++` of a `uint`: exactly `refcnt + 1` unless the counter is at its
maximum) and its sleeplock held by the caller; the other fields of `i`, every other
slot, every bucket list, the list heads, the spinlocks and the disk log are unchanged. -/
theorem bget_hit_first_match (c : Ctx) (s : Bcache) (L : Nat → List Nat) (dev blockno i : Nat)
    (n : Buf) (front back : List Nat) (hL : Linked s L)
    (hlk : s.hqlock[blockno % NQUEUE]? = some none)
    (hsplit : L (blockno % NQUEUE) = front ++ i :: back)
    (hkey : keyMatch s dev blockno i = true)
    (hfirst : ∀ a ∈ front, keyMatch s dev blockno a = false)
    (hn : s.buf[i]? = some n) (hfree : n.lock = none) :
    ∃ s', bget c dev blockno s = .ok (.buf i) s' ∧
      s'.buf[i]? = some { n with refcnt := uintInc n.refcnt, lock := some c.pid } ∧
      (n.refcnt + 1 < UINT_MOD → uintInc n.refcnt = n.refcnt + 1) ∧
      (∀ j, j ≠ i → s'.buf[j]? = s.buf[j]?) ∧
      Linked s' L ∧ s'.hqhead = s.hqhead ∧ s'.lock = s.lock ∧ s'.hqlock = s.hqlock ∧
      s'.disk = s.disk := by
  have hfind := find_some_of_split hsplit hkey hfirst
  have hhit := bget_hit (c := c) hL hlk hfind hn
  rw [hfree] at hhit
  refine ⟨_, hhit, ?_, ?_, ?_, ?_, rfl, rfl, rfl, rfl⟩
  · simp [List.getElem?_set, buf_lt hn]
  · intro h
    unfold uintInc
    exact Nat.mod_eq_of_lt h
  · intro j hj
    simp [List.getElem?_set, Ne.symm hj]
  · exact hL.of_links (map_links_set _ _ n _ hn rfl) rfl

set_option maxRecDepth 100000 in
/-- Witness for C1: `bget(1, 10)` on the pool where slot 0 caches block 10. -/
theorem bget_hit_first_match_witness :
    ∃ s', bget exCtx 1 10 exIdle = .ok (.buf 0) s' ∧
      s'.buf[0]? = some { valid := true, dev := 1, blockno := 10, lock := some 1, refcnt := uintInc 0,
                          prev := .head 10, next := .head 10 } ∧
      (0 + 1 < UINT_MOD → uintInc 0 = 0 + 1) ∧
      (∀ j, j ≠ 0 → s'.buf[j]? = exIdle.buf[j]?) ∧
      Linked s' exLists ∧ s'.hqhead = exIdle.hqhead ∧ s'.lock = exIdle.lock ∧
      s'.hqlock = exIdle.hqlock ∧ s'.disk = exIdle.disk :=
  bget_hit_first_match exCtx exIdle exLists 1 10 0
    { valid := true, dev := 1, blockno := 10, lock := none, refcnt := 0,
      prev := .head 10, next := .head 10 } [] []
    (by decide) (by decide) (by decide) (by decide) (by decide) (by decide) (by decide)

/-- C2 (allocation postcondition): in a well-formed state with no spinlock held, where no
member of the target bucket has the key `(dev, blockno)`, at least one slot has
`refcnt == 0` and no slot with `refcnt == 0` has its sleeplock held, `bget(dev, blockno)`
returns a slot `v` with `refcnt == 1`, `valid == 0`, `dev` and `blockno` as requested; in
the resulting lists `v` is the first element of bucket `blockno % NQUEUE` and occurs in
no other bucket. -/
theorem bget_allocation_postcondition (c : Ctx) (s : Bcache) (L : Nat → List Nat)
    (dev blockno : Nat) (hL : Linked s L) (hQ : Quiet s)
    (hnone : ∀ j ∈ L (blockno % NQUEUE), keyMatch s dev blockno j = false)
    (hzero : ∃ (j : Nat) (x : Buf), s.buf[j]? = some x ∧ x.refcnt = 0)
    (hsleep : ∀ (j : Nat) (x : Buf), s.buf[j]? = some x → x.refcnt = 0 → x.lock = none) :
    ∃ v s' L' x, bget c dev blockno s = .ok (.buf v) s' ∧ s'.buf[v]? = some x ∧
      x.refcnt = 1 ∧ x.valid = false ∧ x.dev = dev ∧ x.blockno = blockno ∧
      Linked s' L' ∧ (L' (blockno % NQUEUE)).head? = some v ∧
      ∀ q', q' < NQUEUE → q' ≠ blockno % NQUEUE → v ∉ L' q' := by
  have hq := mod_NQUEUE_lt blockno
  have hfind := find_none_of_forall hnone
  rcases bget_outcome (c := c) dev blockno hL hQ with ⟨v, s', hg, _⟩ | ⟨s', _, v, n, hn, hlock, hc⟩ |
      ⟨s', _, _, hvic⟩
  · obtain ⟨v', L', n, hit, hb, hp⟩ := bget_post hL hQ hg
    have hv : v' = v := by
      have := hb
      simp only [Ptr.buf.injEq] at this
      exact this.symm
    subst hv
    have hhit : hit = false := by
      cases hit with
      | false => rfl
      | true =>
        have := hp.found
        rw [hfind] at this
        simp at this
    subst hhit
    obtain ⟨x, hx, hxd⟩ := bget_post_node hp
    simp only [Buf.data, Prod.mk.injEq, Bool.false_eq_true, ite_false] at hxd
    have hLq : L' (blockno % NQUEUE) = v' :: (L (blockno % NQUEUE)).erase v' := by
      rw [hp.lists]; simp [moveFront]
    refine ⟨v', s', L', x, hg, hx, ?_, hxd.1, hxd.2.1, hxd.2.2.1, hp.linked, ?_, ?_⟩
    · rw [hxd.2.2.2.2, (hp.victim rfl).2]; rfl
    · rw [hLq]; rfl
    · intro q' hq' hne hmem
      exact hp.linked.disj _ hq q' hq' (Ne.symm hne) v' (by rw [hLq]; simp) hmem
  · rcases hc with h1 | ⟨_, hvic⟩
    · rw [hfind] at h1; cases h1
    · obtain ⟨m, hm, hmz, _⟩ := victim_some hvic
      rw [hn] at hm
      have := Option.some.inj hm
      subst this
      exact absurd (hsleep v n hn hmz) hlock
  · obtain ⟨j, x, hx, hxz⟩ := hzero
    exact absurd hxz (victim_none hvic x (List.mem_iff_getElem?.mpr ⟨j, hx⟩))

set_option maxRecDepth 100000 in
/-- Witness for C2: `bget(1, 11)` on the pool where only block 10 is cached, unreferenced. -/
theorem bget_allocation_postcondition_witness :
    ∃ v s' L' x, bget exCtx 1 11 exIdle = .ok (.buf v) s' ∧ s'.buf[v]? = some x ∧
      x.refcnt = 1 ∧ x.valid = false ∧ x.dev = 1 ∧ x.blockno = 11 ∧
      Linked s' L' ∧ (L' (11 % NQUEUE)).head? = some v ∧
      ∀ q', q' < NQUEUE → q' ≠ 11 % NQUEUE → v ∉ L' q' :=
  bget_allocation_postcondition exCtx exIdle exLists 1 11 (by decide) (by decide) (by decide)
    ⟨0, { valid := true, dev := 1, blockno := 10, lock := none, refcnt := 0,
          prev := .head 10, next := .head 10 }, by decide, by decide⟩
    (fun j x hx _ =>
      (by decide : ∀ y ∈ exIdle.buf, y.lock = none) x (List.mem_iff_getElem?.mpr ⟨j, hx⟩))

/-- C3 (read-through): in a well-formed state with no spinlock held in which
`bget(dev, blockno)` returns the buffer `b`, `bread(dev, blockno)` returns the same `b`;
the returned buffer has the key `(dev, blockno)` and `valid` set; the disk log gains
exactly one request, a read of block `(dev, blockno)` into `b`, when `bget` returned the
buffer with `valid == 0`, and is unchanged otherwise. -/
theorem bread_read_through (c : Ctx) (s s1 : Bcache) (L : Nat → List Nat) (dev blockno : Nat)
    (b : Ptr) (hL : Linked s L) (hQ : Quiet s) (hg : bget c dev blockno s = .ok b s1) :
    ∃ s2 x1 x2, bread c dev blockno s = .ok b s2 ∧ getNode s1 b = some x1 ∧
      getNode s2 b = some x2 ∧ x2.dev = dev ∧ x2.blockno = blockno ∧ x2.valid = true ∧
      s2.disk = if x1.valid then s.disk else (b, dev, blockno, 0) :: s.disk := by
  obtain ⟨v, L', n, hit, hb, hp⟩ := bget_post hL hQ hg
  subst hb
  obtain ⟨x1, hx1, hxd⟩ := bget_post_node hp
  simp only [Buf.data, Prod.mk.injEq] at hxd
  have hbr := bread_of_bget hg hx1
  cases hval : x1.valid with
  | true =>
    rw [hval] at hbr
    simp only [ite_true] at hbr
    exact ⟨s1, x1, x1, hbr, hx1, hx1, hxd.2.1, hxd.2.2.1, hval, by simp [hp.disk, hval]⟩
  | false =>
    rw [hval] at hbr
    simp only [Bool.false_eq_true, ite_false] at hbr
    refine ⟨_, x1, { x1 with valid := true }, hbr, hx1, ?_, hxd.2.1, hxd.2.2.1, rfl, ?_⟩
    · simp [getNode, List.getElem?_set, buf_lt hx1]
    · simp [hp.disk, hxd.2.1, hxd.2.2.1, hval]

set_option maxRecDepth 100000 in
/-- Witness for C3: `bread(1, 10)` on the freshly initialised pool of three buffers. -/
theorem bread_read_through_witness :
    ∃ s2 x1 x2, bread exCtx 1 10 (initState 3) = .ok (.buf 0) s2 ∧
      getNode (bget exCtx 1 10 (initState 3)).state (.buf 0) = some x1 ∧
      getNode s2 (.buf 0) = some x2 ∧ x2.dev = 1 ∧ x2.blockno = 10 ∧ x2.valid = true ∧
      s2.disk = if x1.valid then (initState 3).disk
        else (Ptr.buf 0, 1, 10, 0) :: (initState 3).disk :=
  bread_read_through exCtx (initState 3) (bget exCtx 1 10 (initState 3)).state (fun _ => []) 1 10
    (.buf 0) (initState_linked 3) (by decide) (by decide)

/-- The state after a returning `bread` from a state satisfying the invariant. -/
theorem bread_full_post {c : Ctx} {s s1 : Bcache} {L : Nat → List Nat} {dev blockno : Nat}
    {b : Ptr} (h : Inv s L) (hb : bread c dev blockno s = .ok b s1) :
    ∃ v L1 x1, b = .buf v ∧ Inv s1 L1 ∧ s1.buf[v]? = some x1 ∧ x1.lock = some c.pid ∧
      x1.valid = true ∧ x1.dev = dev ∧ x1.blockno = blockno ∧
      (L1 (blockno % NQUEUE)).find? (keyMatch s1 dev blockno) = some v := by
  obtain ⟨v, L', n, hit, sb, n1, hbv, _, hp, hn1, hs1⟩ := bread_post h.linked h.quiet hb
  obtain ⟨y, hy, hyd⟩ := bget_post_node hp
  rw [hn1] at hy
  have := Option.some.inj hy
  subst this
  simp only [Buf.data, Prod.mk.injEq] at hyd
  have hinv := bgetPost_inv hp h
  refine ⟨v, L', ?_⟩
  cases hval : n1.valid with
  | true =>
    rw [hval] at hs1
    simp only [ite_true] at hs1
    subst hs1
    exact ⟨n1, hbv, hinv, hn1, hyd.2.2.2.1, hval, hyd.2.1, hyd.2.2.1, hp.first⟩
  | false =>
    rw [hval] at hs1
    simp only [Bool.false_eq_true, ite_false] at hs1
    refine ⟨{ n1 with valid := true }, hbv, ?_, ?_, hyd.2.2.2.1, rfl, hyd.2.1, hyd.2.2.1, ?_⟩
    · rw [hs1]
      exact inv_set hinv (m := { n1 with valid := true }) hn1 rfl rfl
        (hinv.typed n1 (List.mem_iff_getElem?.mpr ⟨v, hn1⟩)) _
    · rw [hs1]; simp [List.getElem?_set, buf_lt hn1]
    · rw [hs1, keyMatch_set (m := { n1 with valid := true }) hn1 rfl rfl]
      exact hp.first

/-- C4 (sequential re-acquire): from a state reachable from `binit` in which
`bread(dev, blockno)` returns the buffer `b`, the `brelse(b)` that follows returns, and a
second `bread(dev, blockno)` right after it returns the same `b`; neither of the two adds
a request to the disk log, and the second `bread` leaves the cache exactly in the state
the first one left it in, in particular with the same `refcnt` of `b`. -/
theorem bread_brelse_bread (nbuf : Nat) (c : Ctx) (s s1 : Bcache) (dev blockno : Nat) (b : Ptr)
    (hR : Reachable nbuf s) (h1 : bread c dev blockno s = .ok b s1) :
    ∃ s2 s3, brelse c b s1 = .ok () s2 ∧ bread c dev blockno s2 = .ok b s3 ∧
      s2.disk = s1.disk ∧ s3.disk = s2.disk ∧
      (getNode s3 b).map Buf.refcnt = (getNode s1 b).map Buf.refcnt ∧ s3 = s1 := by
  obtain ⟨L, hinv⟩ := reachable_inv hR
  obtain ⟨v, L1, x1, hbv, hinv1, hx1, hlock, hval, hdev, hblk, hfind⟩ := bread_full_post hinv h1
  subst hbv
  have hq := mod_NQUEUE_lt blockno
  have hmem : v ∈ L1 (blockno % NQUEUE) := List.mem_of_find?_eq_some hfind
  obtain ⟨y, hy, hyn, hyp⟩ := hinv1.linked.member_links hq hmem
  have hyx : y = x1 := by
    simp only [getNode] at hy
    rw [hx1] at hy
    exact (Option.some.inj hy).symm
  subst hyx
  have hrel := brelse_spec (c := c) hx1 hlock
    (by rw [hblk]; exact quiet_hqlock hinv1.quiet hq) (Or.inr hyn)
  obtain ⟨s2, hs2⟩ : ∃ s2 : Bcache, s2 =
      { s1 with buf := s1.buf.set v { y with lock := none, refcnt := uintDec y.refcnt } } := ⟨_, rfl⟩
  rw [← hs2] at hrel
  have hL2 : Linked s2 L1 := by
    rw [hs2]
    exact hinv1.linked.of_links (map_links_set _ _ y _ hx1 rfl) rfl
  have hk2 : keyMatch s2 dev blockno = keyMatch s1 dev blockno := by
    rw [hs2]
    exact keyMatch_set (m := { y with lock := none, refcnt := uintDec y.refcnt }) hx1 rfl rfl
      s1.disk dev blockno
  have hx2 : s2.buf[v]? = some { y with lock := none, refcnt := uintDec y.refcnt } := by
    rw [hs2]; simp [List.getElem?_set, buf_lt hx1]
  have hlk2 : s2.hqlock[blockno % NQUEUE]? = some none := by
    rw [hs2]; exact quiet_hqlock hinv1.quiet hq
  have hget := bget_hit (c := c) hL2 hlk2 (by rw [hk2]; exact hfind) hx2
  simp only at hget
  have hty : y.refcnt < UINT_MOD := hinv1.typed y (List.mem_iff_getElem?.mpr ⟨v, hx1⟩)
  have hback : ({ y with lock := some c.pid, refcnt := uintInc (uintDec y.refcnt) } : Buf) = y := by
    rw [uintInc_uintDec hty, ← hlock]
  have hs3 : ({ s2 with
      buf := s2.buf.set v { y with refcnt := uintInc (uintDec y.refcnt), lock := some c.pid } }
      : Bcache) = s1 := by
    rw [hs2]
    simp only [List.set_set]
    rw [hback, list_set_self _ _ _ hx1]
  rw [hs3] at hget
  have hbr := bread_of_bget hget hx1
  rw [hval] at hbr
  simp only [ite_true] at hbr
  refine ⟨s2, s1, hrel, hbr, by rw [hs2], by rw [hs2], rfl, rfl⟩

set_option maxRecDepth 100000 in
/-- Witness for C4: the first `bread(1, 10)` after `binit` on a pool of three buffers. -/
theorem bread_brelse_bread_witness :
    ∃ s2 s3, brelse exCtx (.buf 0) exHeld = .ok () s2 ∧ bread exCtx 1 10 s2 = .ok (.buf 0) s3 ∧
      s2.disk = exHeld.disk ∧ s3.disk = s2.disk ∧
      (getNode s3 (.buf 0)).map Buf.refcnt = (getNode exHeld (.buf 0)).map Buf.refcnt ∧
      s3 = exHeld :=
  bread_brelse_bread 3 exCtx (initState 3) exHeld 1 10 (.buf 0)
    ⟨_, Run.init (binit_spec 3)⟩ (by decide)

/-- C5 (eviction victim): in a well-formed state with no spinlock held, where no slot
still has the sentinel key, no member of the target bucket has the key `(dev, blockno)`,
and `v` is the lowest-index slot with `refcnt == 0` (its sleeplock free), `bget(dev,
blockno)` returns slot `v` with the new key; every other slot keeps its `dev`, `blockno`,
`valid` and `refcnt`, and in every bucket the other slots keep their relative order. -/
theorem bget_eviction_victim (c : Ctx) (s : Bcache) (L : Nat → List Nat) (dev blockno v : Nat)
    (n : Buf) (hL : Linked s L) (hQ : Quiet s)
    (hused : ∀ x ∈ s.buf, x.blockno ≠ SENTINEL)
    (hnone : ∀ j ∈ L (blockno % NQUEUE), keyMatch s dev blockno j = false)
    (hv : s.buf[v]? = some n) (hzero : n.refcnt = 0)
    (hlow : ∀ (j : Nat), j < v → ∀ (x : Buf), s.buf[j]? = some x → x.refcnt ≠ 0)
    (hfree : n.lock = none) :
    ∃ s' L' x, bget c dev blockno s = .ok (.buf v) s' ∧ s'.buf[v]? = some x ∧
      x.dev = dev ∧ x.blockno = blockno ∧ Linked s' L' ∧ s'.buf.length = s.buf.length ∧
      (∀ (j : Nat), j ≠ v → ∀ (y' : Buf), s'.buf[j]? = some y' →
        ∃ y, s.buf[j]? = some y ∧ y.dev = y'.dev ∧ y.blockno = y'.blockno ∧
          y.valid = y'.valid ∧ y.refcnt = y'.refcnt) ∧
      (∀ q, q < NQUEUE → (L' q).filter (fun j => decide (j ≠ v)) =
        (L q).filter (fun j => decide (j ≠ v))) := by
  have _ := hused
  have hfind := find_none_of_forall hnone
  have hvic := victim_of_lowest hv hzero hlow
  rcases bget_outcome (c := c) dev blockno hL hQ with ⟨w, s', hg, _⟩ | ⟨s', _, w, m, hm, hlock, hc⟩ |
      ⟨s', _, _, hvn⟩
  · obtain ⟨w', L', m, hit, hb, hp⟩ := bget_post hL hQ hg
    have hw : w' = w := by
      simp only [Ptr.buf.injEq] at hb
      exact hb.symm
    subst hw
    have hhit : hit = false := by
      cases hit with
      | false => rfl
      | true =>
        have := hp.found
        rw [hfind] at this
        simp at this
    subst hhit
    have hwv : w' = v := by
      have := (hp.victim rfl).1
      rw [hvic] at this
      exact (Option.some.inj this).symm
    subst hwv
    obtain ⟨x, hx, hxd⟩ := bget_post_node hp
    simp only [Buf.data, Prod.mk.injEq] at hxd
    refine ⟨s', L', x, hg, hx, hxd.2.1, hxd.2.2.1, hp.linked, data_length hp.data, ?_, ?_⟩
    · intro j hj y' hy'
      obtain ⟨y, hy, hyd⟩ := (data_at hp.data hy').2 hj
      simp only [Buf.data, Prod.mk.injEq] at hyd
      exact ⟨y, hy, hyd.2.1, hyd.2.2.1, hyd.1, hyd.2.2.2.2⟩
    · intro q hq
      rw [hp.lists]
      simp only [Bool.false_eq_true, ite_false]
      exact moveFront_filter q (hL.nodup q hq)
  · rcases hc with h1 | ⟨_, hvw⟩
    · rw [hfind] at h1; cases h1
    · rw [hvic] at hvw
      have := Option.some.inj hvw
      subst this
      rw [hv] at hm
      have := Option.some.inj hm
      subst this
      exact absurd hfree hlock
  · rw [hvic] at hvn; cases hvn

set_option maxRecDepth 100000 in
/-- Witness for C5: `bget(1, 12)` on the pool of two used, unreferenced buffers evicts
slot 0. -/
theorem bget_eviction_victim_witness :
    ∃ s' L' x, bget exCtx 1 12 exFull = .ok (.buf 0) s' ∧ s'.buf[0]? = some x ∧
      x.dev = 1 ∧ x.blockno = 12 ∧ Linked s' L' ∧ s'.buf.length = exFull.buf.length ∧
      (∀ (j : Nat), j ≠ 0 → ∀ (y' : Buf), s'.buf[j]? = some y' →
        ∃ y, exFull.buf[j]? = some y ∧ y.dev = y'.dev ∧ y.blockno = y'.blockno ∧
          y.valid = y'.valid ∧ y.refcnt = y'.refcnt) ∧
      (∀ q, q < NQUEUE → (L' q).filter (fun j => decide (j ≠ 0)) =
        (exFullLists q).filter (fun j => decide (j ≠ 0))) :=
  bget_eviction_victim exCtx exFull exFullLists 1 12 0
    { valid := true, dev := 1, blockno := 10, lock := none, refcnt := 0,
      prev := .head 10, next := .head 10 }
    (by decide) (by decide) (by decide) (by decide) (by decide) (by decide)
    (fun j hj => absurd hj (Nat.not_lt_zero j)) (by decide)

set_option maxRecDepth 100000 in
/-- C6 (never-used slots before eviction), evaluated on a failing input.  After `binit`
on a pool of three buffers, `bread(1, 10)` and `brelse` of the returned slot 0, slots 1
and 2 still have the sentinel key and are in no list, and slot 0 is a member of queue 10
holding the key `(1, 10)`.  The scan for never-used slots finds none of them (its test
`b->blockno < 0` compares a `uint` with zero), and `bget(1, 11)` returns slot 0: the
previously assigned key `(1, 10)` is evicted although never-used slots remain, and they
are still unused afterwards. -/
theorem bget_evicts_member_before_unused :
    Reachable 3 exIdle ∧ Linked exIdle exLists ∧
      exIdle.buf.map (fun b => (b.dev, b.blockno, b.refcnt, b.prev, b.next)) =
        [(1, 10, 0, .head 10, .head 10), (0, SENTINEL, 0, .null, .null),
         (0, SENTINEL, 0, .null, .null)] ∧
      bget_unused 0 3 { exIdle with lock := some exCtx.cpu } =
        .ok none { exIdle with lock := some exCtx.cpu } ∧
      ∃ s', bget exCtx 1 11 exIdle = .ok (.buf 0) s' ∧
        s'.buf.map (fun b => (b.dev, b.blockno, b.refcnt, b.prev, b.next)) =
          [(1, 11, 1, .head 11, .head 11), (0, SENTINEL, 0, .null, .null),
           (0, SENTINEL, 0, .null, .null)] :=
  ⟨⟨_, Run.step (Run.step (Run.init (binit_spec 3)) trivial
        (by decide : (Call.bread exCtx 1 10).run (initState 3) = .ok (some (.buf 0)) exHeld))
      trivial (by decide : (Call.brelse exCtx 0).run exHeld = .ok none exIdle)⟩,
    by decide, by decide, by decide, ⟨(bget exCtx 1 11 exIdle).state, by decide, by decide⟩⟩

/-- C7 (capacity exhaustion): in every state reachable from `binit`, with `L` its bucket
lists, `bget(dev, blockno)` panics with "bget: no buffers" if and only if no member of
the target bucket has the key and every slot has `refcnt != 0`.  In every other state
it fails in no way: a slot `v` is chosen and `bget` returns it, unless the sleeplock of
`v` is held, in which case `bget` is put to sleep in `acquiresleep` waiting for it. -/
theorem bget_panics_iff_exhausted (nbuf : Nat) (c : Ctx) (s : Bcache) (dev blockno : Nat)
    (hR : Reachable nbuf s) :
    ∃ L, Linked s L ∧
      ((∃ s', bget c dev blockno s = .fail (.panic .bgetNoBuffers) s') ↔
        ((∀ j ∈ L (blockno % NQUEUE), keyMatch s dev blockno j = false) ∧
          ∀ x ∈ s.buf, x.refcnt ≠ 0)) ∧
      (¬ ((∀ j ∈ L (blockno % NQUEUE), keyMatch s dev blockno j = false) ∧
          ∀ x ∈ s.buf, x.refcnt ≠ 0) →
        ∃ v x, s.buf[v]? = some x ∧
          (x.lock = none → ∃ s', bget c dev blockno s = .ok (.buf v) s') ∧
          (x.lock ≠ none → ∃ s', bget c dev blockno s = .fail .sleep s')) := by
  obtain ⟨L, hinv⟩ := reachable_inv hR
  refine ⟨L, hinv.linked, ?_⟩
  have hcond : ((∀ j ∈ L (blockno % NQUEUE), keyMatch s dev blockno j = false) ∧
      ∀ x ∈ s.buf, x.refcnt ≠ 0) ↔
      ((L (blockno % NQUEUE)).find? (keyMatch s dev blockno) = none ∧ victim s = none) := by
    constructor
    · rintro ⟨h1, h2⟩
      exact ⟨find_none_of_forall h1, victimFrom_eq_none h2⟩
    · rintro ⟨h1, h2⟩
      refine ⟨fun j hj => ?_, victim_none h2⟩
      have := List.find?_eq_none.mp h1 j hj
      simpa using this
  rw [hcond]
  have hq := mod_NQUEUE_lt blockno
  rcases bget_outcome (c := c) dev blockno hinv.linked hinv.quiet with
    ⟨v, s', hg, hp⟩ | ⟨s', hg, v, x, hx, hlock, hc⟩ | ⟨s', hg, hf, hv⟩
  · have hnot : ¬ ((L (blockno % NQUEUE)).find? (keyMatch s dev blockno) = none ∧
        victim s = none) := by
      rintro ⟨h1, h2⟩
      rcases hp with ⟨n, hfind, _⟩ | ⟨n, _, hvic, _⟩
      · rw [h1] at hfind; cases hfind
      · rw [h2] at hvic; cases hvic
    refine ⟨⟨fun ⟨s2, h2⟩ => (by rw [hg] at h2; cases h2), fun h => absurd h hnot⟩, fun _ => ?_⟩
    have hnode : ∃ x, s.buf[v]? = some x ∧ x.lock = none := by
      rcases hp with ⟨n, _, hn, hl, _⟩ | ⟨n, _, _, hn, hl, _⟩
      · exact ⟨n, hn, hl⟩
      · exact ⟨n, hn, hl⟩
    obtain ⟨x, hx, hl⟩ := hnode
    exact ⟨v, x, hx, fun _ => ⟨s', hg⟩, fun h => absurd hl h⟩
  · have hnot : ¬ ((L (blockno % NQUEUE)).find? (keyMatch s dev blockno) = none ∧
        victim s = none) := by
      rintro ⟨h1, h2⟩
      rcases hc with hfind | ⟨_, hvic⟩
      · rw [h1] at hfind; cases hfind
      · rw [h2] at hvic; cases hvic
    refine ⟨⟨fun ⟨s2, h2⟩ => (by rw [hg] at h2; cases h2), fun h => absurd h hnot⟩, fun _ => ?_⟩
    exact ⟨v, x, hx, fun h => absurd h hlock, fun _ => ⟨s', hg⟩⟩
  · exact ⟨⟨fun _ => ⟨hf, hv⟩, fun _ => ⟨s', hg⟩⟩, fun h => absurd ⟨hf, hv⟩ h⟩

set_option maxRecDepth 100000 in
/-- Witness for C7: the pool of three buffers right after `binit`, asked for block
`(1, 10)`. -/
theorem bget_panics_iff_exhausted_witness :
    ∃ L, Linked (initState 3) L ∧
      ((∃ s', bget exCtx 1 10 (initState 3) = .fail (.panic .bgetNoBuffers) s') ↔
        ((∀ j ∈ L (10 % NQUEUE), keyMatch (initState 3) 1 10 j = false) ∧
          ∀ x ∈ (initState 3).buf, x.refcnt ≠ 0)) ∧
      (¬ ((∀ j ∈ L (10 % NQUEUE), keyMatch (initState 3) 1 10 j = false) ∧
          ∀ x ∈ (initState 3).buf, x.refcnt ≠ 0) →
        ∃ v x, (initState 3).buf[v]? = some x ∧
          (x.lock = none → ∃ s', bget exCtx 1 10 (initState 3) = .ok (.buf v) s') ∧
          (x.lock ≠ none → ∃ s', bget exCtx 1 10 (initState 3) = .fail .sleep s')) :=
  bget_panics_iff_exhausted 3 exCtx (initState 3) 1 10 ⟨_, Run.init (binit_spec 3)⟩

theorem Buf.links_refcnt (n : Buf) (k : Nat) : ({ n with refcnt := k } : Buf).links = n.links :=
  rfl

theorem Buf.links_lock_refcnt (n : Buf) (l : Option Nat) (k : Nat) :
    ({ n with lock := l, refcnt := k } : Buf).links = n.links := rfl

/-- C8 (release, pin and unpin change only the reference count): for a slot `i` that is
a member of a bucket list of a well-formed state, with the lock of its queue free,
`brelse` (called with the sleeplock of `i` held) and `bunpin` return and replace `refcnt`
by `refcnt - 1`, `bpin` returns and replaces it by `refcnt + 1`, in the arithmetic of
`uint`: exactly one less when `refcnt > 0` and exactly one more when `refcnt` is below
its maximum.  The resulting state differs from the old one in that field of slot `i`
only (and, for `brelse`, in the released sleeplock of `i`): `dev`, `blockno`, `valid` of
every slot, the `refcnt` of every other slot and all links, hence all bucket lists, are
unchanged.  `bunpin` right after `bpin` gives back exactly the state before. -/
theorem refcnt_ops_change_only_refcnt (c : Ctx) (s : Bcache) (L : Nat → List Nat) (q i : Nat)
    (n : Buf) (hL : Linked s L) (hq : q < NQUEUE) (hmem : i ∈ L q) (hn : s.buf[i]? = some n)
    (hlk : s.hqlock[n.blockno % NQUEUE]? = some none) (hty : n.refcnt < UINT_MOD) :
    (n.lock = some c.pid →
      brelse c (.buf i) s = .ok ()
        { s with buf := s.buf.set i { n with lock := none, refcnt := uintDec n.refcnt } } ∧
      Linked { s with buf := s.buf.set i { n with lock := none, refcnt := uintDec n.refcnt } } L) ∧
    (bunpin c (.buf i) s = .ok ()
        { s with buf := s.buf.set i { n with refcnt := uintDec n.refcnt } } ∧
      Linked { s with buf := s.buf.set i { n with refcnt := uintDec n.refcnt } } L) ∧
    (bpin c (.buf i) s = .ok ()
        { s with buf := s.buf.set i { n with refcnt := uintInc n.refcnt } } ∧
      Linked { s with buf := s.buf.set i { n with refcnt := uintInc n.refcnt } } L) ∧
    (0 < n.refcnt → uintDec n.refcnt + 1 = n.refcnt) ∧
    (n.refcnt + 1 < UINT_MOD → uintInc n.refcnt = n.refcnt + 1) ∧
    (∃ s1, bpin c (.buf i) s = .ok () s1 ∧ bunpin c (.buf i) s1 = .ok () s) := by
  obtain ⟨y, hy, hyn, _⟩ := hL.member_links hq hmem
  have hyx : y = n := by
    simp only [getNode] at hy
    rw [hn] at hy
    exact (Option.some.inj hy).symm
  subst hyx
  have hin : y.prev ≠ .null ∨ y.next ≠ .null := Or.inr hyn
  have hlink : ∀ m : Buf, m.links = y.links → Linked { s with buf := s.buf.set i m } L :=
    fun m hm => hL.of_links (map_links_set _ _ y _ hn hm) rfl
  refine ⟨fun hhold => ⟨brelse_spec hn hhold hlk hin,
      hlink _ (Buf.links_lock_refcnt y none (uintDec y.refcnt))⟩,
    ⟨bunpin_spec hn hlk hin, hlink _ (Buf.links_refcnt y (uintDec y.refcnt))⟩,
    ⟨bpin_spec hn hlk hin, hlink _ (Buf.links_refcnt y (uintInc y.refcnt))⟩, ?_, ?_, ?_⟩
  · intro h
    unfold uintDec UINT_MOD at *
    omega
  · intro h
    unfold uintInc
    exact Nat.mod_eq_of_lt h
  · refine ⟨_, bpin_spec hn hlk hin, ?_⟩
    have hn1 : (s.buf.set i { y with refcnt := uintInc y.refcnt })[i]? =
        some { y with refcnt := uintInc y.refcnt } := by
      simp [List.getElem?_set, buf_lt hn]
    rw [bunpin_spec (s := { s with buf := s.buf.set i { y with refcnt := uintInc y.refcnt } })
      (n := { y with refcnt := uintInc y.refcnt }) hn1 hlk hin]
    simp only [List.set_set, uintDec_uintInc hty]
    rw [list_set_self _ _ _ hn]

set_option maxRecDepth 100000 in
/-- Witness for C8: slot 0 of the pool in which it caches block 10 and is locked by the
caller. -/
theorem refcnt_ops_change_only_refcnt_witness :
    (∃ s1, brelse exCtx (.buf 0) exHeld = .ok () s1 ∧ Linked s1 exLists) ∧
    (∃ s1, bunpin exCtx (.buf 0) exHeld = .ok () s1 ∧ Linked s1 exLists) ∧
    (∃ s1, bpin exCtx (.buf 0) exHeld = .ok () s1 ∧ bunpin exCtx (.buf 0) s1 = .ok () exHeld) :=
  have h := refcnt_ops_change_only_refcnt exCtx exHeld exLists 10 0
    { valid := true, dev := 1, blockno := 10, lock := some 1, refcnt := 1,
      prev := .head 10, next := .head 10 }
    (by decide) (by decide) (by decide) (by decide) (by decide) (by decide)
  ⟨⟨_, h.1 rfl⟩, ⟨_, h.2.1⟩, h.2.2.2.2.2⟩

theorem run_accounted {n : Nat} {s : Bcache} {out : Nat → Nat} (h : Run Call.matched n s out) :
    Accounted s out := by
  induction h with
  | init h0 =>
    rw [binit_init h0]
    intro i x hx
    have : x = initBuf := List.eq_of_mem_replicate (List.mem_iff_getElem?.mpr ⟨i, hx⟩)
    rw [this]; rfl
  | @step s s' out call r hrun hm hr ih =>
    obtain ⟨L, hinv⟩ := run_inv hrun
    cases call with
    | bget c dev blockno =>
      obtain ⟨b, hb, hrb⟩ := bind_pure_ok (f := some) hr
      obtain ⟨v, L', m, hit, hbv, hp⟩ := bget_post hinv.linked hinv.quiet hb
      subst hbv
      subst hrb
      exact bgetPost_accounted hp ih
    | bread c dev blockno =>
      obtain ⟨b, hb, hrb⟩ := bind_pure_ok (f := some) hr
      obtain ⟨v, L', m, hit, s1, n1, hbv, _, hp, hn1, hs'⟩ := bread_post hinv.linked hinv.quiet hb
      subst hbv
      subst hrb
      refine (bgetPost_accounted hp ih).same ?_
      intro i x hx
      rw [hs'] at hx
      split at hx
      · exact ⟨x, hx, rfl⟩
      · simp only [List.getElem?_set] at hx
        split at hx
        · next e =>
          subst e
          split at hx
          · have := Option.some.inj hx
            subst this
            exact ⟨n1, hn1, rfl⟩
          · cases hx
        · exact ⟨x, hx, rfl⟩
    | bwrite c i =>
      obtain ⟨_, hb, hrb⟩ := bind_pure_ok (f := fun _ => (none : Option Ptr)) hr
      obtain ⟨m, _, _, hs'⟩ := bwrite_post hb
      subst hrb
      rw [hs']
      exact ih
    | brelse c i =>
      obtain ⟨_, hb, hrb⟩ := bind_pure_ok (f := fun _ => (none : Option Ptr)) hr
      obtain ⟨m, hm', _, _, hs'⟩ := brelse_post hinv.quiet hb
      subst hrb
      rw [hs']
      refine accounted_set ih (m := { m with lock := none, refcnt := uintDec m.refcnt }) ?_ _
      show uintDec m.refcnt = (out i - 1) % UINT_MOD
      rw [ih i m hm', uintDec_mod hm]
    | bpin c i =>
      obtain ⟨_, hb, hrb⟩ := bind_pure_ok (f := fun _ => (none : Option Ptr)) hr
      obtain ⟨m, hm', _, hs'⟩ := bpin_post hinv.quiet hb
      subst hrb
      rw [hs']
      refine accounted_set ih (m := { m with refcnt := uintInc m.refcnt }) ?_ _
      show uintInc m.refcnt = (out i + 1) % UINT_MOD
      rw [ih i m hm', uintInc_mod]
    | bunpin c i =>
      obtain ⟨_, hb, hrb⟩ := bind_pure_ok (f := fun _ => (none : Option Ptr)) hr
      obtain ⟨m, hm', _, hs'⟩ := bunpin_post hinv.quiet hb
      subst hrb
      rw [hs']
      refine accounted_set ih (m := { m with refcnt := uintDec m.refcnt }) ?_ _
      show uintDec m.refcnt = (out i - 1) % UINT_MOD
      rw [ih i m hm', uintDec_mod hm]

set_option maxRecDepth 100000 in
/-- C9 as stated fails: the calls `bread(1, 10)`, `brelse(slot 0)`, `bunpin(slot 0)` after
`binit` all return; the `bunpin` decrements a `refcnt` of 0, and it leaves slot 0 with
`refcnt == 4294967295` although no `bget` return or `bpin` on it is outstanding. -/
theorem refcnt_wraps_on_unmatched_bunpin :
    ∃ out, Run (fun _ _ => True) 3 exWrapped out ∧ out 0 = 0 ∧
      exIdle.buf.map Buf.refcnt = [0, 0, 0] ∧
      bunpin exCtx (.buf 0) exIdle = .ok () exWrapped ∧
      exWrapped.buf.map Buf.refcnt = [4294967295, 0, 0] :=
  ⟨_, Run.step (Run.step (Run.step (Run.init (binit_spec 3)) trivial
        (by decide : (Call.bread exCtx 1 10).run (initState 3) = .ok (some (.buf 0)) exHeld))
      trivial (by decide : (Call.brelse exCtx 0).run exHeld = .ok none exIdle))
      trivial (by decide : (Call.bunpin exCtx 0).run exIdle = .ok none exWrapped),
    by decide, by decide, by decide, by decide⟩

/-- C9, amended (reference-count bound for matched calls): along every sequence of
returning calls from `binit` in which each `brelse` and `bunpin` takes back a reference
that a `bget`/`bread` return or a `bpin` on that slot handed out, the `refcnt` of every
slot equals the number `out i` of references outstanding on it, in `uint` arithmetic.
So it never exceeds that number, equals it while fewer than 2^32 are outstanding, and is
then positive whenever a reference is outstanding: no matched decrement meets a `refcnt`
of 0. -/
theorem refcnt_matches_outstanding (nbuf : Nat) (s : Bcache) (out : Nat → Nat) (i : Nat) (x : Buf)
    (hrun : Run Call.matched nbuf s out) (hx : s.buf[i]? = some x) :
    x.refcnt = out i % UINT_MOD ∧ x.refcnt ≤ out i ∧ (out i < UINT_MOD → x.refcnt = out i) ∧
      (0 < out i → out i < UINT_MOD → 0 < x.refcnt) := by
  have h := run_accounted hrun i x hx
  refine ⟨h, ?_, ?_, ?_⟩
  · rw [h]; exact Nat.mod_le _ _
  · intro hlt; rw [h]; exact Nat.mod_eq_of_lt hlt
  · intro hpos hlt; rw [h, Nat.mod_eq_of_lt hlt]; exact hpos

set_option maxRecDepth 100000 in
/-- Witness for C9 amended: slot 0 after `binit` and one `bread(1, 10)`. -/
theorem refcnt_matches_outstanding_witness :
    ∃ out : Nat → Nat, ∃ x : Buf, exHeld.buf[0]? = some x ∧ out 0 = 1 ∧
      x.refcnt = out 0 % UINT_MOD ∧ x.refcnt ≤ out 0 ∧ (out 0 < UINT_MOD → x.refcnt = out 0) ∧
      (0 < out 0 → out 0 < UINT_MOD → 0 < x.refcnt) :=
  ⟨_, { valid := true, dev := 1, blockno := 10, lock := some 1, refcnt := 1,
        prev := .head 10, next := .head 10 }, by decide, by decide,
    refcnt_matches_outstanding 3 exHeld _ 0 _
      (Run.step (k := Call.bread exCtx 1 10) (Run.init (binit_spec 3)) trivial
        (by decide : (Call.bread exCtx 1 10).run (initState 3) = .ok (some (.buf 0)) exHeld))
      (by decide)⟩

theorem path_ring {nx pv : Ptr → Option Ptr} : ∀ (l : List Nat) (p e : Ptr), Path nx pv p l e →
    (∀ x, (x = p ∨ ∃ i ∈ l, x = Ptr.buf i) → ∃ a, nx x = some a ∧ pv a = some x) ∧
    (∀ x, (x = e ∨ ∃ i ∈ l, x = Ptr.buf i) → ∃ b, pv x = some b ∧ nx b = some x)
  | [], p, e, h => by
    constructor
    · rintro x (rfl | ⟨i, hi, _⟩)
      · exact ⟨e, h.1, h.2⟩
      · cases hi
    · rintro x (rfl | ⟨i, hi, _⟩)
      · exact ⟨p, h.2, h.1⟩
      · cases hi
  | j :: l, p, e, h => by
    obtain ⟨h1, h2, h3⟩ := h
    obtain ⟨ih1, ih2⟩ := path_ring l (.buf j) e h3
    constructor
    · rintro x (rfl | ⟨i, hi, rfl⟩)
      · exact ⟨.buf j, h1, h2⟩
      · rcases List.mem_cons.mp hi with e1 | e1
        · exact ih1 _ (Or.inl (by rw [e1]))
        · exact ih1 _ (Or.inr ⟨i, e1, rfl⟩)
    · rintro x (rfl | ⟨i, hi, rfl⟩)
      · exact ih2 _ (Or.inl rfl)
      · rcases List.mem_cons.mp hi with e1 | e1
        · exact ⟨p, by rw [e1]; exact h2, by rw [e1]; exact h1⟩
        · exact ih2 _ (Or.inr ⟨i, e1, rfl⟩)

/-- C10 (membership invariant): every state reachable from `binit` by returning calls
has bucket lists `L` (the walk along `next` from the head of queue `q` visits exactly
`L q` and comes back to the head, mirrored by `prev`) such that each slot either has
`prev == next == 0` and is in no list, or occurs exactly once in exactly one list, that
of queue `blockno % NQUEUE` for its current `blockno`; and every node `p` of a list, the
head included, satisfies `p.next.prev == p` and `p.prev.next == p`. -/
theorem membership_invariant (nbuf : Nat) (s : Bcache) (hR : Reachable nbuf s) :
    ∃ L, Linked s L ∧
      (∀ i, i < s.buf.length →
        (nxt s (.buf i) = some .null ∧ prv s (.buf i) = some .null ∧
          ∀ q, q < NQUEUE → i ∉ L q) ∨
        (∃ q x, q < NQUEUE ∧ (L q).count i = 1 ∧ (∀ q', q' < NQUEUE → q' ≠ q → i ∉ L q') ∧
          s.buf[i]? = some x ∧ x.blockno % NQUEUE = q)) ∧
      (∀ q p, q < NQUEUE → (p = .head q ∨ ∃ i ∈ L q, p = .buf i) →
        ∃ a b, nxt s p = some a ∧ prv s a = some p ∧ prv s p = some b ∧ nxt s b = some p) := by
  obtain ⟨L, hinv⟩ := reachable_inv hR
  refine ⟨L, hinv.linked, ?_, ?_⟩
  · intro i hi
    by_cases hmem : ∃ q, q < NQUEUE ∧ i ∈ L q
    · obtain ⟨q, hq, hiq⟩ := hmem
      obtain ⟨x, hx⟩ := getNode_buf_some hi
      refine Or.inr ⟨q, x, hq, List.count_eq_one_of_mem (hinv.linked.nodup q hq) hiq, ?_, hx,
        hinv.keyed q hq i hiq x hx⟩
      intro q' hq' hne
      exact hinv.linked.disj q hq q' hq' (Ne.symm hne) i hiq
    · have hfree : ∀ q, q < NQUEUE → i ∉ L q := fun q hq hc => hmem ⟨q, hq, hc⟩
      have := hinv.linked.free i hi hfree
      exact Or.inl ⟨this.1, this.2, hfree⟩
  · intro q p hq hp
    obtain ⟨h1, h2⟩ := path_ring _ _ _ (hinv.linked.path q hq)
    obtain ⟨a, ha1, ha2⟩ := h1 p hp
    obtain ⟨b, hb1, hb2⟩ := h2 p hp
    exact ⟨a, b, ha1, ha2, hb1, hb2⟩

set_option maxRecDepth 100000 in
/-- Witness for C10: the pool of three buffers after `binit`, `bread(1, 10)` and `brelse`
of the returned slot. -/
theorem membership_invariant_witness :
    ∃ L, Linked exIdle L ∧
      (∀ i, i < exIdle.buf.length →
        (nxt exIdle (.buf i) = some .null ∧ prv exIdle (.buf i) = some .null ∧
          ∀ q, q < NQUEUE → i ∉ L q) ∨
        (∃ q x, q < NQUEUE ∧ (L q).count i = 1 ∧ (∀ q', q' < NQUEUE → q' ≠ q → i ∉ L q') ∧
          exIdle.buf[i]? = some x ∧ x.blockno % NQUEUE = q)) ∧
      (∀ q p, q < NQUEUE → (p = .head q ∨ ∃ i ∈ L q, p = .buf i) →
        ∃ a b, nxt exIdle p = some a ∧ prv exIdle a = some p ∧ prv exIdle p = some b ∧
          nxt exIdle b = some p) :=
  membership_invariant 3 exIdle
    ⟨_, Run.step (Run.step (Run.init (binit_spec 3)) trivial
        (by decide : (Call.bread exCtx 1 10).run (initState 3) = .ok (some (.buf 0)) exHeld))
      trivial (by decide : (Call.brelse exCtx 0).run exHeld = .ok none exIdle)⟩

/-- Uniqueness of keys carries over to a state whose slots hold the same keys. -/
theorem unique_same {s s' : Bcache} {L : Nat → List Nat} (h : Unique s L)
    (hk : ∀ (i : Nat) (x : Buf), s'.buf[i]? = some x →
      ∃ y : Buf, s.buf[i]? = some y ∧ y.dev = x.dev ∧ y.blockno = x.blockno) :
    Unique s' L := by
  intro q hq q' hq' i hi j hj x y hx hy hd hb
  obtain ⟨x0, hx0, hxd, hxb⟩ := hk i x hx
  obtain ⟨y0, hy0, hyd, hyb⟩ := hk j y hy
  exact h q hq q' hq' i hi j hj x0 y0 hx0 hy0 (by rw [hxd, hyd, hd]) (by rw [hxb, hyb, hb])

theorem unique_set {s : Bcache} {L : Nat → List Nat} (h : Unique s L) {i : Nat} {n m : Buf}
    (hn : s.buf[i]? = some n) (hd : m.dev = n.dev) (hb : m.blockno = n.blockno)
    (d : List (Ptr × Nat × Nat × Nat)) :
    Unique { s with buf := s.buf.set i m, disk := d } L := by
  refine unique_same h ?_
  intro j x hx
  simp only [List.getElem?_set] at hx
  split at hx
  · next e =>
    subst e
    split at hx
    · have := Option.some.inj hx
      subst this
      exact ⟨n, hn, hd.symm, hb.symm⟩
    · cases hx
  · exact ⟨x, hx, rfl, rfl⟩

theorem mem_of_mem_moveFront {L : Nat → List Nat} {q v q' i : Nat} (hi : i ∈ moveFront L q v q')
    (e : i ≠ v) : i ∈ L q' := by
  simp only [moveFront] at hi
  split at hi
  · rcases List.mem_cons.mp hi with e2 | e2
    · exact absurd e2 e
    · exact List.mem_of_mem_erase e2
  · exact List.mem_of_mem_erase hi

/-- A returning `bget` keeps the keys of the members distinct: a hit changes no key, and
an allocation gives the victim a key that no member of the target bucket holds. -/
theorem bgetPost_unique {c : Ctx} {s s' : Bcache} {L L' : Nat → List Nat} {dev blockno v : Nat}
    {n : Buf} {hit : Bool} (hp : BgetPost c s L dev blockno v s' L' n hit) (h : Inv s L)
    (hu : Unique s L) : Unique s' L' := by
  have hold : ∀ {q i : Nat}, q < NQUEUE → i ∈ L' q → i ≠ v → i ∈ L q := by
    intro q i _ hi e
    rw [hp.lists] at hi
    cases hit with
    | true => simpa using hi
    | false =>
      simp only [Bool.false_eq_true, ite_false] at hi
      exact mem_of_mem_moveFront hi e
  -- a member other than `v` with the key of `v` would have been found
  have hkey : ∀ {q j : Nat} {y : Buf}, q < NQUEUE → j ∈ L' q → j ≠ v → s'.buf[j]? = some y →
      y.dev = dev → y.blockno = blockno → False := by
    intro q j y hq hj e hy hyd hyb
    obtain ⟨y0, hy0, hyd0⟩ := (data_at hp.data hy).2 e
    simp only [Buf.data, Prod.mk.injEq] at hyd0
    have hjL := hold hq hj e
    have hqq : q = blockno % NQUEUE := by
      rw [← h.keyed q hq j hjL y0 hy0, hyd0.2.2.1, hyb]
    subst hqq
    have hkm : keyMatch s dev blockno j = true :=
      keyMatch_iff.mpr ⟨y0, hy0, by rw [hyd0.2.1, hyd], by rw [hyd0.2.2.1, hyb]⟩
    cases hit with
    | true =>
      -- the hit slot `v` holds the key already, so `j = v` by uniqueness
      have hf := hp.found
      simp only [ite_true] at hf
      have hvm := List.mem_of_find?_eq_some hf
      obtain ⟨n0, hn0, hnd, hnb⟩ := keyMatch_iff.mp (List.find?_some hf)
      exact e (hu _ hq _ hq j hjL v hvm y0 n0 hy0 hn0 (by rw [hyd0.2.1, hyd, hnd])
        (by rw [hyd0.2.2.1, hyb, hnb]))
    | false =>
      have hf := hp.found
      simp only [Bool.false_eq_true, ite_false] at hf
      have := List.find?_eq_none.mp hf j hjL
      simp [hkm] at this
  intro q hq q' hq' i hi j hj x y hx hy hd hb
  by_cases ei : i = v
  · by_cases ej : j = v
    · rw [ei, ej]
    · exfalso
      subst ei
      have hxd := (data_at hp.data hx).1 rfl
      simp only [Buf.data, Prod.mk.injEq] at hxd
      exact hkey hq' hj ej hy (by rw [← hd, hxd.2.1]) (by rw [← hb, hxd.2.2.1])
  · by_cases ej : j = v
    · exfalso
      subst ej
      have hyd := (data_at hp.data hy).1 rfl
      simp only [Buf.data, Prod.mk.injEq] at hyd
      exact hkey hq hi ei hx (by rw [hd, hyd.2.1]) (by rw [hb, hyd.2.2.1])
    · obtain ⟨x0, hx0, hxd0⟩ := (data_at hp.data hx).2 ei
      obtain ⟨y0, hy0, hyd0⟩ := (data_at hp.data hy).2 ej
      simp only [Buf.data, Prod.mk.injEq] at hxd0 hyd0
      exact hu q hq q' hq' i (hold hq hi ei) j (hold hq' hj ej) x0 y0 hx0 hy0
        (by rw [hxd0.2.1, hyd0.2.1, hd]) (by rw [hxd0.2.2.1, hyd0.2.2.1, hb])

theorem unique_bread_tail {s1 : Bcache} {L : Nat → List Nat} (h : Unique s1 L) {v : Nat} {n1 : Buf}
    (hn : s1.buf[v]? = some n1) :
    Unique (if n1.valid then s1 else
        { s1 with disk := (Ptr.buf v, n1.dev, n1.blockno, 0) :: s1.disk,
                  buf := s1.buf.set v { n1 with valid := true } }) L := by
  split
  · exact h
  · exact unique_set h (m := { n1 with valid := true }) hn rfl rfl _

/-- One returning call keeps the invariant and the uniqueness of keys. -/
theorem unique_step {s s' : Bcache} {L : Nat → List Nat} (h : Inv s L) (hu : Unique s L)
    {call : Call} {r : Option Ptr} (hr : call.run s = .ok r s') :
    ∃ L', Inv s' L' ∧ Unique s' L' := by
  cases call with
  | bget c dev blockno =>
    obtain ⟨b, hb, _⟩ := bind_pure_ok (f := some) hr
    obtain ⟨v, L', n, hit, _, hp⟩ := bget_post h.linked h.quiet hb
    exact ⟨L', bgetPost_inv hp h, bgetPost_unique hp h hu⟩
  | bread c dev blockno =>
    obtain ⟨b, hb, _⟩ := bind_pure_ok (f := some) hr
    obtain ⟨v, L', n, hit, s1, n1, _, _, hp, hn1, hs'⟩ := bread_post h.linked h.quiet hb
    rw [hs']
    exact ⟨L', (bgetPost_inv hp h).bread_tail hn1, unique_bread_tail (bgetPost_unique hp h hu) hn1⟩
  | bwrite c i =>
    obtain ⟨_, hb, _⟩ := bind_pure_ok (f := fun _ => (none : Option Ptr)) hr
    obtain ⟨n, hn, _, hs'⟩ := bwrite_post hb
    rw [hs']
    exact ⟨L, ⟨h.linked.of_nodes rfl rfl, h.keyed, h.quiet, h.typed⟩, unique_same hu (fun i x hx => ⟨x, hx, rfl, rfl⟩)⟩
  | brelse c i =>
    obtain ⟨_, hb, _⟩ := bind_pure_ok (f := fun _ => (none : Option Ptr)) hr
    obtain ⟨n, hn, _, _, hs'⟩ := brelse_post h.quiet hb
    rw [hs']
    exact ⟨L, inv_set h (m := { n with lock := none, refcnt := uintDec n.refcnt }) hn rfl rfl
      (uintDec_lt n.refcnt) _,
      unique_set hu (m := { n with lock := none, refcnt := uintDec n.refcnt }) hn rfl rfl _⟩
  | bpin c i =>
    obtain ⟨_, hb, _⟩ := bind_pure_ok (f := fun _ => (none : Option Ptr)) hr
    obtain ⟨n, hn, _, hs'⟩ := bpin_post h.quiet hb
    rw [hs']
    exact ⟨L, h.setRefcnt hn (uintInc_lt n.refcnt),
      unique_set hu (m := { n with refcnt := uintInc n.refcnt }) hn rfl rfl _⟩
  | bunpin c i =>
    obtain ⟨_, hb, _⟩ := bind_pure_ok (f := fun _ => (none : Option Ptr)) hr
    obtain ⟨n, hn, _, hs'⟩ := bunpin_post h.quiet hb
    rw [hs']
    exact ⟨L, h.setRefcnt hn (uintDec_lt n.refcnt),
      unique_set hu (m := { n with refcnt := uintDec n.refcnt }) hn rfl rfl _⟩

theorem run_unique {P : (Nat → Nat) → Call → Prop} {n : Nat} {s : Bcache} {out : Nat → Nat}
    (h : Run P n s out) : ∃ L, Inv s L ∧ Unique s L := by
  induction h with
  | init h0 =>
    rw [binit_init h0]
    exact ⟨_, initState_inv n, fun q _ q' _ i hi => by cases hi⟩
  | step _ _ hr ih =>
    obtain ⟨L, hL, hU⟩ := ih
    exact unique_step hL hU hr

/-- C11 (single copy per key under sequential use): in every state reached from `binit`
by a sequence of calls of `bget`, `bread`, `bwrite`, `brelse`, `bpin` and `bunpin`, each
run to its return before the next starts, the bucket lists `L` of the state (the slots
that the walk from each queue head spells out) contain no two slots with the same
`(dev, blockno)`. -/
theorem single_copy_per_key (nbuf : Nat) (s : Bcache) (hR : Reachable nbuf s) :
    ∃ L, Linked s L ∧ (∀ q, q < NQUEUE → bucket s q = some (L q)) ∧
      ∀ q q' i j x y, q < NQUEUE → q' < NQUEUE → i ∈ L q → j ∈ L q' →
        s.buf[i]? = some x → s.buf[j]? = some y → x.dev = y.dev → x.blockno = y.blockno →
        i = j := by
  obtain ⟨out, hrun⟩ := hR
  obtain ⟨L, hinv, hu⟩ := run_unique hrun
  exact ⟨L, hinv.linked, fun q hq => bucket_of_linked hinv.linked hq,
    fun q q' i j x y hq hq' hi hj hx hy hd hb => hu q hq q' hq' i hi j hj x y hx hy hd hb⟩

set_option maxRecDepth 100000 in
/-- Witness for C11: the pool of two buffers after `bread(1, 10)`, `bread(1, 11)` and the
`brelse` of both slots. -/
theorem single_copy_per_key_witness :
    ∃ L, Linked exFull L ∧ (∀ q, q < NQUEUE → bucket exFull q = some (L q)) ∧
      ∀ q q' i j x y, q < NQUEUE → q' < NQUEUE → i ∈ L q → j ∈ L q' →
        exFull.buf[i]? = some x → exFull.buf[j]? = some y → x.dev = y.dev →
        x.blockno = y.blockno → i = j :=
  single_copy_per_key 2 exFull
    ⟨_, Run.step (Run.step (Run.step (Run.step (Run.init (binit_spec 2)) trivial
          (by decide : (Call.bread exCtx 1 10).run (initState 2) =
            .ok (some (.buf 0)) (bread exCtx 1 10 (initState 2)).state))
        trivial
          (by decide : (Call.bread exCtx 1 11).run (bread exCtx 1 10 (initState 2)).state =
            .ok (some (.buf 1)) (bread exCtx 1 11 (bread exCtx 1 10 (initState 2)).state).state))
        trivial
          (by decide : (Call.brelse exCtx 0).run
              (bread exCtx 1 11 (bread exCtx 1 10 (initState 2)).state).state =
            .ok none (brelse exCtx (.buf 0)
              (bread exCtx 1 11 (bread exCtx 1 10 (initState 2)).state).state).state))
        trivial
          (by decide : (Call.brelse exCtx 1).run
              (brelse exCtx (.buf 0)
                (bread exCtx 1 11 (bread exCtx 1 10 (initState 2)).state).state).state =
            .ok none exFull)⟩

theorem Linked.free_links {s : Bcache} {L : Nat → List Nat} (hL : Linked s L) {i : Nat} {n : Buf}
    (hn : s.buf[i]? = some n) (hfree : ∀ q, q < NQUEUE → i ∉ L q) :
    ¬ (n.prev ≠ .null ∨ n.next ≠ .null) := by
  obtain ⟨h1, h2⟩ := hL.free i (buf_lt hn) hfree
  simp only [nxt, prv, getNode, hn, Option.map_some', Option.some.injEq] at h1 h2
  simp [h1, h2]

theorem Linked.member_isin {s : Bcache} {L : Nat → List Nat} (hL : Linked s L) {q i : Nat} {n : Buf}
    (hq : q < NQUEUE) (hmem : i ∈ L q) (hn : s.buf[i]? = some n) :
    n.prev ≠ .null ∨ n.next ≠ .null := by
  obtain ⟨y, hy, hyn, _⟩ := hL.member_links hq hmem
  simp only [getNode] at hy
  rw [hn] at hy
  rw [Option.some.inj hy]
  exact Or.inr hyn

theorem isin_buf {s : Bcache} {i : Nat} {n : Buf} (hn : s.buf[i]? = some n) :
    isin_hashqueue (.buf i) s = .ok (decide (n.prev ≠ .null ∨ n.next ≠ .null)) s := by
  simp only [isin_hashqueue, bind_apply, rd, getNode, hn, pure_apply]

/-- C12 (caller misuse is fatal): for a slot `i` of a well-formed state with no spinlock
held.  If `i` is in no bucket list, `isin_hashqueue` is false and `brelse`, `bpin` and
`bunpin` all panic (`brelse` with "brelse" when the caller does not hold the sleeplock,
with "brelse: buffer must exist in hashqueue" when it does).  If the caller does not
hold the sleeplock of `i`, `brelse` and `bwrite` panic, in the unchanged state.  In all
these panics the `refcnt` of every slot is what it was.  If `i` is a member of a bucket
list, `isin_hashqueue` is true and `bpin` and `bunpin` return, and so do `brelse` and
`bwrite` when the caller holds the sleeplock (`bwrite` then returns for a non-member
too). -/
theorem misuse_panics (c : Ctx) (s : Bcache) (L : Nat → List Nat) (i : Nat) (n : Buf)
    (hL : Linked s L) (hQ : Quiet s) (hn : s.buf[i]? = some n) :
    ((∀ q, q < NQUEUE → i ∉ L q) →
      isin_hashqueue (.buf i) s = .ok false s ∧
      (∃ s', brelse c (.buf i) s =
          .fail (.panic (if n.lock = some c.pid then .brelseMustExist else .brelse)) s' ∧
        s'.buf.map Buf.refcnt = s.buf.map Buf.refcnt) ∧
      (∃ s', bpin c (.buf i) s = .fail (.panic .bpinMustExist) s' ∧
        s'.buf.map Buf.refcnt = s.buf.map Buf.refcnt) ∧
      (∃ s', bunpin c (.buf i) s = .fail (.panic .bunpinMustExist) s' ∧
        s'.buf.map Buf.refcnt = s.buf.map Buf.refcnt)) ∧
    (n.lock ≠ some c.pid →
      brelse c (.buf i) s = .fail (.panic .brelse) s ∧
      bwrite c (.buf i) s = .fail (.panic .bwrite) s) ∧
    ((∃ q, q < NQUEUE ∧ i ∈ L q) →
      isin_hashqueue (.buf i) s = .ok true s ∧
      (∃ s', bpin c (.buf i) s = .ok () s') ∧ (∃ s', bunpin c (.buf i) s = .ok () s') ∧
      (n.lock = some c.pid → ∃ s', brelse c (.buf i) s = .ok () s')) ∧
    (n.lock = some c.pid → ∃ s', bwrite c (.buf i) s = .ok () s') := by
  have hlk := quiet_all hQ
  refine ⟨fun hfree => ?_, fun hnl => ?_, fun ⟨q, hq, hmem⟩ => ?_, fun hl => ?_⟩
  · have hin := hL.free_links hn hfree
    refine ⟨by rw [isin_buf hn]; simp [hin], ?_, ?_, ?_⟩
    · rw [brelse_eq i hlk, hn]
      simp only [hin, ite_false]
      by_cases hl : n.lock = some c.pid
      · simp only [hl, ite_true]
        refine ⟨_, rfl, ?_⟩
        simp only
        exact map_set_same Buf.refcnt _ _ _ n hn rfl
      · simp only [hl, ite_false]
        exact ⟨_, rfl, rfl⟩
    · rw [bpin_eq i hlk, hn]
      simp only [hin, ite_false]
      exact ⟨_, rfl, rfl⟩
    · rw [bunpin_eq i hlk, hn]
      simp only [hin, ite_false]
      exact ⟨_, rfl, rfl⟩
  · constructor
    · rw [brelse_eq i hlk, hn]
      simp only [hnl, ite_false]
    · rw [bwrite_eq i, hn]
      simp only [hnl, ite_false]
  · have hin := hL.member_isin hq hmem hn
    refine ⟨by rw [isin_buf hn]; simp [hin], ?_, ?_, fun hl => ?_⟩
    · rw [bpin_eq i hlk, hn]
      simp only [hin, ite_true]
      exact ⟨_, rfl⟩
    · rw [bunpin_eq i hlk, hn]
      simp only [hin, ite_true]
      exact ⟨_, rfl⟩
    · rw [brelse_eq i hlk, hn]
      simp only [hin, hl, ite_true]
      exact ⟨_, rfl⟩
  · rw [bwrite_eq i, hn]
    simp only [hl, ite_true]
    exact ⟨_, rfl⟩

set_option maxRecDepth 100000 in
/-- Witness for C12: in the pool where slot 0 caches block 10 and is locked by the caller,
slot 1 is never used and slot 0 is a member. -/
theorem misuse_panics_witness :
    (isin_hashqueue (.buf 1) exHeld = .ok false exHeld ∧
      (∃ s', bpin exCtx (.buf 1) exHeld = .fail (.panic .bpinMustExist) s' ∧
        s'.buf.map Buf.refcnt = exHeld.buf.map Buf.refcnt) ∧
      brelse exCtx (.buf 1) exHeld = .fail (.panic .brelse) exHeld ∧
      bwrite exCtx (.buf 1) exHeld = .fail (.panic .bwrite) exHeld) ∧
    (isin_hashqueue (.buf 0) exHeld = .ok true exHeld ∧
      (∃ s', bpin exCtx (.buf 0) exHeld = .ok () s') ∧
      (∃ s', brelse exCtx (.buf 0) exHeld = .ok () s') ∧
      (∃ s', bwrite exCtx (.buf 0) exHeld = .ok () s')) :=
  have h1 := misuse_panics exCtx exHeld exLists 1 initBuf (by decide) (by decide) (by decide)
  have h0 := misuse_panics exCtx exHeld exLists 0
    { valid := true, dev := 1, blockno := 10, lock := some 1, refcnt := 1,
      prev := .head 10, next := .head 10 } (by decide) (by decide) (by decide)
  have hm := h0.2.2.1 ⟨10, by decide, by decide⟩
  ⟨⟨(h1.1 (by decide)).1, (h1.1 (by decide)).2.2.1, (h1.2.1 (by decide)).1,
      (h1.2.1 (by decide)).2⟩,
    ⟨hm.1, hm.2.1, hm.2.2.2 rfl, h0.2.2.2 rfl⟩⟩

set_option maxRecDepth 100000 in
/-- C13 as stated fails.  In the pool of one buffer after `bread(1, 10)` the only slot is
referenced, and `bget(1, 11)` stops in `panic("bget: no buffers")` while the caller holds
`bcache.lock` and the lock of the target bucket 11.  In the pool right after `binit`,
`bpin` of the never-used slot 0 stops in `panic("bpin: buffer must exist in hashqueue")`
while the caller holds the lock of bucket 8, the one its sentinel `blockno` hashes to. -/
theorem locks_held_at_panic :
    Reachable 1 exBusy ∧
    (∃ t, bget exCtx 1 11 exBusy = .fail (.panic .bgetNoBuffers) t ∧
      holding exCtx .bcache t = .ok true t ∧ holding exCtx (.hq 11) t = .ok true t) ∧
    (∃ t, bpin exCtx (.buf 0) (initState 1) = .fail (.panic .bpinMustExist) t ∧
      holding exCtx (.hq 8) t = .ok true t) :=
  ⟨⟨_, Run.step (Run.init (binit_spec 1)) trivial
      (by decide : (Call.bread exCtx 1 10).run (initState 1) = .ok (some (.buf 0)) exBusy)⟩,
    ⟨(bget exCtx 1 11 exBusy).state, by decide, by decide, by decide⟩,
    ⟨(bpin exCtx (.buf 0) (initState 1)).state, by decide, by decide⟩⟩

/-- C13, amended (the locks held on the fatal paths): from a well-formed state with no
spinlock held, every `panic` reached by `bget`, `brelse`, `bpin` or `bunpin` is called
with the spinlocks taken so far still held.  `bget` can only reach "bget: no buffers",
and then the caller holds `bcache.lock` and the lock of the target bucket
`blockno % NQUEUE` and no other bucket lock.  `brelse` reaches "brelse" with no lock held
and the state unchanged, or "brelse: buffer must exist in hashqueue" holding exactly the
lock of the bucket `blockno % NQUEUE` of the entry.  `bpin` and `bunpin` can only reach
their "buffer must exist in hashqueue" panics, holding exactly that bucket lock. -/
theorem panic_holds_locks (c : Ctx) (s : Bcache) (L : Nat → List Nat) (hL : Linked s L)
    (hQ : Quiet s) :
    (∀ dev blockno msg t, bget c dev blockno s = .fail (.panic msg) t →
      msg = .bgetNoBuffers ∧ t.lock = some c.cpu ∧
        t.hqlock = (List.replicate NQUEUE none).set (blockno % NQUEUE) (some c.cpu)) ∧
    (∀ i msg t, brelse c (.buf i) s = .fail (.panic msg) t →
      (msg = .brelse ∧ t = s) ∨
      (msg = .brelseMustExist ∧ ∃ n, s.buf[i]? = some n ∧ t.lock = none ∧
        t.hqlock = (List.replicate NQUEUE none).set (n.blockno % NQUEUE) (some c.cpu))) ∧
    (∀ i msg t, bpin c (.buf i) s = .fail (.panic msg) t →
      msg = .bpinMustExist ∧ ∃ n, s.buf[i]? = some n ∧ t.lock = none ∧
        t.hqlock = (List.replicate NQUEUE none).set (n.blockno % NQUEUE) (some c.cpu)) ∧
    (∀ i msg t, bunpin c (.buf i) s = .fail (.panic msg) t →
      msg = .bunpinMustExist ∧ ∃ n, s.buf[i]? = some n ∧ t.lock = none ∧
        t.hqlock = (List.replicate NQUEUE none).set (n.blockno % NQUEUE) (some c.cpu)) := by
  have hlk := quiet_all hQ
  obtain ⟨hQ1, hQ2⟩ := hQ
  refine ⟨?_, ?_, ?_, ?_⟩
  · intro dev blockno msg t hp
    have hq := mod_NQUEUE_lt blockno
    cases hfind : (L (blockno % NQUEUE)).find? (keyMatch s dev blockno) with
    | some v =>
      obtain ⟨n, hn⟩ := getNode_buf_some (hL.bound _ hq v (List.mem_of_find?_eq_some hfind))
      have hhit := bget_hit (c := c) hL (hlk _ hq) hfind (n := n) hn
      rw [hp] at hhit
      cases hlock : n.lock <;> rw [hlock] at hhit <;> cases hhit
    | none =>
      have hmiss := bget_miss_spec (c := c) hL ⟨hQ1, hQ2⟩ hfind
      cases hvic : victim s with
      | none =>
        rw [hvic] at hmiss
        simp only at hmiss
        rw [hp] at hmiss
        simp only [Res.fail.injEq, Err.panic.injEq] at hmiss
        obtain ⟨hm, ht⟩ := hmiss
        subst ht
        exact ⟨hm, rfl, rfl⟩
      | some v =>
        rw [hvic] at hmiss
        obtain ⟨sf, n, hn, _, _, _, hdata, _, hrun⟩ := hmiss
        have hvlt : v < (s.buf.map Buf.data).length := by simpa using buf_lt hn
        have hacq := acquiresleep_data (c := c) sf (v := v) (x := (false, dev, blockno, 1))
          n.lock hvlt hdata
        rw [hp] at hrun
        cases hlock : n.lock with
        | none =>
          obtain ⟨s', hs', _⟩ := hacq.1 hlock
          rw [hs'] at hrun
          cases hrun
        | some p =>
          rw [hacq.2 (by simp [hlock])] at hrun
          cases hrun
  · intro i msg t hp
    rw [brelse_eq i hlk] at hp
    cases hn : s.buf[i]? with
    | none => rw [hn] at hp; cases hp
    | some n =>
      rw [hn] at hp
      simp only at hp
      split at hp
      · split at hp
        · cases hp
        · simp only [Res.fail.injEq, Err.panic.injEq] at hp
          obtain ⟨hm, ht⟩ := hp
          subst ht
          exact Or.inr ⟨hm.symm, n, rfl, hQ1, by simp only [hQ2]⟩
      · simp only [Res.fail.injEq, Err.panic.injEq] at hp
        exact Or.inl ⟨hp.1.symm, hp.2.symm⟩
  · intro i msg t hp
    rw [bpin_eq i hlk] at hp
    cases hn : s.buf[i]? with
    | none => rw [hn] at hp; cases hp
    | some n =>
      rw [hn] at hp
      simp only at hp
      split at hp
      · cases hp
      · simp only [Res.fail.injEq, Err.panic.injEq] at hp
        obtain ⟨hm, ht⟩ := hp
        subst ht
        exact ⟨hm.symm, n, rfl, hQ1, by simp only [hQ2]⟩
  · intro i msg t hp
    rw [bunpin_eq i hlk] at hp
    cases hn : s.buf[i]? with
    | none => rw [hn] at hp; cases hp
    | some n =>
      rw [hn] at hp
      simp only at hp
      split at hp
      · cases hp
      · simp only [Res.fail.injEq, Err.panic.injEq] at hp
        obtain ⟨hm, ht⟩ := hp
        subst ht
        exact ⟨hm.symm, n, rfl, hQ1, by simp only [hQ2]⟩

set_option maxRecDepth 100000 in
/-- Witness for C13 amended: the pool of one buffer whose only slot is referenced. -/
theorem panic_holds_locks_witness :
    (∃ t, bget exCtx 1 11 exBusy = .fail (.panic .bgetNoBuffers) t) ∧
    ∀ msg t, bget exCtx 1 11 exBusy = .fail (.panic msg) t →
      msg = .bgetNoBuffers ∧ t.lock = some exCtx.cpu ∧
        t.hqlock = (List.replicate NQUEUE none).set (11 % NQUEUE) (some exCtx.cpu) :=
  ⟨⟨(bget exCtx 1 11 exBusy).state, by decide⟩,
    (panic_holds_locks exCtx exBusy exLists (by decide) (by decide)).1 1 11⟩

theorem Spin.addr_inj {a b : Spin} (h : a.addr = b.addr) : a = b := by
  cases a <;> cases b <;> simp only [Spin.addr] at h <;> first | rfl | omega | (congr 1; omega)

theorem getSpin_setSpin_same {s : Bcache} {l : Spin} {v : Option Nat} (w : Option Nat)
    (h : getSpin s l = some v) : getSpin (setSpin s l w) l = some w := by
  cases l with
  | null => cases h
  | bcache => rfl
  | hq q =>
    simp only [getSpin] at h
    simp [getSpin, setSpin, List.getElem?_set, hqlock_lt h]

theorem getSpin_setSpin_ne {s : Bcache} {l l' : Spin} (w : Option Nat) (h : l ≠ l') :
    getSpin (setSpin s l w) l' = getSpin s l' := by
  cases l with
  | null => rfl
  | bcache =>
    cases l' with
    | null => rfl
    | bcache => exact absurd rfl h
    | hq q' => rfl
  | hq q =>
    cases l' with
    | null => rfl
    | bcache => rfl
    | hq q' =>
      have : q ≠ q' := fun e => h (by rw [e])
      simp [getSpin, setSpin, List.getElem?_set_ne this]

theorem setSpin_nodes (s : Bcache) (l : Spin) (w : Option Nat) :
    (setSpin s l w).buf = s.buf ∧ (setSpin s l w).hqhead = s.hqhead ∧
      (setSpin s l w).disk = s.disk := by
  cases l <;> exact ⟨rfl, rfl, rfl⟩

theorem acquire_free {c : Ctx} {s : Bcache} {l : Spin} (h : getSpin s l = some none) :
    acquire c l s = .ok () (setSpin s l (some c.cpu)) := by
  simp only [acquire, h]

theorem release_held {c : Ctx} {s : Bcache} {l : Spin} (h : getSpin s l = some (some c.cpu)) :
    release c l s = .ok () (setSpin s l none) := by
  simp only [release, h, ite_true]

theorem holding_eq {c : Ctx} {s : Bcache} {l : Spin} {v : Option Nat} (h : getSpin s l = some v) :
    holding c l s = .ok (decide (v = some c.cpu)) s := by
  simp only [holding, h]

/-- C14 (two-lock ordering).  When the caller does not hold `lhs`, `lockboth(lhs, rhs)`
panics.  When it does: for `lhs == rhs` no lock operation is run and the state is as it
was; for `rhs` below `lhs` by address the operations run are `release(lhs)`,
`acquire(rhs)`, `acquire(lhs)`, in this order; otherwise the only operation is
`acquire(rhs)`, run with `lhs` held.  In both sequences every `acquire` takes a lock above
all the locks of the pair held at that moment.  And when `rhs` is `lhs` or is free,
`lockboth` returns with both locks held by the caller, every other spinlock and
everything else in the state as before. -/
theorem lockboth_order (c : Ctx) (s : Bcache) (lhs rhs : Spin) (h : Option Nat)
    (hl : getSpin s lhs = some h) :
    (h ≠ some c.cpu → lockboth c lhs rhs s = .fail (.panic .lockbothLhs) s) ∧
    (h = some c.cpu →
      (lhs = rhs → lockboth c lhs rhs s = runOps c [] s ∧ lockboth c lhs rhs s = .ok () s) ∧
      (rhs.addr < lhs.addr →
        lockboth c lhs rhs s = runOps c [.release lhs, .acquire rhs, .acquire lhs] s ∧
        ascending [lhs] [.release lhs, .acquire rhs, .acquire lhs]) ∧
      (lhs ≠ rhs → ¬ rhs.addr < lhs.addr →
        lockboth c lhs rhs s = runOps c [.acquire rhs] s ∧ ascending [lhs] [.acquire rhs]) ∧
      ((lhs = rhs ∨ getSpin s rhs = some none) →
        ∃ s', lockboth c lhs rhs s = .ok () s' ∧
          getSpin s' lhs = some (some c.cpu) ∧ getSpin s' rhs = some (some c.cpu) ∧
          (∀ l, l ≠ lhs → l ≠ rhs → getSpin s' l = getSpin s l) ∧
          s'.buf = s.buf ∧ s'.hqhead = s.hqhead ∧ s'.disk = s.disk)) := by
  constructor
  · intro hne
    simp only [lockboth, bind_apply, holding_eq hl, hne, decide_False, Bool.not_false, ite_true,
      panic]
  · intro hh
    subst hh
    have hstart : ∀ k : M Unit, (do
        let b ← holding c lhs
        if !b then panic .lockbothLhs else k) s = k s := by
      intro k
      simp only [bind_apply, holding_eq hl, decide_True, Bool.not_true, Bool.false_eq_true,
        ite_false]
    have heq : lhs = rhs → lockboth c lhs rhs s = .ok () s := by
      intro e
      unfold lockboth
      rw [hstart]
      simp only [e, ite_true, pure_apply]
    have hre : rhs.addr < lhs.addr →
        lockboth c lhs rhs s = runOps c [.release lhs, .acquire rhs, .acquire lhs] s := by
      intro hlt
      have hne : lhs ≠ rhs := fun e => by rw [e] at hlt; exact Nat.lt_irrefl _ hlt
      unfold lockboth
      rw [hstart]
      simp only [hne, ite_false, gt_iff_lt, hlt, ite_true, runOps, LockOp.run, bind_apply]
      cases release c lhs s with
      | fail e t => rfl
      | ok u t =>
        simp only
        cases acquire c rhs t with
        | fail e t2 => rfl
        | ok u2 t2 =>
          simp only
          cases acquire c lhs t2 with
          | fail e t3 => rfl
          | ok u3 t3 => rfl
    have hin : lhs ≠ rhs → ¬ rhs.addr < lhs.addr →
        lockboth c lhs rhs s = runOps c [.acquire rhs] s := by
      intro hne hnlt
      unfold lockboth
      rw [hstart]
      simp only [hne, ite_false, gt_iff_lt, hnlt, runOps, LockOp.run, bind_apply]
      cases acquire c rhs s with
      | fail e t => rfl
      | ok u t => rfl
    refine ⟨fun e => ⟨by rw [heq e]; rfl, heq e⟩, fun hlt => ⟨hre hlt, ?_⟩,
      fun hne hnlt => ⟨hin hne hnlt, ?_⟩, ?_⟩
    · simp only [ascending, List.erase_cons_head, List.not_mem_nil, false_implies, implies_true,
        List.mem_singleton, forall_eq, hlt, and_self]
    · have : lhs.addr < rhs.addr := by
        rcases Nat.lt_trichotomy lhs.addr rhs.addr with e | e | e
        · exact e
        · exact absurd (Spin.addr_inj e) hne
        · exact absurd e hnlt
      simp only [ascending, List.mem_singleton, forall_eq, this, and_self]
    · intro hr
      by_cases e : lhs = rhs
      · subst e
        exact ⟨s, heq rfl, hl, hl, fun _ _ _ => rfl, rfl, rfl, rfl⟩
      · have hrf : getSpin s rhs = some none := by
          rcases hr with hr | hr
          · exact absurd hr e
          · exact hr
        have e' : rhs ≠ lhs := fun x => e x.symm
        by_cases hlt : rhs.addr < lhs.addr
        · have h1 : getSpin (setSpin s lhs none) rhs = some none := by
            rw [getSpin_setSpin_ne none e]; exact hrf
          have h2 : getSpin (setSpin (setSpin s lhs none) rhs (some c.cpu)) lhs = some none := by
            rw [getSpin_setSpin_ne _ e']; exact getSpin_setSpin_same none hl
          refine ⟨setSpin (setSpin (setSpin s lhs none) rhs (some c.cpu)) lhs (some c.cpu),
            ?_, getSpin_setSpin_same _ h2, ?_, ?_, ?_, ?_, ?_⟩
          · rw [hre hlt]
            simp only [runOps, LockOp.run, bind_apply, release_held hl, acquire_free h1,
              acquire_free h2, pure_apply]
          · rw [getSpin_setSpin_ne _ e]; exact getSpin_setSpin_same _ h1
          · intro l hl1 hl2
            rw [getSpin_setSpin_ne _ (Ne.symm hl1), getSpin_setSpin_ne _ (Ne.symm hl2),
              getSpin_setSpin_ne _ (Ne.symm hl1)]
          · rw [(setSpin_nodes _ _ _).1, (setSpin_nodes _ _ _).1, (setSpin_nodes _ _ _).1]
          · rw [(setSpin_nodes _ _ _).2.1, (setSpin_nodes _ _ _).2.1, (setSpin_nodes _ _ _).2.1]
          · rw [(setSpin_nodes _ _ _).2.2, (setSpin_nodes _ _ _).2.2, (setSpin_nodes _ _ _).2.2]
        · refine ⟨setSpin s rhs (some c.cpu), ?_, ?_, getSpin_setSpin_same _ hrf, ?_,
            (setSpin_nodes _ _ _).1, (setSpin_nodes _ _ _).2.1, (setSpin_nodes _ _ _).2.2⟩
          · rw [hin e hlt]
            simp only [runOps, LockOp.run, bind_apply, acquire_free hrf, pure_apply]
          · rw [getSpin_setSpin_ne _ e']; exact hl
          · intro l _ hl2
            rw [getSpin_setSpin_ne _ (Ne.symm hl2)]

set_option maxRecDepth 100000 in
/-- Witness for C14: the caller holds the lock of bucket 5 and asks for that of bucket 2,
which lies below it, and for that of bucket 7, which lies above it. -/
theorem lockboth_order_witness :
    (lockboth exCtx (.hq 5) (.hq 2) exLocked =
        runOps exCtx [.release (.hq 5), .acquire (.hq 2), .acquire (.hq 5)] exLocked ∧
      ascending [.hq 5] [.release (.hq 5), .acquire (.hq 2), .acquire (.hq 5)]) ∧
    (lockboth exCtx (.hq 5) (.hq 7) exLocked = runOps exCtx [.acquire (.hq 7)] exLocked ∧
      ascending [.hq 5] [.acquire (.hq 7)]) ∧
    (∃ s', lockboth exCtx (.hq 5) (.hq 2) exLocked = .ok () s' ∧
      getSpin s' (.hq 5) = some (some exCtx.cpu) ∧ getSpin s' (.hq 2) = some (some exCtx.cpu) ∧
      (∀ l, l ≠ .hq 5 → l ≠ .hq 2 → getSpin s' l = getSpin exLocked l) ∧
      s'.buf = exLocked.buf ∧ s'.hqhead = exLocked.hqhead ∧ s'.disk = exLocked.disk) ∧
    lockboth exCtx (.hq 4) (.hq 5) exLocked = .fail (.panic .lockbothLhs) exLocked :=
  have h2 := (lockboth_order exCtx exLocked (.hq 5) (.hq 2) (some exCtx.cpu) (by decide)).2 rfl
  have h7 := (lockboth_order exCtx exLocked (.hq 5) (.hq 7) (some exCtx.cpu) (by decide)).2 rfl
  ⟨h2.2.1 (by decide), h7.2.2.1 (by decide) (by decide), h2.2.2.2 (Or.inr (by decide)),
    (lockboth_order exCtx exLocked (.hq 4) (.hq 5) none (by decide)).1 (by decide)⟩

/-- The hit path of `bget` up to the call of `acquiresleep`: the first match has one more
reference and the bucket lock has been released. -/
theorem bget_hit_sleep {c : Ctx} {s : Bcache} {L : Nat → List Nat} {dev blockno i : Nat} {n : Buf}
    (hL : Linked s L) (hlk : s.hqlock[blockno % NQUEUE]? = some none)
    (hfind : (L (blockno % NQUEUE)).find? (keyMatch s dev blockno) = some i)
    (hn : s.buf[i]? = some n) :
    bget c dev blockno s =
      (acquiresleep c (.buf i) >>= fun _ => pure (Ptr.buf i))
        { s with buf := s.buf.set i { n with refcnt := uintInc n.refcnt } } := by
  have hq := mod_NQUEUE_lt blockno
  obtain ⟨s1, hs1⟩ : ∃ s1 : Bcache,
      s1 = { s with hqlock := s.hqlock.set (blockno % NQUEUE) (some c.cpu) } := ⟨_, rfl⟩
  have hL1 : Linked s1 L := hL.of_nodes (by rw [hs1]) (by rw [hs1])
  obtain ⟨h, hh⟩ := getNode_head_some (s := s1) (q := blockno % NQUEUE) (by rw [hL1.heads]; exact hq)
  have hp := hL1.path _ hq
  obtain ⟨h', hh', hnext⟩ := nxt_eq_some (path_first hp)
  rw [hh] at hh'
  have hnext' : h.next = firstPtr (L (blockno % NQUEUE)) (.head (blockno % NQUEUE)) := by
    rw [Option.some.inj hh']; exact hnext
  have hlook := lookup_path (s := s1) dev blockno _ _ (s1.buf.length + NQUEUE + 1) hp
    (hL1.bound _ hq) (by have := hL1.length_le hq; omega)
  rw [keyMatch_congr s s1 (by rw [hs1]), hfind] at hlook
  have himem : i ∈ L (blockno % NQUEUE) := List.mem_of_find?_eq_some hfind
  obtain ⟨n0, hn0, hn0n, _⟩ := hL.member_links hq himem
  have hnn0 : n0 = n := by
    simp only [getNode] at hn0
    rw [hn] at hn0
    exact (Option.some.inj hn0).symm
  subst hnn0
  have hn1 : getNode s1 (.buf i) = some n0 := by rw [hs1]; exact hn
  simp only [bget, gethashqueue_eq, lockOf, headOf, bind_apply, acquire_hq hlk, ← hs1, rd_ok hh,
    hnext', hlook, Option.map_some', wr_ok hn1, isin_hashqueue, pure_apply]
  rw [rd_ok (getNode_setNode_same hn1 _)]
  simp only [ne_eq, hn0n, not_false_eq_true, or_true, decide_True, Bool.not_true,
    Bool.false_eq_true, ite_false, bind_apply]
  rw [release_hq (by simp [setNode, hs1, List.getElem?_set, hq, hlk]
                     exact hqlock_lt hlk)]
  simp only [setNode, hs1, List.set_set, list_set_self _ _ _ hlk]
  rfl

/-- The allocation path of `bget` up to the label `found`: with no match in the target
bucket `q` and `v` the lowest slot with `refcnt == 0`, formerly of bucket `oq`, the code
after `found` is entered with `hq` and `ohq` pointing to these two buckets, holding
`bcache.lock` and the locks of both, and nothing else changed. -/
theorem bget_miss_found {c : Ctx} {s : Bcache} {L : Nat → List Nat} {dev blockno v : Nat}
    {n : Buf} (hL : Linked s L) (hQ : Quiet s)
    (hfind : (L (blockno % NQUEUE)).find? (keyMatch s dev blockno) = none)
    (hvic : victim s = some v) (hn : s.buf[v]? = some n) :
    bget c dev blockno s =
      bget_found c dev blockno (some (blockno % NQUEUE)) (some (n.blockno % NQUEUE)) (.buf v)
        { s with
          lock := some c.cpu
          hqlock :=
            if n.blockno % NQUEUE = blockno % NQUEUE then
              (List.replicate NQUEUE none).set (blockno % NQUEUE) (some c.cpu)
            else ((List.replicate NQUEUE none).set (blockno % NQUEUE) (some c.cpu)).set
              (n.blockno % NQUEUE) (some c.cpu) } := by
  have hq := mod_NQUEUE_lt blockno
  obtain ⟨hQ1, hQ2⟩ := hQ
  have hlk : s.hqlock[blockno % NQUEUE]? = some none := by rw [hQ2]; exact replicate_get hq
  have hstart := bget_to_miss (c := c) hL hlk hfind
  obtain ⟨s3, hs3⟩ : ∃ s3 : Bcache, s3 =
      { s with
        lock := some c.cpu
        hqlock := (List.replicate NQUEUE none).set (blockno % NQUEUE) (some c.cpu) } := ⟨_, rfl⟩
  have h3q : s3.hqlock[blockno % NQUEUE]? = some (some c.cpu) := by
    rw [hs3]; simp [List.getElem?_set, hq]
  have h3o : ∀ q', q' < NQUEUE → q' ≠ blockno % NQUEUE → s3.hqlock[q']? = some none := by
    intro q' hq' hne
    rw [hs3]; simp [List.getElem?_set, Ne.symm hne, List.getElem?_replicate, hq']
  have hev := bget_evict_spec (c := c) h3q h3o s3.buf.length 0 (by simp)
  have hmiss : bget c dev blockno s =
      (bget_evict c (some (blockno % NQUEUE)) 0 s.buf.length >>= fun r =>
        bget_found c dev blockno (some (blockno % NQUEUE)) r.2 r.1) s3 := by
    rw [hstart]
    unfold bget_miss
    simp only [lockOf]
    rw [bind_ok (release_hq (by simp [List.getElem?_set, hqlock_lt hlk]))]
    simp only [List.set_set, list_set_self _ _ _ hlk]
    rw [bind_ok (t := { s with lock := some c.cpu }) (a := ())
      (by simp [acquire, getSpin, setSpin, hQ1])]
    rw [bind_apply]
    simp only
    rw [bind_ok (bget_unused_none _ _ _ (by simp))]
    simp only
    rw [bind_ok (t := s3) (a := ())
      (by rw [acquire_hq (by simpa using hlk), hs3, hQ2])]
  have hb3 : s3.buf = s.buf := by rw [hs3]
  have hvs : victimFrom (s3.buf.drop 0) 0 = victim s := by rw [hb3]; rfl
  have hlen3 : s3.buf.length = s.buf.length := by rw [hb3]
  rw [hvs, hlen3, hvic] at hev
  simp only at hev
  rw [getD_of_getElem? (l := s3.buf) (by rw [hb3]; exact hn)] at hev
  rw [hmiss, bind_ok hev, gethashqueue_eq, hs3]

theorem bind_eq_ok {α β : Type} {x : M α} {f : α → M β} {s t : Bcache} {r : β}
    (h : (x >>= f) s = .ok r t) : ∃ a s1, x s = .ok a s1 ∧ f a s1 = .ok r t := by
  rw [bind_apply] at h
  cases hx : x s with
  | ok a s1 => rw [hx] at h; exact ⟨a, s1, rfl, h⟩
  | fail e s1 => rw [hx] at h; cases h

/-- At the label `found` with `ohq == 0`, the test `holding(&ohq->lock)` reads through a
null pointer: the code after `found` does not return. -/
theorem bget_found_null (c : Ctx) (dev blockno : Nat) (hq : Option Nat) (b : Ptr) (t : Bcache) :
    ∀ r t', bget_found c dev blockno hq none b t ≠ .ok r t' := by
  intro r t' h
  unfold bget_found at h
  obtain ⟨_, _, _, h⟩ := bind_eq_ok h
  obtain ⟨_, _, _, h⟩ := bind_eq_ok h
  obtain ⟨_, _, _, h⟩ := bind_eq_ok h
  obtain ⟨_, _, _, h⟩ := bind_eq_ok h
  obtain ⟨_, _, _, h⟩ := bind_eq_ok h
  obtain ⟨_, _, _, h⟩ := bind_eq_ok h
  obtain ⟨_, _, _, h⟩ := bind_eq_ok h
  simp only at h
  split at h
  all_goals
    obtain ⟨_, _, _, h⟩ := bind_eq_ok h
    obtain ⟨_, _, hh, _⟩ := bind_eq_ok h
    simp only [holding, lockOf, getSpin] at hh
    cases hh

/-- The scan for never-used slots never leaves the loop through `goto found`. -/
theorem bget_unused_ok : ∀ (m i : Nat) (t t' : Bcache) (r : Option Ptr),
    bget_unused i m t = .ok r t' → r = none
  | 0, i, t, t', r, h => by
    simp only [bget_unused, pure_apply, Res.ok.injEq] at h
    exact h.1.symm
  | m + 1, i, t, t', r, h => by
    unfold bget_unused at h
    obtain ⟨x, t1, _, h⟩ := bind_eq_ok h
    have : uintLtZero x.blockno = false := by simp [uintLtZero]
    simp only [this, Bool.false_eq_true, ite_false] at h
    exact bget_unused_ok m (i + 1) t1 t' r h

/-- Whenever the eviction loop leaves through `goto found`, `ohq` points to one of the
`NQUEUE` buckets. -/
theorem bget_evict_ok (c : Ctx) (hq : Option Nat) : ∀ (m i : Nat) (t t' : Bcache)
    (r : Ptr × Option Nat), bget_evict c hq i m t = .ok r t' →
    ∃ j oq, r = (.buf j, some oq) ∧ oq < NQUEUE
  | 0, i, t, t', r, h => by
    simp only [bget_evict, panic] at h
    cases h
  | m + 1, i, t, t', r, h => by
    unfold bget_evict at h
    obtain ⟨x, t1, _, h⟩ := bind_eq_ok h
    simp only at h
    obtain ⟨_, t2, _, h⟩ := bind_eq_ok h
    obtain ⟨y, t3, _, h⟩ := bind_eq_ok h
    split at h
    · simp only [pure_apply, Res.ok.injEq] at h
      exact ⟨i, x.blockno % NQUEUE, by rw [← h.1, gethashqueue_eq], mod_NQUEUE_lt _⟩
    · split at h
      all_goals
        obtain ⟨_, t4, _, h⟩ := bind_eq_ok h
        exact bget_evict_ok c hq m (i + 1) t4 t' r h

theorem victimFrom_congr : ∀ (l l' : List Buf) (i : Nat),
    l'.map Buf.refcnt = l.map Buf.refcnt → victimFrom l' i = victimFrom l i
  | [], [], _, _ => rfl
  | [], _ :: _, _, h => by simp at h
  | _ :: _, [], _, h => by simp at h
  | a :: l, b :: l', i, h => by
    simp only [List.map_cons, List.cons.injEq] at h
    simp only [victimFrom, h.1, victimFrom_congr l l' (i + 1) h.2]

theorem withSleeplock_eq {s : Bcache} {v : Nat} {n : Buf} (hn : s.buf[v]? = some n)
    (p : Option Nat) :
    withSleeplock s v p = { s with buf := s.buf.set v { n with lock := p } } := by
  simp only [withSleeplock, hn]

/-- Setting a sleeplock changes neither the lists, nor the spinlocks, nor the slot that
`bget` settles on. -/
theorem withSleeplock_chosen {s : Bcache} {L : Nat → List Nat} {dev blockno v : Nat} {n : Buf}
    (hL : Linked s L) (hQ : Quiet s) (hn : s.buf[v]? = some n)
    (hc : Chosen s L dev blockno v) (p : Option Nat) :
    Linked (withSleeplock s v p) L ∧ Quiet (withSleeplock s v p) ∧
      (withSleeplock s v p).buf[v]? = some { n with lock := p } ∧
      Chosen (withSleeplock s v p) L dev blockno v := by
  rw [withSleeplock_eq hn]
  have hk : keyMatch { s with buf := s.buf.set v { n with lock := p } } dev blockno =
      keyMatch s dev blockno :=
    keyMatch_set (m := { n with lock := p }) hn rfl rfl s.disk dev blockno
  have hv : victim { s with buf := s.buf.set v { n with lock := p } } = victim s :=
    victimFrom_congr _ _ 0 (map_set_same Buf.refcnt _ _ _ n hn rfl)
  refine ⟨hL.of_links (map_links_set _ _ n _ hn rfl) rfl, hQ, ?_, ?_⟩
  · simp [List.getElem?_set, buf_lt hn]
  · unfold Chosen
    rw [hk, hv]
    exact hc

/-- The call `acquiresleep(&b->lock)` followed by `return b`: it waits in the state it
was called in when the sleeplock is held, and takes the sleeplock otherwise. -/
theorem sleep_or_return {c : Ctx} {sf : Bcache} {v : Nat} {y : Buf} (hy : sf.buf[v]? = some y) :
    (y.lock ≠ none →
      (acquiresleep c (.buf v) >>= fun _ => pure (Ptr.buf v)) sf = .fail .sleep sf) ∧
    (y.lock = none →
      (acquiresleep c (.buf v) >>= fun _ => pure (Ptr.buf v)) sf =
        .ok (.buf v) { sf with buf := sf.buf.set v { y with lock := some c.pid } }) := by
  have h := acquiresleep_buf (c := c) hy
  constructor
  · intro hl
    cases hlock : y.lock with
    | none => exact absurd hlock hl
    | some p =>
      rw [hlock] at h
      exact bind_fail h
  · intro hl
    rw [hl] at h
    exact bind_ok h

theorem lock_map_of_data {s s' : Bcache} {v : Nat} {n : Buf}
    {d : Bool × Nat × Nat × Option Nat × Nat}
    (h : s'.buf.map Buf.data = (s.buf.map Buf.data).set v d) (hn : s.buf[v]? = some n)
    (hd : d.2.2.2.1 = n.lock) : s'.buf.map Buf.lock = s.buf.map Buf.lock := by
  have e : ∀ l : List Buf, l.map Buf.lock =
      (l.map Buf.data).map (fun x : Bool × Nat × Nat × Option Nat × Nat => x.2.2.2.1) := by
    intro l
    rw [List.map_map]
    rfl
  rw [e s'.buf, h, List.map_set, ← e s.buf, hd]
  exact list_set_self _ _ _ (by rw [List.getElem?_map, hn]; rfl)

/-- Up to its call of `acquiresleep`, `bget` has released every spinlock it took and has
touched no sleeplock: the call is made in a state `sf` with no spinlock held. -/
theorem bget_at_sleep {c : Ctx} {s : Bcache} {L : Nat → List Nat} {dev blockno v : Nat} {n : Buf}
    (hL : Linked s L) (hQ : Quiet s) (hn : s.buf[v]? = some n)
    (hc : Chosen s L dev blockno v) :
    ∃ sf, bget c dev blockno s = (acquiresleep c (.buf v) >>= fun _ => pure (Ptr.buf v)) sf ∧
      Quiet sf ∧ sf.buf.map Buf.lock = s.buf.map Buf.lock := by
  have hq := mod_NQUEUE_lt blockno
  rcases hc with hfind | ⟨hfind, hvic⟩
  · exact ⟨{ s with buf := s.buf.set v { n with refcnt := uintInc n.refcnt } },
      bget_hit_sleep hL (quiet_hqlock hQ hq) hfind hn, hQ,
      map_set_same Buf.lock _ _ _ n hn rfl⟩
  · have hmiss := bget_miss_spec (c := c) hL hQ hfind
    rw [hvic] at hmiss
    obtain ⟨sf, n', hn', hQf, _, _, hdata, _, hrun⟩ := hmiss
    exact ⟨sf, hrun, hQf, lock_map_of_data hdata hn' rfl⟩

/-- The eviction loop of `bget`, entered with `bcache.lock` and the lock of the target
bucket held: it leaves through `goto found` at the lowest slot with `refcnt == 0`, with
`ohq` the bucket of that slot and its lock taken as well. -/
theorem bget_miss_evict {c : Ctx} {s : Bcache} {blockno v : Nat} {n : Buf}
    (hvic : victim s = some v) (hn : s.buf[v]? = some n) :
    bget_evict c (some (blockno % NQUEUE)) 0 s.buf.length
        { s with
          lock := some c.cpu
          hqlock := (List.replicate NQUEUE none).set (blockno % NQUEUE) (some c.cpu) } =
      .ok (.buf v, some (n.blockno % NQUEUE))
        { s with
          lock := some c.cpu
          hqlock :=
            if n.blockno % NQUEUE = blockno % NQUEUE then
              (List.replicate NQUEUE none).set (blockno % NQUEUE) (some c.cpu)
            else ((List.replicate NQUEUE none).set (blockno % NQUEUE) (some c.cpu)).set
              (n.blockno % NQUEUE) (some c.cpu) } := by
  have hq := mod_NQUEUE_lt blockno
  obtain ⟨s3, hs3⟩ : ∃ s3 : Bcache, s3 =
      { s with
        lock := some c.cpu
        hqlock := (List.replicate NQUEUE none).set (blockno % NQUEUE) (some c.cpu) } := ⟨_, rfl⟩
  have h3q : s3.hqlock[blockno % NQUEUE]? = some (some c.cpu) := by
    rw [hs3]; simp [List.getElem?_set, hq]
  have h3o : ∀ q', q' < NQUEUE → q' ≠ blockno % NQUEUE → s3.hqlock[q']? = some none := by
    intro q' hq' hne
    rw [hs3]; simp [List.getElem?_set, Ne.symm hne, List.getElem?_replicate, hq']
  have hev := bget_evict_spec (c := c) h3q h3o s3.buf.length 0 (by simp)
  have hb3 : s3.buf = s.buf := by rw [hs3]
  have hvs : victimFrom (s3.buf.drop 0) 0 = victim s := by rw [hb3]; rfl
  have hlen3 : s3.buf.length = s.buf.length := by rw [hb3]
  rw [hvs, hlen3, hvic] at hev
  simp only at hev
  rw [getD_of_getElem? (l := s3.buf) (by rw [hb3]; exact hn), gethashqueue_eq] at hev
  rw [← hs3, hev, hs3]

/-- C16 (lock balance on success): for `bget(dev, blockno)` from a well-formed state in
which no spinlock is held.  Every call that returns has settled on a slot `v` (the
first match in the target bucket or, without a match, the lowest slot with
`refcnt == 0`) whose sleeplock was free.  For every slot `v` the call settles on, the
whole call is the call `acquiresleep(&b->lock)` made in a state `sf` in which no
spinlock is held and every sleeplock is as at entry: if the sleeplock of `v` is held the
call waits in `acquiresleep` in that state, holding no spinlock, and the same holds when
the sleeplock is first given to any other process `p`; if it is free the call returns
`v` with no spinlock held, the sleeplock of `v` held by the caller and every other
sleeplock unchanged.  On the allocation path the scan for never-used slots finds
nothing, the eviction loop leaves through `goto found` with `hq` and `ohq` pointing to
the buckets `blockno % NQUEUE` and `b->blockno % NQUEUE`, both among the `NQUEUE`
buckets, and the code after `found` starts in the state `t` the loop ended in, where
the caller holds `bcache.lock` and the locks of these two buckets.  In any state at all,
the scan for never-used slots never leaves through `goto found`, and the eviction loop
only does so with `ohq` pointing to an existing bucket. -/
theorem bget_lock_balance (c : Ctx) (s : Bcache) (L : Nat → List Nat) (dev blockno : Nat)
    (hL : Linked s L) (hQ : Quiet s) :
    (∀ b s', bget c dev blockno s = .ok b s' →
      ∃ v n, b = .buf v ∧ s.buf[v]? = some n ∧ n.lock = none ∧ Chosen s L dev blockno v) ∧
    (∀ v n, s.buf[v]? = some n → Chosen s L dev blockno v →
      (∃ sf, bget c dev blockno s =
          (acquiresleep c (.buf v) >>= fun _ => pure (Ptr.buf v)) sf ∧
        Quiet sf ∧ sf.buf.map Buf.lock = s.buf.map Buf.lock ∧
        (n.lock ≠ none → bget c dev blockno s = .fail .sleep sf) ∧
        (n.lock = none → ∃ s' x, bget c dev blockno s = .ok (.buf v) s' ∧ Quiet s' ∧
          s'.buf[v]? = some x ∧ x.lock = some c.pid ∧
          ∀ j, j ≠ v → (s'.buf[j]?).map Buf.lock = (s.buf[j]?).map Buf.lock)) ∧
      (∀ p, ∃ sp, Quiet sp ∧
        bget c dev blockno (withSleeplock s v (some p)) = .fail .sleep sp) ∧
      ((L (blockno % NQUEUE)).find? (keyMatch s dev blockno) = none →
        gethashqueue blockno = some (blockno % NQUEUE) ∧ blockno % NQUEUE < NQUEUE ∧
        gethashqueue n.blockno = some (n.blockno % NQUEUE) ∧ n.blockno % NQUEUE < NQUEUE ∧
        bget_unused 0 s.buf.length { s with lock := some c.cpu } =
          .ok none { s with lock := some c.cpu } ∧
        ∃ t, bget_evict c (gethashqueue blockno) 0 s.buf.length
              { s with
                lock := some c.cpu
                hqlock := (List.replicate NQUEUE none).set (blockno % NQUEUE) (some c.cpu) } =
            .ok (.buf v, gethashqueue n.blockno) t ∧
          bget c dev blockno s =
            bget_found c dev blockno (gethashqueue blockno) (gethashqueue n.blockno) (.buf v) t ∧
          t.hqlock.length = NQUEUE ∧
          holding c .bcache t = .ok true t ∧
          holding c (.hq (blockno % NQUEUE)) t = .ok true t ∧
          holding c (.hq (n.blockno % NQUEUE)) t = .ok true t)) ∧
    (∀ m i t t' r, bget_unused i m t = .ok r t' → r = none) ∧
    (∀ hq m i t t' r, bget_evict c hq i m t = .ok r t' →
      ∃ j oq, r = (.buf j, some oq) ∧ oq < NQUEUE) := by
  have hq := mod_NQUEUE_lt blockno
  refine ⟨?_, ?_, fun m i t t' r h => bget_unused_ok m i t t' r h,
    fun hq' m i t t' r h => bget_evict_ok c hq' m i t t' r h⟩
  · intro b s' hg
    rcases bget_outcome (c := c) dev blockno hL hQ with ⟨v, s1, h1, hp⟩ | ⟨s1, h1, _⟩ | ⟨s1, h1, _⟩
    · rw [hg] at h1
      simp only [Res.ok.injEq] at h1
      rcases hp with ⟨n, hfind, hn, hlock, _⟩ | ⟨n, hfind, hvic, hn, hlock, _⟩
      · exact ⟨v, n, h1.1, hn, hlock, Or.inl hfind⟩
      · exact ⟨v, n, h1.1, hn, hlock, Or.inr ⟨hfind, hvic⟩⟩
    · rw [hg] at h1; cases h1
    · rw [hg] at h1; cases h1
  · intro v n hn hc
    refine ⟨?_, ?_, ?_⟩
    · obtain ⟨sf, hrun, hQf, hlocks⟩ := bget_at_sleep (c := c) hL hQ hn hc
      have hy : ∃ y, sf.buf[v]? = some y ∧ y.lock = n.lock := by
        have h1 : (sf.buf.map Buf.lock)[v]? = some n.lock := by
          rw [hlocks, List.getElem?_map, hn]; rfl
        rw [List.getElem?_map] at h1
        obtain ⟨y, hy, hyl⟩ := Option.map_eq_some'.mp h1
        exact ⟨y, hy, hyl⟩
      obtain ⟨y, hy, hyl⟩ := hy
      have hsr := sleep_or_return (c := c) hy
      refine ⟨sf, hrun, hQf, hlocks, fun hl => ?_, fun hl => ?_⟩
      · rw [hrun]; exact hsr.1 (by rw [hyl]; exact hl)
      · refine ⟨{ sf with buf := sf.buf.set v { y with lock := some c.pid } },
          { y with lock := some c.pid }, by rw [hrun]; exact hsr.2 (by rw [hyl]; exact hl),
          ⟨hQf.1, hQf.2⟩, ?_, rfl, ?_⟩
        · simp [List.getElem?_set, buf_lt hy]
        · intro j hj
          have h2 : (sf.buf[j]?).map Buf.lock = (s.buf[j]?).map Buf.lock := by
            rw [← List.getElem?_map, ← List.getElem?_map, hlocks]
          rw [← h2]
          simp only [List.getElem?_set_ne (Ne.symm hj)]
    · intro p
      obtain ⟨hL2, hQ2, hn2, hc2⟩ := withSleeplock_chosen hL hQ hn hc (some p)
      obtain ⟨sp, hrun, hQp, hlocks⟩ := bget_at_sleep (c := c) hL2 hQ2 hn2 hc2
      have hy : ∃ y, sp.buf[v]? = some y ∧ y.lock = some p := by
        have h1 : (sp.buf.map Buf.lock)[v]? = some (some p) := by
          rw [hlocks, List.getElem?_map, hn2]; rfl
        rw [List.getElem?_map] at h1
        obtain ⟨y, hy, hyl⟩ := Option.map_eq_some'.mp h1
        exact ⟨y, hy, hyl⟩
      obtain ⟨y, hy, hyl⟩ := hy
      exact ⟨sp, hQp, by rw [hrun]; exact (sleep_or_return (c := c) hy).1 (by simp [hyl])⟩
    · intro hfind
      have hvic : victim s = some v := by
        rcases hc with h | ⟨_, h⟩
        · rw [hfind] at h; cases h
        · exact h
      have hoq := mod_NQUEUE_lt n.blockno
      refine ⟨gethashqueue_eq _, hq, gethashqueue_eq _, hoq, bget_unused_none _ _ _ (by simp),
        _, by rw [gethashqueue_eq, gethashqueue_eq]; exact bget_miss_evict hvic hn,
        by rw [gethashqueue_eq, gethashqueue_eq]; exact bget_miss_found hL hQ hfind hvic hn,
        ?_, ?_, ?_, ?_⟩
      · simp only
        split <;> simp
      · simp [holding, getSpin]
      · by_cases e : n.blockno % NQUEUE = blockno % NQUEUE
        · simp [holding, getSpin, e, List.getElem?_set, hq]
        · simp [holding, getSpin, e, List.getElem?_set, hq]
      · by_cases e : n.blockno % NQUEUE = blockno % NQUEUE
        · simp [holding, getSpin, e, List.getElem?_set, hq]
        · simp [holding, getSpin, e, List.getElem?_set, hoq]

set_option maxRecDepth 100000 in
/-- Witness for C16: `bget(1, 10)` on the pool where slot 0 caches block 10 and its
sleeplock is held waits in `acquiresleep` with no spinlock held; `bget(1, 12)` on the pool
of two buffers that cache blocks 10 and 11, both unreferenced, evicts slot 0 and returns
it. -/
theorem bget_lock_balance_witness :
    (∃ sf, bget exCtx 1 10 exHeld = .fail .sleep sf ∧ Quiet sf ∧
      sf.buf.map Buf.lock = exHeld.buf.map Buf.lock) ∧
    (∃ s' x, bget exCtx 1 12 exFull = .ok (.buf 0) s' ∧ Quiet s' ∧
      s'.buf[0]? = some x ∧ x.lock = some exCtx.pid ∧
      ∀ j, j ≠ 0 → (s'.buf[j]?).map Buf.lock = (exFull.buf[j]?).map Buf.lock) ∧
    (∀ p, ∃ sp, Quiet sp ∧
      bget exCtx 1 12 (withSleeplock exFull 0 (some p)) = .fail .sleep sp) ∧
    (∃ t, bget_evict exCtx (gethashqueue 12) 0 exFull.buf.length
          { exFull with
            lock := some exCtx.cpu
            hqlock := (List.replicate NQUEUE none).set (12 % NQUEUE) (some exCtx.cpu) } =
        .ok (.buf 0, gethashqueue 10) t ∧
      bget exCtx 1 12 exFull =
        bget_found exCtx 1 12 (gethashqueue 12) (gethashqueue 10) (.buf 0) t ∧
      holding exCtx .bcache t = .ok true t ∧
      holding exCtx (.hq (12 % NQUEUE)) t = .ok true t ∧
      holding exCtx (.hq (10 % NQUEUE)) t = .ok true t) :=
  have h1 := (bget_lock_balance exCtx exHeld exLists 1 10 (by decide) (by decide)).2.1 0
    { valid := true, dev := 1, blockno := 10, lock := some 1, refcnt := 1,
      prev := .head 10, next := .head 10 } (by decide) (Or.inl (by decide))
  have h2 := (bget_lock_balance exCtx exFull exFullLists 1 12 (by decide) (by decide)).2.1 0
    { valid := true, dev := 1, blockno := 10, lock := none, refcnt := 0,
      prev := .head 10, next := .head 10 } (by decide) (Or.inr ⟨by decide, by decide⟩)
  ⟨match h1.1 with
    | ⟨sf, _, hQf, hlocks, hsl, _⟩ => ⟨sf, hsl (by decide), hQf, hlocks⟩,
   match h2.1 with
    | ⟨_, _, _, _, _, hret⟩ => hret rfl,
   h2.2.1,
   match h2.2.2 (by decide) with
    | ⟨_, _, _, _, _, t, he, hf, _, hb, hh, ho⟩ => ⟨t, he, hf, hb, hh, ho⟩⟩

end Bio
